import Mathlib

/-!
# The recursive-descent parser of the toy language (`parse.cpp`)

A shallow embedding of `parse.cpp`: the token cursor and the node arena
`ExprStorage` are an explicit `State`, every parse function is a Lean function
on that state, and the functions that recurse or loop take a `fuel` argument
(one unit per call and per loop iteration).  The option parser of `main.cpp` is
embedded next to it, and the parse functions are given a second time with a
bound on the call stack, to measure the recursion depth.
-/

namespace Toy

/-! ## Tokens and the token cursor (`lexer.h`, not part of the sources) -/

/-- Modelled from the spec: the `Token` of the missing `lexer.h`, a tag with its
payload (identifier name, numeric literal, operator character).  The numeric
payload is a C++ `double` that the parser only copies from the token into the
node; it is carried here as an uninterpreted `Nat`. -/
inductive Token where
  | TOKEN_IDENTIFIER (Identifier : String)
  | TOKEN_NUMBER (Number : Nat)
  | TOKEN_OP (Op : Char)
  | TOKEN_LPAREN
  | TOKEN_RPAREN
  | TOKEN_LBRACE
  | TOKEN_RBRACE
  | TOKEN_COMMA
  | TOKEN_SEMICOLON
  | TOKEN_IF
  | TOKEN_ELSE
  | TOKEN_DEF
  | TOKEN_EXTERN
  | TOKEN_EOF
  deriving DecidableEq, Repr

/-! ## AST nodes (`ast.h`, and `parse.h`, not part of the sources) -/

/-- The node `PrototypeAST(Name, Args)`. -/
structure PrototypeAST where
  Name_ : String
  Args_ : List String
  deriving DecidableEq, Repr

/-- The node hierarchy rooted at `ExprAST`, one constructor per node class (named
as in the specification); a child pointer is the child tree and a null
`ElseExpr_` is `none`.  The classes `IfExprAST` and `BlockExprAST` are declared
in `parse.h`, which is not part of the sources: their fields are the ones their
constructors receive and their `dump` functions read in `parse.cpp`. -/
inductive ExprAST where
  | NumberExpr (Val_ : Nat)
  | VariableExpr (Name_ : String)
  | BinaryExpr (Op_ : Char) (Left_ Right_ : ExprAST)
  | PrototypeExpr (Prototype : PrototypeAST)
  | FunctionExpr (Prototype_ : PrototypeAST) (Body_ : ExprAST)
  | CallExpr (Callee_ : String) (Args_ : List ExprAST)
  | IfExpr (CondExpr_ ThenExpr_ : ExprAST) (ElseExpr_ : Option ExprAST)
  | BlockExpr (Exprs_ : List ExprAST)
  deriving Repr

/-- The mutable state the parser works on: the lexer's cursor (current token,
one-token pushback slot, tokens not yet delivered) and the global arena
`ExprStorage`. -/
structure State where
  Curr : Token
  Buffered : Option Token
  Input : List Token
  ExprStorage : List ExprAST

/-- Modelled from the spec: `currToken()` of the missing lexer, the current token. -/
def currToken (s : State) : Token := s.Curr

/-- Modelled from the spec: `getNextToken()` of the missing lexer (the macro
`nextToken()` only logs its result).  A token held in the pushback slot is
delivered again first; otherwise the next token of the input is delivered, and
end-of-input is delivered on every advance once the input is exhausted. -/
def nextToken (s : State) : State :=
  match s.Buffered with
  | some t => { s with Curr := t, Buffered := none }
  | none =>
    match s.Input with
    | [] => { s with Curr := Token.TOKEN_EOF }
    | t :: ts => { s with Curr := t, Input := ts }

/-- Modelled from the spec: `unreadToken()` of the missing lexer.  The current
token is put in the one-token pushback slot; `none` when the slot is already
occupied (a second pushback without an intervening advance). -/
def unreadToken (s : State) : Option State :=
  match s.Buffered with
  | some _ => none
  | none => some { s with Buffered := some s.Curr }

/-- The statement `ExprStorage.push_back(std::unique_ptr<ExprAST>(Expr))`. -/
def State.push_back (s : State) (Expr : ExprAST) : State :=
  { s with ExprStorage := s.ExprStorage ++ [Expr] }

/-- Outcome of a parse function: a value with the state it leaves, a fatal abort
(`LOG(FATAL)` or a failed `CHECK`), a second pushback into the occupied slot, or
exhausted fuel. -/
inductive Outcome (α : Type) where
  | ok (val : α) (s : State)
  | fatal
  | contract
  | outOfFuel

/-- Sequencing: continue with the value and state of a successful step. -/
def Outcome.bind {α β : Type} (r : Outcome α) (f : α → State → Outcome β) : Outcome β :=
  match r with
  | Outcome.ok a s => f a s
  | Outcome.fatal => Outcome.fatal
  | Outcome.contract => Outcome.contract
  | Outcome.outOfFuel => Outcome.outOfFuel

/-- The table `OpPrecedenceMap`. -/
def OpPrecedenceMap : List (Char × Int) :=
  [('+', 10), ('-', 10), ('*', 20), ('/', 20)]

/-- The set `BinaryOpSet`. -/
def BinaryOpSet : List Char := ['+', '-', '*', '/']

open Token ExprAST in
mutual

/-- The function `parsePrimary`.  Every `CHECK(x != nullptr)` on the result of a
parse function holds, because each of them returns a freshly built node or
aborts; the results are therefore trees, not nullable pointers. -/
def parsePrimary : Nat → State → Outcome ExprAST
  | 0, _ => Outcome.outOfFuel
  | fuel + 1, s =>
    match currToken s with
    | TOKEN_IDENTIFIER Identifier =>
      let s := nextToken s
      if currToken s ≠ TOKEN_LPAREN then
        let Expr := VariableExpr Identifier
        Outcome.ok Expr (s.push_back Expr)
      else
        let s := nextToken s
        (if currToken s ≠ TOKEN_RPAREN then parseArgs fuel [] s
          else Outcome.ok [] s).bind fun Args s =>
        let CallExpr := CallExpr Identifier Args
        Outcome.ok CallExpr (nextToken (s.push_back CallExpr))
    | TOKEN_NUMBER Number =>
      let Expr := NumberExpr Number
      Outcome.ok Expr (nextToken (s.push_back Expr))
    | TOKEN_LPAREN =>
      (parseExpression fuel (nextToken s)).bind fun Expr s =>
      if currToken s = TOKEN_RPAREN then Outcome.ok Expr (nextToken s)
      else Outcome.fatal
    | _ => Outcome.fatal

/-- The argument loop `while (true)` of `parsePrimary` (lines 92-104), entered
with the arguments collected so far. -/
def parseArgs : Nat → List ExprAST → State → Outcome (List ExprAST)
  | 0, _, _ => Outcome.outOfFuel
  | fuel + 1, Args, s =>
    (parseExpression fuel s).bind fun Arg s =>
    let Args := Args ++ [Arg]
    match currToken s with
    | TOKEN_COMMA => parseArgs fuel Args (nextToken s)
    | TOKEN_RPAREN => Outcome.ok Args s
    | _ => Outcome.fatal

/-- The function `parseBinaryExpression(PrevPrecedence)`. -/
def parseBinaryExpression : Nat → Int → State → Outcome ExprAST
  | 0, _, _ => Outcome.outOfFuel
  | fuel + 1, PrevPrecedence, s =>
    (parsePrimary fuel s).bind fun Result s =>
    binaryLoop fuel PrevPrecedence Result s

/-- The loop `while (true)` of `parseBinaryExpression` (lines 145-161), entered
with the accumulated left operand `Result`.  `OpPrecedenceMap.find(Curr.Op)` is
dereferenced without a test; a character of `BinaryOpSet` that the map lacks
(there is none) is an abort here. -/
def binaryLoop : Nat → Int → ExprAST → State → Outcome ExprAST
  | 0, _, _, _ => Outcome.outOfFuel
  | fuel + 1, PrevPrecedence, Result, s =>
    match currToken s with
    | TOKEN_OP Op =>
      if Op ∉ BinaryOpSet then Outcome.ok Result s
      else
        match OpPrecedenceMap.lookup Op with
        | none => Outcome.fatal
        | some Precedence =>
          if Precedence ≤ PrevPrecedence then Outcome.ok Result s
          else
            (parseBinaryExpression fuel Precedence (nextToken s)).bind fun Right s =>
            let Expr := BinaryExpr Op Result Right
            binaryLoop fuel PrevPrecedence Expr (s.push_back Expr)
    | _ => Outcome.ok Result s

/-- The function `parseExpression`. -/
def parseExpression : Nat → State → Outcome ExprAST
  | 0, _ => Outcome.outOfFuel
  | fuel + 1, s => parseBinaryExpression fuel 0 s

end

open Token ExprAST in
mutual

/-- The function `parseStatement`. -/
def parseStatement : Nat → State → Outcome ExprAST
  | 0, _ => Outcome.outOfFuel
  | fuel + 1, s =>
    match currToken s with
    | TOKEN_IDENTIFIER _ | TOKEN_NUMBER _ | TOKEN_LPAREN =>
      (parseExpression fuel s).bind fun Expr s =>
      if currToken s = TOKEN_SEMICOLON then Outcome.ok Expr s
      else Outcome.fatal
    | TOKEN_IF =>
      let s := nextToken s
      if currToken s ≠ TOKEN_LPAREN then Outcome.fatal
      else
        (parseExpression fuel (nextToken s)).bind fun CondExpr s =>
        if currToken s ≠ TOKEN_RPAREN then Outcome.fatal
        else
          (parseStatement fuel (nextToken s)).bind fun ThenExpr s =>
          let s := nextToken s
          (if currToken s = TOKEN_ELSE then
            (parseStatement fuel (nextToken s)).bind fun ElseExpr s =>
            Outcome.ok (some ElseExpr) s
          else
            match unreadToken s with
            | some s => Outcome.ok none s
            | none => Outcome.contract).bind fun ElseExpr s =>
          let IfExpr := IfExpr CondExpr ThenExpr ElseExpr
          Outcome.ok IfExpr (s.push_back IfExpr)
    | TOKEN_LBRACE =>
      (parseBlock fuel [] s).bind fun Exprs s =>
      let BlockExpr := BlockExpr Exprs
      Outcome.ok BlockExpr (s.push_back BlockExpr)
    | _ => Outcome.fatal

/-- The loop `while (true)` of the `TOKEN_LBRACE` case of `parseStatement`
(lines 214-223), entered with the statements collected so far. -/
def parseBlock : Nat → List ExprAST → State → Outcome (List ExprAST)
  | 0, _, _ => Outcome.outOfFuel
  | fuel + 1, Exprs, s =>
    let s := nextToken s
    if currToken s = TOKEN_RBRACE then Outcome.ok Exprs s
    else
      (parseStatement fuel s).bind fun Expr s =>
      parseBlock fuel (Exprs ++ [Expr]) s

end

open Token in
/-- The loop `while (true)` of `parseFunctionPrototype` (lines 246-259), entered
with `Curr` the current token and the parameter names collected so far. -/
def parseParams : Nat → List String → State → Outcome (List String)
  | 0, _, _ => Outcome.outOfFuel
  | fuel + 1, Args, s =>
    match currToken s with
    | TOKEN_IDENTIFIER Identifier =>
      let Args := Args ++ [Identifier]
      let s := nextToken s
      match currToken s with
      | TOKEN_COMMA => parseParams fuel Args (nextToken s)
      | TOKEN_RPAREN => Outcome.ok Args s
      | _ => Outcome.fatal
    | _ => Outcome.fatal

open Token ExprAST in
/-- The function `parseFunctionPrototype`. -/
def parseFunctionPrototype (fuel : Nat) (s : State) : Outcome PrototypeAST :=
  match currToken s with
  | TOKEN_IDENTIFIER Name =>
    let s := nextToken s
    if currToken s ≠ TOKEN_LPAREN then Outcome.fatal
    else
      let s := nextToken s
      (if currToken s ≠ TOKEN_RPAREN then parseParams fuel [] s
        else Outcome.ok [] s).bind fun Args s =>
      let s := nextToken s
      let Prototype : PrototypeAST := ⟨Name, Args⟩
      Outcome.ok Prototype (s.push_back (PrototypeExpr Prototype))
  | _ => Outcome.fatal

open Token in
/-- The function `parseExtern`. -/
def parseExtern (fuel : Nat) (s : State) : Outcome PrototypeAST :=
  if currToken s ≠ TOKEN_EXTERN then Outcome.fatal
  else
    (parseFunctionPrototype fuel (nextToken s)).bind fun Prototype s =>
    if currToken s = TOKEN_SEMICOLON then Outcome.ok Prototype s
    else Outcome.fatal

open Token ExprAST in
/-- The function `parseFunction`. -/
def parseFunction (fuel : Nat) (s : State) : Outcome ExprAST :=
  if currToken s ≠ TOKEN_DEF then Outcome.fatal
  else
    (parseFunctionPrototype fuel (nextToken s)).bind fun Prototype s =>
    (parseStatement fuel s).bind fun Body s =>
    let Function := FunctionExpr Prototype Body
    Outcome.ok Function (s.push_back Function)

open Token ExprAST in
/-- The function `parsePipeline`; the null pointer it returns for end-of-input
and for a bare `;` is `none`.  The dump under `GlobalOption.DumpAST` only writes
to `stderr` and is left out. -/
def parsePipeline (fuel : Nat) (s : State) : Outcome (Option ExprAST) :=
  let s := nextToken s
  match currToken s with
  | TOKEN_EOF => Outcome.ok none s
  | TOKEN_SEMICOLON => Outcome.ok none s
  | TOKEN_IDENTIFIER _ | TOKEN_NUMBER _ | TOKEN_LPAREN | TOKEN_IF | TOKEN_LBRACE =>
    (parseStatement fuel s).bind fun Expr s => Outcome.ok (some Expr) s
  | TOKEN_EXTERN =>
    (parseExtern fuel s).bind fun Prototype s =>
    Outcome.ok (some (PrototypeExpr Prototype)) s
  | TOKEN_DEF =>
    (parseFunction fuel s).bind fun Function s => Outcome.ok (some Function) s
  | _ => Outcome.fatal

/-- The loop `while (true)` of `parseMain` (lines 341-347), entered with the
units collected so far. -/
def parseMainLoop : Nat → List ExprAST → State → Outcome (List ExprAST)
  | 0, _, _ => Outcome.outOfFuel
  | fuel + 1, Exprs, s =>
    (parsePipeline fuel s).bind fun Expr s =>
    match Expr with
    | none => Outcome.ok Exprs s
    | some Expr => parseMainLoop fuel (Exprs ++ [Expr]) s

/-- The function `parseMain`. -/
def parseMain (fuel : Nat) (s : State) : Outcome (List ExprAST) :=
  parseMainLoop fuel [] s

open Token in
/-- The loop of `interactiveMain` (`main.cpp`, lines 166-180), entered with the
units handed to `codePipeline` so far: a unit is handed on, a null result ends
the loop only when the current token is end-of-input.  Code generation,
optimisation and execution are external and left out. -/
def interactiveMainLoop : Nat → List ExprAST → State → Outcome (List ExprAST)
  | 0, _, _ => Outcome.outOfFuel
  | fuel + 1, units, s =>
    (parsePipeline fuel s).bind fun expr s =>
    match expr with
    | some expr => interactiveMainLoop fuel (units ++ [expr]) s
    | none =>
      if currToken s = TOKEN_EOF then Outcome.ok units s
      else interactiveMainLoop fuel units s

/-- The function `interactiveMain`, returning the units it hands to `codePipeline`. -/
def interactiveMain (fuel : Nat) (s : State) : Outcome (List ExprAST) :=
  interactiveMainLoop fuel [] s

/-- The state in which the lexer has just delivered the first token of `toks`
(end-of-input when `toks` is empty), the pushback slot is empty, and the arena
holds `storage`. -/
def State.reading (toks : List Token) (storage : List ExprAST) : State :=
  ⟨toks.headD Token.TOKEN_EOF, none, toks.tail, storage⟩

/-- The state before the first advance: nothing delivered yet (`c0` stands for
whatever `currToken()` holds then), empty pushback slot, empty arena. -/
def State.initial (c0 : Token) (toks : List Token) : State :=
  ⟨c0, none, toks, []⟩

/-! ## Vocabulary of the properties -/

open ExprAST in
mutual

/-- The nodes of a tree in the order the parse functions create and register
them: children first (left to right), the node itself last. -/
def ExprAST.nodes : ExprAST → List ExprAST
  | NumberExpr v => [NumberExpr v]
  | VariableExpr n => [VariableExpr n]
  | BinaryExpr op l r => l.nodes ++ (r.nodes ++ [BinaryExpr op l r])
  | PrototypeExpr p => [PrototypeExpr p]
  | FunctionExpr p b => PrototypeExpr p :: (b.nodes ++ [FunctionExpr p b])
  | CallExpr f args => nodesList args ++ [CallExpr f args]
  | IfExpr c t e => c.nodes ++ (t.nodes ++ (nodesOption e ++ [IfExpr c t e]))
  | BlockExpr es => nodesList es ++ [BlockExpr es]

/-- The nodes of a list of trees, tree after tree. -/
def nodesList : List ExprAST → List ExprAST
  | [] => []
  | e :: es => e.nodes ++ nodesList es

/-- The nodes of an optional tree. -/
def nodesOption : Option ExprAST → List ExprAST
  | none => []
  | some e => e.nodes

end

/-- A token that the loop of `parseBinaryExpression` treats as a binary
operator: an operator token whose character is in `BinaryOpSet`. -/
def isBinaryOp : Token → Bool
  | Token.TOKEN_OP Op => decide (Op ∈ BinaryOpSet)
  | _ => false

/-- An operator token, whatever its character. -/
def isOperator : Token → Bool
  | Token.TOKEN_OP _ => true
  | _ => false

/-- The precedence `OpPrecedenceMap` gives an operator character (0 when absent). -/
def precedenceOf (Op : Char) : Int := (OpPrecedenceMap.lookup Op).getD 0

/-- The precedence of the operator at the root, for a `BinaryExpr`. -/
def rootPrecedence : ExprAST → Option Int
  | ExprAST.BinaryExpr Op _ _ => some (precedenceOf Op)
  | _ => none

open ExprAST in
mutual

/-- Every `BinaryExpr` of the tree whose right child is a `BinaryExpr` has a
right-child operator of strictly higher precedence, and every `BinaryExpr` whose
left child is a `BinaryExpr` has a left-child operator of equal or higher
precedence. -/
def precedenceOrdered : ExprAST → Bool
  | BinaryExpr Op l r =>
    (match rootPrecedence r with
      | some q => decide (precedenceOf Op < q)
      | none => true) &&
    (match rootPrecedence l with
      | some q => decide (precedenceOf Op ≤ q)
      | none => true) &&
    precedenceOrdered l && precedenceOrdered r
  | NumberExpr _ => true
  | VariableExpr _ => true
  | PrototypeExpr _ => true
  | FunctionExpr _ b => precedenceOrdered b
  | CallExpr _ args => allOrdered args
  | IfExpr c t e => precedenceOrdered c && precedenceOrdered t && optionOrdered e
  | BlockExpr es => allOrdered es

/-- The trees of the list satisfy `precedenceOrdered`. -/
def allOrdered : List ExprAST → Bool
  | [] => true
  | e :: es => precedenceOrdered e && allOrdered es

/-- The optional tree satisfies `precedenceOrdered`. -/
def optionOrdered : Option ExprAST → Bool
  | none => true
  | some e => precedenceOrdered e

end

/-- A number or variable operand of an operator chain. -/
inductive Operand where
  | num (Val : Nat)
  | var (Name : String)

/-- The token of an operand. -/
def Operand.token : Operand → Token
  | Operand.num v => Token.TOKEN_NUMBER v
  | Operand.var n => Token.TOKEN_IDENTIFIER n

/-- The leaf node of an operand. -/
def Operand.expr : Operand → ExprAST
  | Operand.num v => ExprAST.NumberExpr v
  | Operand.var n => ExprAST.VariableExpr n

/-- The tokens `op1 p1 ... opn pn` of the tail of a chain. -/
def opsTokens : List (Char × Operand) → List Token
  | [] => []
  | x :: ops => Token.TOKEN_OP x.1 :: x.2.token :: opsTokens ops

/-- The tokens `p0 op1 p1 ... opn pn` of a chain. -/
def chainTokens (p0 : Operand) (ops : List (Char × Operand)) : List Token :=
  p0.token :: opsTokens ops

/-- The last operand `pn` of a chain (`p0` when there is no operator). -/
def chainLast (p0 : Operand) : List (Char × Operand) → Operand
  | [] => p0
  | x :: ops => chainLast x.2 ops

/-- The left-nested tree `BinaryExpr(opn, ... BinaryExpr(op1, acc, p1) ..., pn)`. -/
def leftNested (acc : ExprAST) : List (Char × Operand) → ExprAST
  | [] => acc
  | x :: ops => leftNested (ExprAST.BinaryExpr x.1 acc x.2.expr) ops

open ExprAST in
mutual

/-- An expression tree: built from `NumberExpr`, `VariableExpr`, `CallExpr` and
`BinaryExpr` with an operator of `BinaryOpSet`. -/
def isExpression : ExprAST → Bool
  | NumberExpr _ => true
  | VariableExpr _ => true
  | BinaryExpr op l r => decide (op ∈ BinaryOpSet) && isExpression l && isExpression r
  | CallExpr _ args => allExpressions args
  | _ => false

/-- All trees of the list are expression trees. -/
def allExpressions : List ExprAST → Bool
  | [] => true
  | e :: es => isExpression e && allExpressions es

end

open Token ExprAST in
mutual

/-- The tokens of an expression tree, every `BinaryExpr` wrapped in `(` `)`. -/
def render : ExprAST → List Token
  | NumberExpr v => [TOKEN_NUMBER v]
  | VariableExpr n => [TOKEN_IDENTIFIER n]
  | BinaryExpr op l r =>
    TOKEN_LPAREN :: (render l ++ TOKEN_OP op :: (render r ++ [TOKEN_RPAREN]))
  | CallExpr f args =>
    TOKEN_IDENTIFIER f :: TOKEN_LPAREN :: (renderArgs args ++ [TOKEN_RPAREN])
  | _ => []

/-- The tokens of an argument list, separated by `,`. -/
def renderArgs : List ExprAST → List Token
  | [] => []
  | e :: es =>
    match es with
    | [] => render e
    | _ :: _ => render e ++ TOKEN_COMMA :: renderArgs es

end

/-- The token list `ts` is a primary expression with tree `e`: wherever it is
followed by a token other than `(`, `parsePrimary` consumes exactly `ts`, returns
`e`, registers the nodes of `e` and stops with the following token current. -/
def PrimaryTokens (ts : List Token) (e : ExprAST) : Prop :=
  ∀ (next : Token) (rest : List Token) (storage : List ExprAST),
    next ≠ Token.TOKEN_LPAREN →
    ∃ N, ∀ fuel, N ≤ fuel →
      parsePrimary fuel (State.reading (ts ++ next :: rest) storage) =
        Outcome.ok e ⟨next, none, rest, storage ++ e.nodes⟩

/-- The token list `ts` is an expression with tree `e`: wherever it is followed
by a token that is neither a binary operator nor `(`, `parseExpression`
consumes exactly `ts`, returns `e`, registers the nodes of `e` and stops with
the following token current. -/
def ExprTokens (ts : List Token) (e : ExprAST) : Prop :=
  ∀ (next : Token) (rest : List Token) (storage : List ExprAST),
    next ≠ Token.TOKEN_LPAREN → isBinaryOp next = false →
    ∃ N, ∀ fuel, N ≤ fuel →
      parseExpression fuel (State.reading (ts ++ next :: rest) storage) =
        Outcome.ok e ⟨next, none, rest, storage ++ e.nodes⟩

/-- The token list `ts` is a statement with tree `e`: wherever it is followed by
tokens `rest` that do not start with `else`, `parseStatement` returns `e`,
registers the nodes of `e`, and the next advance delivers the first token of
`rest`. -/
def StmtTokens (ts : List Token) (e : ExprAST) : Prop :=
  ∀ (rest : List Token) (storage : List ExprAST),
    rest.head? ≠ some Token.TOKEN_ELSE →
    ∃ N, ∀ fuel, N ≤ fuel →
      ∃ s', parseStatement fuel (State.reading (ts ++ rest) storage) = Outcome.ok e s' ∧
        nextToken s' = State.reading rest (storage ++ e.nodes)

/-- The token list `ts` is a self-delimiting statement with tree `e`: whatever
follows it (an `else` included), `parseStatement` consumes exactly `ts`, returns
`e`, registers the nodes of `e` and stops on the last token of `ts` with the
pushback slot empty. -/
def ClosedStmtTokens (ts : List Token) (e : ExprAST) : Prop :=
  ∀ (rest : List Token) (storage : List ExprAST),
    ∃ N, ∀ fuel, N ≤ fuel →
      ∃ c, parseStatement fuel (State.reading (ts ++ rest) storage) =
        Outcome.ok e ⟨c, none, rest, storage ++ e.nodes⟩

/-- The tokens `a1 , ... , an` of a list of token lists. -/
def commaSeparated : List (List Token) → List Token
  | [] => []
  | ts :: tss =>
    match tss with
    | [] => ts
    | _ :: _ => ts ++ Token.TOKEN_COMMA :: commaSeparated tss

/-- The tokens `s1 ... sn` of a list of token lists, one after the other. -/
def concatTokens : List (List Token) → List Token
  | [] => []
  | ts :: tss => ts ++ concatTokens tss

/-- The tokens `p1 , ... , pn` of a list of parameter names. -/
def paramTokens : List String → List Token
  | [] => []
  | p :: ps =>
    match ps with
    | [] => [Token.TOKEN_IDENTIFIER p]
    | _ :: _ => Token.TOKEN_IDENTIFIER p :: Token.TOKEN_COMMA :: paramTokens ps

/-- The tokens at which `parseStatement` parses an expression statement:
identifier, number and `(`. -/
def startsExpression : Token → Bool
  | Token.TOKEN_IDENTIFIER _ => true
  | Token.TOKEN_NUMBER _ => true
  | Token.TOKEN_LPAREN => true
  | _ => false

/-- The tokens `parseStatement` accepts as the first token of a statement:
identifier, number, `(`, `if` and `{`. -/
def startsStatement : Token → Bool
  | Token.TOKEN_IF => true
  | Token.TOKEN_LBRACE => true
  | t => startsExpression t

/-- The leading tokens `parsePipeline` has a case for: end-of-input, `;`, the
first tokens of a statement, `extern` and `def`. -/
def startsUnit : Token → Bool
  | Token.TOKEN_EOF => true
  | Token.TOKEN_SEMICOLON => true
  | Token.TOKEN_EXTERN => true
  | Token.TOKEN_DEF => true
  | t => startsStatement t

/-- The tokens `p1 , p2 , ... pk ,` of parameter names each followed by a comma. -/
def paramsWithCommas : List String → List Token
  | [] => []
  | p :: ps => Token.TOKEN_IDENTIFIER p :: Token.TOKEN_COMMA :: paramsWithCommas ps

/-! ## In-order traversal and consumed tokens -/

open Token ExprAST in
mutual

/-- The in-order traversal of an expression tree, as tokens: a number, an
identifier; left operand, operator, right operand; callee, then the arguments
from left to right.  (The nodes that `parseExpression` never returns have no
traversal.) -/
def ExprAST.inorder : ExprAST → List Token
  | NumberExpr v => [TOKEN_NUMBER v]
  | VariableExpr n => [TOKEN_IDENTIFIER n]
  | BinaryExpr op l r => l.inorder ++ TOKEN_OP op :: r.inorder
  | CallExpr f args => TOKEN_IDENTIFIER f :: inorderList args
  | _ => []

/-- The in-order traversals of a list of trees, one after the other. -/
def inorderList : List ExprAST → List Token
  | [] => []
  | e :: es => e.inorder ++ inorderList es

end

/-- A parenthesis or a comma. -/
def isPunctuation : Token → Bool
  | Token.TOKEN_LPAREN => true
  | Token.TOKEN_RPAREN => true
  | Token.TOKEN_COMMA => true
  | _ => false

/-- A token list with its parentheses and commas removed. -/
def withoutPunctuation (ts : List Token) : List Token :=
  ts.filter fun t => !isPunctuation t

/-- The tokens an expression is written with: identifier, number, operator,
parenthesis, comma. -/
def isExpressionToken : Token → Bool
  | Token.TOKEN_IDENTIFIER _ => true
  | Token.TOKEN_NUMBER _ => true
  | Token.TOKEN_OP _ => true
  | t => isPunctuation t

/-! ## Command-line options (`main.cpp`) -/

/-- Modelled from the spec: the log levels of the missing `logging.h`.  The spec
leaves logging out; the four levels are the ones `main.cpp` and its help text
name. -/
inductive LogLevel where
  | DEBUG
  | INFO
  | ERROR
  | FATAL
  deriving DecidableEq, Repr

/-- The stream a `std::istream*` or `std::ostream*` field of the option record
points to: the standard stream (`&std::cin`, `&std::cout`) or the file stream
opened by `parseOptions` (`&ifs`, `&ofs`). -/
inductive StreamRef where
  | standard
  | file
  deriving DecidableEq, Repr

/-- The record `Option` of the missing `option.h` (named `ToyOption` here, the
name `Option` being taken), with the fields the initializer of `global_option`
lists. -/
structure ToyOption where
  input_file : String
  in_stream : StreamRef
  output_file : String
  out_stream : StreamRef
  interactive : Bool
  dump_token : Bool
  dump_ast : Bool
  dump_code : Bool
  log_level : LogLevel
  execute : Bool
  compile_output_file : String
  deriving DecidableEq, Repr

/-- The initial value of the global `global_option` (`main.cpp`, lines 37-49). -/
def global_option : ToyOption where
  input_file := "<stdin>"
  in_stream := StreamRef.standard
  output_file := "<stdout>"
  out_stream := StreamRef.standard
  interactive := true
  dump_token := false
  dump_ast := false
  dump_code := false
  log_level := LogLevel.INFO
  execute := true
  compile_output_file := ""

/-- How `parseOptions` ends: it returns `true` or `false`, or `usage` is printed
and the process exits with status 0; in each case with the value
`global_option` then has. -/
inductive OptionsResult where
  | returned (value : Bool) (option : ToyOption)
  | exited (option : ToyOption)
  deriving DecidableEq, Repr

/-- The loop over `dump_list` of `parseOptions` (lines 82-94): the flag tells
whether every item was a dump type, the record is `global_option` as the loop
leaves it (on an unknown item, as it is when `parseOptions` returns). -/
def parseDumpList : List String → ToyOption → Bool × ToyOption
  | [], g => (true, g)
  | item :: items, g =>
    if item = "token" then parseDumpList items { g with dump_token := true }
    else if item = "ast" then parseDumpList items { g with dump_ast := true }
    else if item = "code" then parseDumpList items { g with dump_code := true }
    else if item = "none" then parseDumpList items g
    else (false, g)

/-- The loop `for (size_t i = 1; i < args.size(); ++i)` of `parseOptions` over
the arguments not yet read, followed by the test after the loop (lines 141-156).
An option that takes a value fails, as `nextArgumentOrError` does, when it is
the last argument.  The split function `stringSplit` (only declared in
`strings.h`) is a parameter.  The output file is opened on the one static stream
`ofs` (line 61): `ofsOpen` tells whether an earlier `-o` has opened it, in which
case `ofs.open` fails and `ofs.good()` is false whatever the path; otherwise
`ofsGood` gives the outcome of opening the path.  Opening the input file only
logs on failure.  Log output is left out. -/
def parseOptionsLoop (stringSplit : String → Char → List String)
    (ofsGood : String → Bool) : Bool → List String → ToyOption → OptionsResult
  | _, [], g =>
    if !g.compile_output_file.isEmpty && g.interactive then OptionsResult.returned false g
    else OptionsResult.returned true g
  | ofsOpen, arg :: rest, g =>
    if arg = "-c" then
      match rest with
      | [] => OptionsResult.returned false g
      | value :: rest =>
        parseOptionsLoop stringSplit ofsGood ofsOpen rest { g with compile_output_file := value }
    else if arg = "--dump" then
      match rest with
      | [] => OptionsResult.returned false g
      | value :: rest =>
        let g := { g with dump_token := false, dump_ast := false, dump_code := false }
        match parseDumpList (stringSplit value ',') g with
        | (false, g) => OptionsResult.returned false g
        | (true, g) => parseOptionsLoop stringSplit ofsGood ofsOpen rest g
    else if arg = "-h" ∨ arg = "--help" then OptionsResult.exited g
    else if arg = "-i" then
      match rest with
      | [] => OptionsResult.returned false g
      | value :: rest =>
        parseOptionsLoop stringSplit ofsGood ofsOpen rest
          { g with input_file := value, in_stream := StreamRef.file, interactive := false }
    else if arg = "--log" then
      match rest with
      | [] => OptionsResult.returned false g
      | value :: rest =>
        if value = "debug" then
          parseOptionsLoop stringSplit ofsGood ofsOpen rest
            { g with log_level := LogLevel.DEBUG }
        else if value = "error" then
          parseOptionsLoop stringSplit ofsGood ofsOpen rest
            { g with log_level := LogLevel.ERROR }
        else if value = "fatal" then
          parseOptionsLoop stringSplit ofsGood ofsOpen rest
            { g with log_level := LogLevel.FATAL }
        else OptionsResult.returned false g
    else if arg = "--no-execute" then
      parseOptionsLoop stringSplit ofsGood ofsOpen rest { g with execute := false }
    else if arg = "-o" then
      match rest with
      | [] => OptionsResult.returned false g
      | value :: rest =>
        if ofsOpen || !ofsGood value then OptionsResult.returned false g
        else
          parseOptionsLoop stringSplit ofsGood true rest
            { g with output_file := value, out_stream := StreamRef.file }
    else OptionsResult.returned false g

/-- The function `parseOptions(argc, argv)` on the argument vector `args`
(`args[0]` is the program name and is skipped), started with `global_option`
having the value `g` and with the static stream `ofs` not yet opened. -/
def parseOptions (stringSplit : String → Char → List String) (ofsGood : String → Bool)
    (args : List String) (g : ToyOption) : OptionsResult :=
  parseOptionsLoop stringSplit ofsGood false (args.drop 1) g

/-- The level a name of the help text (`debug/info/error/fatal`) stands for. -/
def levelNamed : String → Option LogLevel
  | "debug" => some LogLevel.DEBUG
  | "info" => some LogLevel.INFO
  | "error" => some LogLevel.ERROR
  | "fatal" => some LogLevel.FATAL
  | _ => none

/-! ## The parser with a bound on the call stack

The same functions with a second budget `depth`, the number of stack frames a
call may still use: a call of a parse function takes one frame and its callees
get one frame less, while the iterations of a loop run in the frame of the
function that contains the loop.  The calls into the lexer and into the
containers return at once and are not counted.  Exhausting either budget gives
`Outcome.outOfFuel`. -/

open Token ExprAST in
mutual

/-- The function `parsePrimary` on a stack of `depth` frames. -/
def parsePrimaryD : Nat → Nat → State → Outcome ExprAST
  | 0, _, _ => Outcome.outOfFuel
  | _ + 1, 0, _ => Outcome.outOfFuel
  | fuel + 1, depth + 1, s =>
    match currToken s with
    | TOKEN_IDENTIFIER Identifier =>
      let s := nextToken s
      if currToken s ≠ TOKEN_LPAREN then
        let Expr := VariableExpr Identifier
        Outcome.ok Expr (s.push_back Expr)
      else
        let s := nextToken s
        (if currToken s ≠ TOKEN_RPAREN then parseArgsD fuel depth [] s
          else Outcome.ok [] s).bind fun Args s =>
        let CallExpr := CallExpr Identifier Args
        Outcome.ok CallExpr (nextToken (s.push_back CallExpr))
    | TOKEN_NUMBER Number =>
      let Expr := NumberExpr Number
      Outcome.ok Expr (nextToken (s.push_back Expr))
    | TOKEN_LPAREN =>
      (parseExpressionD fuel depth (nextToken s)).bind fun Expr s =>
      if currToken s = TOKEN_RPAREN then Outcome.ok Expr (nextToken s)
      else Outcome.fatal
    | _ => Outcome.fatal
termination_by structural fuel => fuel

/-- The argument loop of `parsePrimary`, whose calls have `depth` frames. -/
def parseArgsD : Nat → Nat → List ExprAST → State → Outcome (List ExprAST)
  | 0, _, _, _ => Outcome.outOfFuel
  | fuel + 1, depth, Args, s =>
    (parseExpressionD fuel depth s).bind fun Arg s =>
    let Args := Args ++ [Arg]
    match currToken s with
    | TOKEN_COMMA => parseArgsD fuel depth Args (nextToken s)
    | TOKEN_RPAREN => Outcome.ok Args s
    | _ => Outcome.fatal
termination_by structural fuel => fuel

/-- The function `parseBinaryExpression(PrevPrecedence)` on a stack of `depth`
frames. -/
def parseBinaryExpressionD : Nat → Nat → Int → State → Outcome ExprAST
  | 0, _, _, _ => Outcome.outOfFuel
  | _ + 1, 0, _, _ => Outcome.outOfFuel
  | fuel + 1, depth + 1, PrevPrecedence, s =>
    (parsePrimaryD fuel depth s).bind fun Result s =>
    binaryLoopD fuel depth PrevPrecedence Result s
termination_by structural fuel => fuel

/-- The loop of `parseBinaryExpression`, whose calls have `depth` frames. -/
def binaryLoopD : Nat → Nat → Int → ExprAST → State → Outcome ExprAST
  | 0, _, _, _, _ => Outcome.outOfFuel
  | fuel + 1, depth, PrevPrecedence, Result, s =>
    match currToken s with
    | TOKEN_OP Op =>
      if Op ∉ BinaryOpSet then Outcome.ok Result s
      else
        match OpPrecedenceMap.lookup Op with
        | none => Outcome.fatal
        | some Precedence =>
          if Precedence ≤ PrevPrecedence then Outcome.ok Result s
          else
            (parseBinaryExpressionD fuel depth Precedence (nextToken s)).bind fun Right s =>
            let Expr := BinaryExpr Op Result Right
            binaryLoopD fuel depth PrevPrecedence Expr (s.push_back Expr)
    | _ => Outcome.ok Result s
termination_by structural fuel => fuel

/-- The function `parseExpression` on a stack of `depth` frames. -/
def parseExpressionD : Nat → Nat → State → Outcome ExprAST
  | 0, _, _ => Outcome.outOfFuel
  | _ + 1, 0, _ => Outcome.outOfFuel
  | fuel + 1, depth + 1, s => parseBinaryExpressionD fuel depth 0 s
termination_by structural fuel => fuel

end

open Token ExprAST in
mutual

/-- The function `parseStatement` on a stack of `depth` frames. -/
def parseStatementD : Nat → Nat → State → Outcome ExprAST
  | 0, _, _ => Outcome.outOfFuel
  | _ + 1, 0, _ => Outcome.outOfFuel
  | fuel + 1, depth + 1, s =>
    match currToken s with
    | TOKEN_IDENTIFIER _ | TOKEN_NUMBER _ | TOKEN_LPAREN =>
      (parseExpressionD fuel depth s).bind fun Expr s =>
      if currToken s = TOKEN_SEMICOLON then Outcome.ok Expr s
      else Outcome.fatal
    | TOKEN_IF =>
      let s := nextToken s
      if currToken s ≠ TOKEN_LPAREN then Outcome.fatal
      else
        (parseExpressionD fuel depth (nextToken s)).bind fun CondExpr s =>
        if currToken s ≠ TOKEN_RPAREN then Outcome.fatal
        else
          (parseStatementD fuel depth (nextToken s)).bind fun ThenExpr s =>
          let s := nextToken s
          (if currToken s = TOKEN_ELSE then
            (parseStatementD fuel depth (nextToken s)).bind fun ElseExpr s =>
            Outcome.ok (some ElseExpr) s
          else
            match unreadToken s with
            | some s => Outcome.ok none s
            | none => Outcome.contract).bind fun ElseExpr s =>
          let IfExpr := IfExpr CondExpr ThenExpr ElseExpr
          Outcome.ok IfExpr (s.push_back IfExpr)
    | TOKEN_LBRACE =>
      (parseBlockD fuel depth [] s).bind fun Exprs s =>
      let BlockExpr := BlockExpr Exprs
      Outcome.ok BlockExpr (s.push_back BlockExpr)
    | _ => Outcome.fatal
termination_by structural fuel => fuel

/-- The block loop of `parseStatement`, whose calls have `depth` frames. -/
def parseBlockD : Nat → Nat → List ExprAST → State → Outcome (List ExprAST)
  | 0, _, _, _ => Outcome.outOfFuel
  | fuel + 1, depth, Exprs, s =>
    let s := nextToken s
    if currToken s = TOKEN_RBRACE then Outcome.ok Exprs s
    else
      (parseStatementD fuel depth s).bind fun Expr s =>
      parseBlockD fuel depth (Exprs ++ [Expr]) s
termination_by structural fuel => fuel

end

/-- The function `parseFunctionPrototype` on a stack of `depth` frames; it calls
no parse function. -/
def parseFunctionPrototypeD (fuel : Nat) : Nat → State → Outcome PrototypeAST
  | 0, _ => Outcome.outOfFuel
  | _ + 1, s => parseFunctionPrototype fuel s

open Token in
/-- The function `parseExtern` on a stack of `depth` frames. -/
def parseExternD (fuel : Nat) : Nat → State → Outcome PrototypeAST
  | 0, _ => Outcome.outOfFuel
  | depth + 1, s =>
    if currToken s ≠ TOKEN_EXTERN then Outcome.fatal
    else
      (parseFunctionPrototypeD fuel depth (nextToken s)).bind fun Prototype s =>
      if currToken s = TOKEN_SEMICOLON then Outcome.ok Prototype s
      else Outcome.fatal

open Token ExprAST in
/-- The function `parseFunction` on a stack of `depth` frames. -/
def parseFunctionD (fuel : Nat) : Nat → State → Outcome ExprAST
  | 0, _ => Outcome.outOfFuel
  | depth + 1, s =>
    if currToken s ≠ TOKEN_DEF then Outcome.fatal
    else
      (parseFunctionPrototypeD fuel depth (nextToken s)).bind fun Prototype s =>
      (parseStatementD fuel depth s).bind fun Body s =>
      let Function := FunctionExpr Prototype Body
      Outcome.ok Function (s.push_back Function)

open Token ExprAST in
/-- The function `parsePipeline` on a stack of `depth` frames. -/
def parsePipelineD (fuel : Nat) : Nat → State → Outcome (Option ExprAST)
  | 0, _ => Outcome.outOfFuel
  | depth + 1, s =>
    let s := nextToken s
    match currToken s with
    | TOKEN_EOF => Outcome.ok none s
    | TOKEN_SEMICOLON => Outcome.ok none s
    | TOKEN_IDENTIFIER _ | TOKEN_NUMBER _ | TOKEN_LPAREN | TOKEN_IF | TOKEN_LBRACE =>
      (parseStatementD fuel depth s).bind fun Expr s => Outcome.ok (some Expr) s
    | TOKEN_EXTERN =>
      (parseExternD fuel depth s).bind fun Prototype s =>
      Outcome.ok (some (PrototypeExpr Prototype)) s
    | TOKEN_DEF =>
      (parseFunctionD fuel depth s).bind fun Function s => Outcome.ok (some Function) s
    | _ => Outcome.fatal

/-- The loop of `parseMain`, whose calls have `depth` frames. -/
def parseMainLoopD : Nat → Nat → List ExprAST → State → Outcome (List ExprAST)
  | 0, _, _, _ => Outcome.outOfFuel
  | fuel + 1, depth, Exprs, s =>
    (parsePipelineD fuel depth s).bind fun Expr s =>
    match Expr with
    | none => Outcome.ok Exprs s
    | some Expr => parseMainLoopD fuel depth (Exprs ++ [Expr]) s

/-- The function `parseMain` on a stack of `depth` frames. -/
def parseMainD (fuel : Nat) : Nat → State → Outcome (List ExprAST)
  | 0, _ => Outcome.outOfFuel
  | depth + 1, s => parseMainLoopD fuel depth [] s

/-! ## The grammar, with its nesting depth -/

/-- The syntactic categories of the grammar: primary expression, expression,
self-delimiting statement (one that does not end in an `if` without `else`),
statement, top-level unit. -/
inductive Category where
  | primary
  | expression
  | closed
  | statement
  | unit
  deriving DecidableEq, Repr

/-- The tokens `op1 p1 ... opn pn` of a list of operators, each with the tokens
of its right operand. -/
def operandTokens : List (Char × List Token) → List Token
  | [] => []
  | x :: l => Token.TOKEN_OP x.1 :: (x.2 ++ operandTokens l)

open Token in
/-- The grammar of the toy language: `Nested k ts n` says that the token list
`ts` is a phrase of category `k` whose nesting depth is at most `n`.  Grouping
parentheses, the parentheses of a call, a block, an `if` and a function
definition each add one level; operators, argument lists, statement sequences
and parameter lists add none.  An `else` belongs to the nearest `if`, so the
then-branch of an `if` with `else` is self-delimiting. -/
inductive Nested : Category → List Token → Nat → Prop where
  | number (v n : Nat) : Nested Category.primary [TOKEN_NUMBER v] n
  | name (x : String) (n : Nat) : Nested Category.primary [TOKEN_IDENTIFIER x] n
  | paren {ts : List Token} {n : Nat} :
      Nested Category.expression ts n →
      Nested Category.primary (TOKEN_LPAREN :: (ts ++ [TOKEN_RPAREN])) (n + 1)
  | call (f : String) (args : List (List Token)) {n : Nat} :
      (∀ a, a ∈ args → Nested Category.expression a n) →
      Nested Category.primary
        (TOKEN_IDENTIFIER f :: TOKEN_LPAREN :: (commaSeparated args ++ [TOKEN_RPAREN])) (n + 1)
  | chain {p : List Token} (ops : List (Char × List Token)) {n : Nat} :
      Nested Category.primary p n →
      (∀ x, x ∈ ops → x.1 ∈ BinaryOpSet) →
      (∀ x, x ∈ ops → Nested Category.primary x.2 n) →
      Nested Category.expression (p ++ operandTokens ops) n
  | exprStmt {ts : List Token} {n : Nat} :
      Nested Category.expression ts n →
      Nested Category.closed (ts ++ [TOKEN_SEMICOLON]) n
  | block (stmts : List (List Token)) {n : Nat} :
      (∀ s, s ∈ stmts → Nested Category.statement s n) →
      Nested Category.closed (TOKEN_LBRACE :: (concatTokens stmts ++ [TOKEN_RBRACE])) (n + 1)
  | ifElseClosed {c s t : List Token} {n : Nat} :
      Nested Category.expression c n → Nested Category.closed s n →
      Nested Category.closed t n →
      Nested Category.closed
        (TOKEN_IF :: TOKEN_LPAREN :: (c ++ TOKEN_RPAREN :: (s ++ TOKEN_ELSE :: t))) (n + 1)
  | closedStmt {ts : List Token} {n : Nat} :
      Nested Category.closed ts n → Nested Category.statement ts n
  | ifThen {c s : List Token} {n : Nat} :
      Nested Category.expression c n → Nested Category.statement s n →
      Nested Category.statement (TOKEN_IF :: TOKEN_LPAREN :: (c ++ TOKEN_RPAREN :: s)) (n + 1)
  | ifElse {c s t : List Token} {n : Nat} :
      Nested Category.expression c n → Nested Category.closed s n →
      Nested Category.statement t n →
      Nested Category.statement
        (TOKEN_IF :: TOKEN_LPAREN :: (c ++ TOKEN_RPAREN :: (s ++ TOKEN_ELSE :: t))) (n + 1)
  | stmtUnit {ts : List Token} {n : Nat} :
      Nested Category.statement ts n → Nested Category.unit ts n
  | externUnit (f : String) (params : List String) (n : Nat) :
      Nested Category.unit
        (TOKEN_EXTERN :: TOKEN_IDENTIFIER f :: TOKEN_LPAREN ::
          (paramTokens params ++ [TOKEN_RPAREN, TOKEN_SEMICOLON])) n
  | defUnit (f : String) (params : List String) {body : List Token} {n : Nat} :
      Nested Category.statement body n →
      Nested Category.unit
        (TOKEN_DEF :: TOKEN_IDENTIFIER f :: TOKEN_LPAREN ::
          (paramTokens params ++ TOKEN_RPAREN :: body)) (n + 1)

open Token in
/-- The parser reads the phrase `ts` of category `k` within the stack bound of
nesting depth `n`: with `5 * n + 1` frames for a primary expression, `5 * n + 5`
for an expression, `5 * n + 6` for a statement and `5 * n + 7` for a top-level
unit, and with enough fuel for the loops, the parse function of the category
returns a tree, having consumed exactly `ts` (for a statement that ends in an
`if` without `else`, and for a unit, the next advance delivers the token after
`ts`). -/
def Within : Category → Nat → List Token → Prop
  | Category.primary, n, ts =>
    ∀ (next : Token) (rest : List Token) (storage : List ExprAST),
      next ≠ TOKEN_LPAREN →
      ∃ N e storage', ∀ fuel depth, N ≤ fuel → 5 * n + 1 ≤ depth →
        parsePrimaryD fuel depth (State.reading (ts ++ next :: rest) storage) =
          Outcome.ok e ⟨next, none, rest, storage'⟩
  | Category.expression, n, ts =>
    ∀ (next : Token) (rest : List Token) (storage : List ExprAST),
      next ≠ TOKEN_LPAREN → isBinaryOp next = false →
      ∃ N e storage', ∀ fuel depth, N ≤ fuel → 5 * n + 5 ≤ depth →
        parseExpressionD fuel depth (State.reading (ts ++ next :: rest) storage) =
          Outcome.ok e ⟨next, none, rest, storage'⟩
  | Category.closed, n, ts =>
    ∀ (rest : List Token) (storage : List ExprAST),
      ∃ N e storage' c, ∀ fuel depth, N ≤ fuel → 5 * n + 6 ≤ depth →
        parseStatementD fuel depth (State.reading (ts ++ rest) storage) =
          Outcome.ok e ⟨c, none, rest, storage'⟩
  | Category.statement, n, ts =>
    ∀ (rest : List Token) (storage : List ExprAST),
      rest.head? ≠ some TOKEN_ELSE →
      ∃ N e storage' s', nextToken s' = State.reading rest storage' ∧
        ∀ fuel depth, N ≤ fuel → 5 * n + 6 ≤ depth →
          parseStatementD fuel depth (State.reading (ts ++ rest) storage) = Outcome.ok e s'
  | Category.unit, n, ts =>
    ∀ (s : State) (rest : List Token) (storage : List ExprAST),
      rest.head? ≠ some TOKEN_ELSE →
      nextToken s = State.reading (ts ++ rest) storage →
      ∃ N e storage' s', nextToken s' = State.reading rest storage' ∧
        ∀ fuel depth, N ≤ fuel → 5 * n + 7 ≤ depth →
          parsePipelineD fuel depth s = Outcome.ok (some e) s'

/-- The number of tokens the cursor can still deliver: the tokens of the input,
the token in the pushback slot, and the current token unless it is
end-of-input. -/
def State.remaining (s : State) : Nat :=
  s.Input.length + (if s.Buffered.isSome then 1 else 0) +
    (if s.Curr = Token.TOKEN_EOF then 0 else 1)

/-- A fuel-indexed computation halts: from some fuel on it gives one and the
same result, and that result is not exhaustion of the fuel. -/
def Halts {α : Type} (r : Nat → Outcome α) : Prop :=
  ∃ N o, o ≠ Outcome.outOfFuel ∧ ∀ fuel, N ≤ fuel → r fuel = o

/-- A result refines another when it is the same or the other ran out of fuel. -/
def Outcome.refines {α : Type} (r r' : Outcome α) : Prop :=
  r = Outcome.outOfFuel ∨ r' = r

open Token ExprAST

/-! ## More fuel never changes a result -/

theorem Outcome.refines_rfl {α : Type} (r : Outcome α) : r.refines r := Or.inr rfl

theorem Outcome.refines_bind {α β : Type} {r r' : Outcome α} {f f' : α → State → Outcome β}
    (h : r.refines r') (hf : ∀ a s, (f a s).refines (f' a s)) :
    (r.bind f).refines (r'.bind f') := by
  rcases h with h | h
  · left; rw [h]; rfl
  · subst h
    cases r' with
    | ok a s => exact hf a s
    | fatal => exact Or.inr rfl
    | contract => exact Or.inr rfl
    | outOfFuel => exact Or.inl rfl

theorem Outcome.refines_ite {α : Type} {c : Prop} [Decidable c] {a a' b b' : Outcome α}
    (ha : a.refines a') (hb : b.refines b') :
    (if c then a else b).refines (if c then a' else b') := by
  split
  · exact ha
  · exact hb

theorem Outcome.refines_eq {α : Type} {r r' : Outcome α} (h : r.refines r')
    (hr : r ≠ Outcome.outOfFuel) : r' = r := by
  rcases h with h | h
  · exact absurd h hr
  · exact h

theorem expr_mono (n : Nat) : ∀ m, n ≤ m →
    (∀ s, (parsePrimary n s).refines (parsePrimary m s)) ∧
    (∀ a s, (parseArgs n a s).refines (parseArgs m a s)) ∧
    (∀ P s, (parseBinaryExpression n P s).refines (parseBinaryExpression m P s)) ∧
    (∀ P R s, (binaryLoop n P R s).refines (binaryLoop m P R s)) ∧
    (∀ s, (parseExpression n s).refines (parseExpression m s)) := by
  induction n with
  | zero =>
    intro m _
    refine ⟨?_, ?_, ?_, ?_, ?_⟩ <;> intros <;> left <;> rfl
  | succ n ih =>
    intro m hm
    obtain ⟨m, rfl⟩ : ∃ k, m = k + 1 := ⟨m - 1, by omega⟩
    obtain ⟨ih1, ih2, ih3, ih4, ih5⟩ := ih m (by omega)
    refine ⟨?_, ?_, ?_, ?_, ?_⟩
    · intro s
      simp only [parsePrimary]
      split
      · split
        · exact Outcome.refines_rfl _
        · exact Outcome.refines_bind (Outcome.refines_ite (ih2 _ _) (Outcome.refines_rfl _))
            (fun _ _ => Outcome.refines_rfl _)
      · exact Outcome.refines_rfl _
      · exact Outcome.refines_bind (ih5 _) (fun _ _ => Outcome.refines_rfl _)
      · exact Outcome.refines_rfl _
    · intro a s
      simp only [parseArgs]
      refine Outcome.refines_bind (ih5 _) (fun _ _ => ?_)
      split
      · exact ih2 _ _
      · exact Outcome.refines_rfl _
      · exact Outcome.refines_rfl _
    · intro P s
      simp only [parseBinaryExpression]
      exact Outcome.refines_bind (ih1 _) (fun _ _ => ih4 _ _ _)
    · intro P R s
      simp only [binaryLoop]
      split
      · split
        · exact Outcome.refines_rfl _
        · split
          · exact Outcome.refines_rfl _
          · split
            · exact Outcome.refines_rfl _
            · exact Outcome.refines_bind (ih3 _ _) (fun _ _ => ih4 _ _ _)
      · exact Outcome.refines_rfl _
    · intro s
      simp only [parseExpression]
      exact ih3 _ _


theorem stmt_mono (n : Nat) : ∀ m, n ≤ m →
    (∀ s, (parseStatement n s).refines (parseStatement m s)) ∧
    (∀ a s, (parseBlock n a s).refines (parseBlock m a s)) := by
  induction n with
  | zero =>
    intro m _
    refine ⟨?_, ?_⟩ <;> intros <;> left <;> rfl
  | succ n ih =>
    intro m hm
    obtain ⟨m, rfl⟩ : ∃ k, m = k + 1 := ⟨m - 1, by omega⟩
    obtain ⟨ih1, ih2⟩ := ih m (by omega)
    have ihe := (expr_mono n m (by omega)).2.2.2.2
    refine ⟨?_, ?_⟩
    · intro s
      simp only [parseStatement]
      split
      · exact Outcome.refines_bind (ihe _) (fun _ _ => Outcome.refines_rfl _)
      · exact Outcome.refines_bind (ihe _) (fun _ _ => Outcome.refines_rfl _)
      · exact Outcome.refines_bind (ihe _) (fun _ _ => Outcome.refines_rfl _)
      · refine Outcome.refines_ite (Outcome.refines_rfl _) ?_
        refine Outcome.refines_bind (ihe _) (fun _ _ => ?_)
        refine Outcome.refines_ite (Outcome.refines_rfl _) ?_
        refine Outcome.refines_bind (ih1 _) (fun _ _ => ?_)
        refine Outcome.refines_bind ?_ (fun _ _ => Outcome.refines_rfl _)
        refine Outcome.refines_ite ?_ (Outcome.refines_rfl _)
        exact Outcome.refines_bind (ih1 _) (fun _ _ => Outcome.refines_rfl _)
      · exact Outcome.refines_bind (ih2 _ _) (fun _ _ => Outcome.refines_rfl _)
      · exact Outcome.refines_rfl _
    · intro a s
      simp only [parseBlock]
      refine Outcome.refines_ite (Outcome.refines_rfl _) ?_
      exact Outcome.refines_bind (ih1 _) (fun _ _ => ih2 _ _)

theorem parseParams_mono (n : Nat) : ∀ m, n ≤ m →
    ∀ a s, (parseParams n a s).refines (parseParams m a s) := by
  induction n with
  | zero => intro m _ a s; left; rfl
  | succ n ih =>
    intro m hm a s
    obtain ⟨m, rfl⟩ : ∃ k, m = k + 1 := ⟨m - 1, by omega⟩
    simp only [parseParams]
    split
    · split
      · exact ih m (by omega) _ _
      · exact Outcome.refines_rfl _
      · exact Outcome.refines_rfl _
    · exact Outcome.refines_rfl _

theorem parseStatement_mono {n m : Nat} (h : n ≤ m) (s : State) :
    (parseStatement n s).refines (parseStatement m s) :=
  (stmt_mono n m h).1 s

theorem parseExpression_mono {n m : Nat} (h : n ≤ m) (s : State) :
    (parseExpression n s).refines (parseExpression m s) :=
  (expr_mono n m h).2.2.2.2 s

theorem parseFunctionPrototype_mono {n m : Nat} (h : n ≤ m) (s : State) :
    (parseFunctionPrototype n s).refines (parseFunctionPrototype m s) := by
  simp only [parseFunctionPrototype]
  split
  · refine Outcome.refines_ite (Outcome.refines_rfl _) ?_
    refine Outcome.refines_bind ?_ (fun _ _ => Outcome.refines_rfl _)
    exact Outcome.refines_ite (parseParams_mono n m h _ _) (Outcome.refines_rfl _)
  · exact Outcome.refines_rfl _

theorem parsePipeline_mono {n m : Nat} (h : n ≤ m) (s : State) :
    (parsePipeline n s).refines (parsePipeline m s) := by
  have hs := fun s => parseStatement_mono h s
  simp only [parsePipeline]
  split
  · exact Outcome.refines_rfl _
  · exact Outcome.refines_rfl _
  · exact Outcome.refines_bind (hs _) (fun _ _ => Outcome.refines_rfl _)
  · exact Outcome.refines_bind (hs _) (fun _ _ => Outcome.refines_rfl _)
  · exact Outcome.refines_bind (hs _) (fun _ _ => Outcome.refines_rfl _)
  · exact Outcome.refines_bind (hs _) (fun _ _ => Outcome.refines_rfl _)
  · exact Outcome.refines_bind (hs _) (fun _ _ => Outcome.refines_rfl _)
  · refine Outcome.refines_bind ?_ (fun _ _ => Outcome.refines_rfl _)
    simp only [parseExtern]
    refine Outcome.refines_ite (Outcome.refines_rfl _) ?_
    exact Outcome.refines_bind (parseFunctionPrototype_mono h _) (fun _ _ => Outcome.refines_rfl _)
  · refine Outcome.refines_bind ?_ (fun _ _ => Outcome.refines_rfl _)
    simp only [parseFunction]
    refine Outcome.refines_ite (Outcome.refines_rfl _) ?_
    refine Outcome.refines_bind (parseFunctionPrototype_mono h _) (fun _ _ => ?_)
    exact Outcome.refines_bind (hs _) (fun _ _ => Outcome.refines_rfl _)
  · exact Outcome.refines_rfl _

theorem parseMainLoop_mono (n : Nat) : ∀ m, n ≤ m →
    ∀ a s, (parseMainLoop n a s).refines (parseMainLoop m a s) := by
  induction n with
  | zero => intro m _ a s; left; rfl
  | succ n ih =>
    intro m hm a s
    obtain ⟨m, rfl⟩ : ∃ k, m = k + 1 := ⟨m - 1, by omega⟩
    simp only [parseMainLoop]
    refine Outcome.refines_bind (parsePipeline_mono (by omega) _) (fun r _ => ?_)
    cases r with
    | none => exact Outcome.refines_rfl _
    | some e => exact ih m (by omega) _ _

theorem interactiveMainLoop_mono (n : Nat) : ∀ m, n ≤ m →
    ∀ a s, (interactiveMainLoop n a s).refines (interactiveMainLoop m a s) := by
  induction n with
  | zero => intro m _ a s; left; rfl
  | succ n ih =>
    intro m hm a s
    obtain ⟨m, rfl⟩ : ∃ k, m = k + 1 := ⟨m - 1, by omega⟩
    simp only [interactiveMainLoop]
    refine Outcome.refines_bind (parsePipeline_mono (by omega) _) (fun r _ => ?_)
    cases r with
    | none => exact Outcome.refines_ite (Outcome.refines_rfl _) (ih m (by omega) _ _)
    | some e => exact ih m (by omega) _ _

/-- A result obtained with some fuel is obtained with any larger fuel. -/
theorem Outcome.refines_ok {α : Type} {r r' : Outcome α} {a : α} {s : State}
    (h : r.refines r') (hr : r = Outcome.ok a s) : r' = Outcome.ok a s := by
  rcases h with h | h
  · rw [hr] at h; cases h
  · rw [h, hr]


/-! ## Stepping the token cursor -/

@[simp] theorem Outcome.ok_bind {α β : Type} (a : α) (s : State) (f : α → State → Outcome β) :
    (Outcome.ok a s).bind f = f a s := rfl

@[simp] theorem reading_cons (t : Token) (ts : List Token) (st : List ExprAST) :
    State.reading (t :: ts) st = ⟨t, none, ts, st⟩ := rfl

@[simp] theorem nextToken_mk_none (c : Token) (ts : List Token) (st : List ExprAST) :
    nextToken ⟨c, none, ts, st⟩ = State.reading ts st := by
  cases ts <;> rfl

@[simp] theorem nextToken_reading (ts : List Token) (st : List ExprAST) :
    nextToken (State.reading ts st) = State.reading ts.tail st := by
  cases ts <;> simp [State.reading]

@[simp] theorem currToken_mk (c : Token) (b : Option Token) (ts : List Token)
    (st : List ExprAST) : currToken ⟨c, b, ts, st⟩ = c := rfl

@[simp] theorem currToken_reading (ts : List Token) (st : List ExprAST) :
    currToken (State.reading ts st) = ts.headD TOKEN_EOF := rfl

@[simp] theorem push_back_mk (c : Token) (b : Option Token) (ts : List Token)
    (st : List ExprAST) (e : ExprAST) :
    (State.mk c b ts st).push_back e = ⟨c, b, ts, st ++ [e]⟩ := rfl

@[simp] theorem push_back_reading (ts : List Token) (st : List ExprAST) (e : ExprAST) :
    (State.reading ts st).push_back e = State.reading ts (st ++ [e]) := rfl

theorem binaryLoop_stop (fuel : Nat) (P : Int) (R : ExprAST) (s : State)
    (h : isBinaryOp (currToken s) = false) :
    binaryLoop (fuel + 1) P R s = Outcome.ok R s := by
  simp only [binaryLoop]
  split
  · rename_i Op hc
    rw [hc] at h
    simp [isBinaryOp] at h
    simp [h]
  · rfl

theorem parseExpression_succ (fuel : Nat) (s : State) :
    parseExpression (fuel + 1) s = parseBinaryExpression fuel 0 s := rfl

theorem parseBinaryExpression_succ (fuel : Nat) (P : Int) (s : State) :
    parseBinaryExpression (fuel + 1) P s =
      (parsePrimary fuel s).bind fun Result s => binaryLoop fuel P Result s := rfl

theorem lookup_of_mem {op : Char} (hop : op ∈ BinaryOpSet) :
    OpPrecedenceMap.lookup op = some (precedenceOf op) ∧ 0 < precedenceOf op := by
  simp [BinaryOpSet] at hop
  rcases hop with rfl | rfl | rfl | rfl <;> decide

theorem binaryLoop_op (fuel : Nat) (P : Int) (R : ExprAST) (s : State) {op : Char}
    (hc : currToken s = TOKEN_OP op) (hop : op ∈ BinaryOpSet) (hP : P < precedenceOf op) :
    binaryLoop (fuel + 1) P R s =
      (parseBinaryExpression fuel (precedenceOf op) (nextToken s)).bind fun Right s =>
        binaryLoop fuel P (BinaryExpr op R Right) (s.push_back (BinaryExpr op R Right)) := by
  simp only [binaryLoop, hc, hop, not_true_eq_false, if_false, (lookup_of_mem hop).1,
    not_le.mpr hP]

theorem binaryLoop_low (fuel : Nat) (P : Int) (R : ExprAST) (s : State) {op : Char}
    (hc : currToken s = TOKEN_OP op) (hP : precedenceOf op ≤ P) :
    binaryLoop (fuel + 1) P R s = Outcome.ok R s := by
  simp only [binaryLoop, hc]
  split
  · rfl
  · rename_i hop
    simp only [not_not] at hop
    simp only [(lookup_of_mem hop).1, hP, if_true]

theorem binaryLoop_stop_mk (fuel : Nat) (P : Int) (R : ExprAST) {c : Token}
    (b : Option Token) (ts : List Token) (st : List ExprAST) (h : isBinaryOp c = false) :
    binaryLoop (fuel + 1) P R ⟨c, b, ts, st⟩ = Outcome.ok R ⟨c, b, ts, st⟩ :=
  binaryLoop_stop fuel P R _ h

theorem binaryLoop_op_mk (fuel : Nat) (P : Int) (R : ExprAST) {op : Char}
    (b : Option Token) (ts : List Token) (st : List ExprAST)
    (hop : op ∈ BinaryOpSet) (hP : P < precedenceOf op) :
    binaryLoop (fuel + 1) P R ⟨TOKEN_OP op, b, ts, st⟩ =
      (parseBinaryExpression fuel (precedenceOf op) (nextToken ⟨TOKEN_OP op, b, ts, st⟩)).bind
        fun Right s =>
        binaryLoop fuel P (BinaryExpr op R Right) (s.push_back (BinaryExpr op R Right)) :=
  binaryLoop_op fuel P R _ rfl hop hP

theorem binaryLoop_low_mk (fuel : Nat) (P : Int) (R : ExprAST) {op : Char}
    (b : Option Token) (ts : List Token) (st : List ExprAST)
    (hP : precedenceOf op ≤ P) :
    binaryLoop (fuel + 1) P R ⟨TOKEN_OP op, b, ts, st⟩ = Outcome.ok R ⟨TOKEN_OP op, b, ts, st⟩ :=
  binaryLoop_low fuel P R _ rfl hP

@[simp] theorem commaSeparated_nil : commaSeparated [] = [] := rfl

@[simp] theorem commaSeparated_single (ts : List Token) : commaSeparated [ts] = ts := rfl

@[simp] theorem commaSeparated_cons_cons (ts us : List Token) (tss : List (List Token)) :
    commaSeparated (ts :: us :: tss) = ts ++ TOKEN_COMMA :: commaSeparated (us :: tss) := rfl

theorem primary_number (v : Nat) : PrimaryTokens [TOKEN_NUMBER v] (NumberExpr v) := by
  intro next rest st _
  refine ⟨1, fun fuel hf => ?_⟩
  obtain ⟨k, rfl⟩ : ∃ k, fuel = k + 1 := ⟨fuel - 1, by omega⟩
  simp [parsePrimary, ExprAST.nodes]

theorem primary_variable (n : String) : PrimaryTokens [TOKEN_IDENTIFIER n] (VariableExpr n) := by
  intro next rest st hl
  refine ⟨1, fun fuel hf => ?_⟩
  obtain ⟨k, rfl⟩ : ∃ k, fuel = k + 1 := ⟨fuel - 1, by omega⟩
  simp [parsePrimary, ExprAST.nodes, hl]

theorem primary_paren {ts : List Token} {e : ExprAST} (h : ExprTokens ts e) :
    PrimaryTokens (TOKEN_LPAREN :: (ts ++ [TOKEN_RPAREN])) e := by
  intro next rest st _
  obtain ⟨N, hN⟩ := h TOKEN_RPAREN (next :: rest) st (by simp) rfl
  refine ⟨N + 1, fun fuel hf => ?_⟩
  obtain ⟨k, rfl⟩ : ∃ k, fuel = k + 1 := ⟨fuel - 1, by omega⟩
  simp [parsePrimary, hN k (by omega)]

theorem expr_of_primary {ts : List Token} {e : ExprAST} (h : PrimaryTokens ts e) :
    ExprTokens ts e := by
  intro next rest st hl hb
  obtain ⟨N, hN⟩ := h next rest st hl
  refine ⟨N + 3, fun fuel hf => ?_⟩
  obtain ⟨k, rfl⟩ : ∃ k, fuel = k + 3 := ⟨fuel - 3, by omega⟩
  simp only [parseExpression, parseBinaryExpression]
  rw [hN _ (by omega)]
  simp [binaryLoop_stop, hb]

theorem parseExpression_head {fuel : Nat} {s s' : State} {e : ExprAST}
    (h : parseExpression fuel s = Outcome.ok e s') :
    (∃ n, currToken s = TOKEN_IDENTIFIER n) ∨ (∃ v, currToken s = TOKEN_NUMBER v) ∨
      currToken s = TOKEN_LPAREN := by
  rcases fuel with _ | _ | _ | k
  · simp [parseExpression] at h
  · simp [parseExpression, parseBinaryExpression] at h
  · simp [parseExpression, parseBinaryExpression, parsePrimary, Outcome.bind] at h
  · simp only [parseExpression, parseBinaryExpression, parsePrimary] at h
    split at h
    · exact Or.inl ⟨_, by assumption⟩
    · exact Or.inr (Or.inl ⟨_, by assumption⟩)
    · exact Or.inr (Or.inr (by assumption))
    · simp [Outcome.bind] at h

theorem exprTokens_head {ts : List Token} {e : ExprAST} (h : ExprTokens ts e) :
    ∃ t ts', ts = t :: ts' ∧
      ((∃ n, t = TOKEN_IDENTIFIER n) ∨ (∃ v, t = TOKEN_NUMBER v) ∨ t = TOKEN_LPAREN) := by
  obtain ⟨N, hN⟩ := h TOKEN_SEMICOLON [] [] (by simp) rfl
  have h0 := parseExpression_head (hN N (le_refl N))
  cases ts with
  | nil => simp at h0
  | cons t ts' => exact ⟨t, ts', rfl, by simpa using h0⟩

theorem parseArgs_spec (args : List (List Token × ExprAST))
    (h : ∀ a ∈ args, ExprTokens a.1 a.2) (hne : args ≠ []) :
    ∀ (acc : List ExprAST) (rest : List Token) (st : List ExprAST),
    ∃ N, ∀ fuel, N ≤ fuel →
      parseArgs fuel acc
          (State.reading (commaSeparated (args.map Prod.fst) ++ TOKEN_RPAREN :: rest) st) =
        Outcome.ok (acc ++ args.map Prod.snd)
          ⟨TOKEN_RPAREN, none, rest, st ++ nodesList (args.map Prod.snd)⟩ := by
  induction args with
  | nil => exact absurd rfl hne
  | cons a as ih =>
    intro acc rest st
    have ha := h a (by simp)
    cases as with
    | nil =>
      obtain ⟨N, hN⟩ := ha TOKEN_RPAREN rest st (by simp) rfl
      refine ⟨N + 1, fun fuel hf => ?_⟩
      obtain ⟨k, rfl⟩ : ∃ k, fuel = k + 1 := ⟨fuel - 1, by omega⟩
      simp [parseArgs, hN k (by omega), nodesList]
    | cons b bs =>
      obtain ⟨N, hN⟩ := ha TOKEN_COMMA
        (commaSeparated ((b :: bs).map Prod.fst) ++ TOKEN_RPAREN :: rest) st (by simp) rfl
      obtain ⟨M, hM⟩ := ih (fun x hx => h x (by simp [hx])) (by simp)
        (acc ++ [a.2]) rest (st ++ a.2.nodes)
      refine ⟨N + M + 1, fun fuel hf => ?_⟩
      obtain ⟨k, rfl⟩ : ∃ k, fuel = k + 1 := ⟨fuel - 1, by omega⟩
      have hM' := hM k (by omega)
      have hN' := hN k (by omega)
      simp only [List.map_cons, commaSeparated_cons_cons, List.append_assoc,
        List.cons_append] at hM' hN' ⊢
      simp [parseArgs, hN', hM', nodesList]

theorem parsePrimary_call (f : String) (args : List (List Token × ExprAST))
    (h : ∀ a ∈ args, ExprTokens a.1 a.2) (rest : List Token) (st : List ExprAST) :
    ∃ N, ∀ fuel, N ≤ fuel →
      parsePrimary fuel
          (State.reading (TOKEN_IDENTIFIER f :: TOKEN_LPAREN ::
            (commaSeparated (args.map Prod.fst) ++ TOKEN_RPAREN :: rest)) st) =
        Outcome.ok (CallExpr f (args.map Prod.snd))
          (State.reading rest (st ++ (CallExpr f (args.map Prod.snd)).nodes)) := by
  cases args with
  | nil =>
    refine ⟨1, fun fuel hf => ?_⟩
    obtain ⟨k, rfl⟩ : ∃ k, fuel = k + 1 := ⟨fuel - 1, by omega⟩
    simp [parsePrimary, ExprAST.nodes, nodesList]
  | cons a as =>
    obtain ⟨N, hN⟩ := parseArgs_spec (a :: as) h (by simp) [] rest st
    obtain ⟨t, ts', hts, ht⟩ := exprTokens_head (h a (by simp))
    have hhead : (commaSeparated ((a :: as).map Prod.fst) ++ TOKEN_RPAREN :: rest).headD
        TOKEN_EOF ≠ TOKEN_RPAREN := by
      cases as <;> simp [hts] <;> rcases ht with ⟨n, rfl⟩ | ⟨v, rfl⟩ | rfl <;> simp
    refine ⟨N + 1, fun fuel hf => ?_⟩
    obtain ⟨k, rfl⟩ : ∃ k, fuel = k + 1 := ⟨fuel - 1, by omega⟩
    simp only [parsePrimary, reading_cons, currToken_mk, nextToken_mk_none, ne_eq,
      not_true_eq_false, ite_false, if_false, currToken_reading]
    rw [if_pos hhead, hN k (by omega)]
    simp [ExprAST.nodes]

theorem primary_call (f : String) (args : List (List Token × ExprAST))
    (h : ∀ a ∈ args, ExprTokens a.1 a.2) :
    PrimaryTokens (TOKEN_IDENTIFIER f :: TOKEN_LPAREN ::
      (commaSeparated (args.map Prod.fst) ++ [TOKEN_RPAREN])) (CallExpr f (args.map Prod.snd)) := by
  intro next rest st _
  obtain ⟨N, hN⟩ := parsePrimary_call f args h (next :: rest) st
  refine ⟨N, fun fuel hf => ?_⟩
  have := hN fuel hf
  simpa using this

theorem expr_binary {l r : List Token} {el er : ExprAST} {op : Char}
    (hl : PrimaryTokens l el) (hr : PrimaryTokens r er) (hop : op ∈ BinaryOpSet) :
    ExprTokens (l ++ TOKEN_OP op :: r) (BinaryExpr op el er) := by
  intro next rest st hn hb
  obtain ⟨N, hN⟩ := hl (TOKEN_OP op) (r ++ next :: rest) st (by simp)
  obtain ⟨M, hM⟩ := hr next rest (st ++ el.nodes) hn
  refine ⟨N + M + 5, fun fuel hf => ?_⟩
  obtain ⟨k, rfl⟩ : ∃ k, fuel = k + 5 := ⟨fuel - 5, by omega⟩
  obtain ⟨_, hq0⟩ := lookup_of_mem hop
  rw [parseExpression_succ, parseBinaryExpression_succ]
  simp only [List.append_assoc, List.cons_append]
  rw [hN _ (by omega), Outcome.ok_bind, binaryLoop_op_mk _ _ _ _ _ _ hop hq0,
    nextToken_mk_none, parseBinaryExpression_succ, hM _ (by omega), Outcome.ok_bind,
    binaryLoop_stop_mk _ _ _ _ _ _ hb, Outcome.ok_bind, push_back_mk,
    binaryLoop_stop_mk _ _ _ _ _ _ hb]
  simp [ExprAST.nodes]



/-! ## Statements -/

theorem parseStatement_head {fuel : Nat} {s s' : State} {e : ExprAST}
    (h : parseStatement fuel s = Outcome.ok e s') :
    currToken s ≠ TOKEN_ELSE ∧ currToken s ≠ TOKEN_RBRACE ∧ currToken s ≠ TOKEN_EOF := by
  rcases fuel with _ | k
  · simp [parseStatement] at h
  · simp only [parseStatement] at h
    split at h <;> simp_all

theorem stmtTokens_head {ts : List Token} {e : ExprAST} (h : StmtTokens ts e) :
    ∃ t ts', ts = t :: ts' ∧ t ≠ TOKEN_ELSE ∧ t ≠ TOKEN_RBRACE := by
  obtain ⟨N, hN⟩ := h [] [] (by simp)
  obtain ⟨s', hs', _⟩ := hN N (le_refl N)
  have h0 := parseStatement_head hs'
  cases ts with
  | nil => simp at h0
  | cons t ts' => exact ⟨t, ts', rfl, by simpa using h0.1, by simpa using h0.2.1⟩

theorem stmt_of_closed {ts : List Token} {e : ExprAST} (h : ClosedStmtTokens ts e) :
    StmtTokens ts e := by
  intro rest st _
  obtain ⟨N, hN⟩ := h rest st
  refine ⟨N, fun fuel hf => ?_⟩
  obtain ⟨c, hc⟩ := hN fuel hf
  exact ⟨_, hc, by simp⟩

theorem closed_expr {ts : List Token} {e : ExprAST} (h : ExprTokens ts e) :
    ClosedStmtTokens (ts ++ [TOKEN_SEMICOLON]) e := by
  intro rest st
  obtain ⟨N, hN⟩ := h TOKEN_SEMICOLON rest st (by simp) rfl
  obtain ⟨t, ts', rfl, ht⟩ := exprTokens_head h
  refine ⟨N + 1, fun fuel hf => ?_⟩
  obtain ⟨k, rfl⟩ : ∃ k, fuel = k + 1 := ⟨fuel - 1, by omega⟩
  have hk := hN k (by omega)
  simp only [List.append_assoc, List.cons_append, List.nil_append, reading_cons] at hk ⊢
  refine ⟨TOKEN_SEMICOLON, ?_⟩
  rcases ht with ⟨n, rfl⟩ | ⟨v, rfl⟩ | rfl <;> simp [parseStatement, hk]

theorem unreadToken_reading (ts : List Token) (st : List ExprAST) :
    unreadToken (State.reading ts st) =
      some ⟨ts.headD TOKEN_EOF, some (ts.headD TOKEN_EOF), ts.tail, st⟩ := rfl

theorem nextToken_unread (ts : List Token) (st : List ExprAST) :
    nextToken ⟨ts.headD TOKEN_EOF, some (ts.headD TOKEN_EOF), ts.tail, st⟩ =
      State.reading ts st := rfl

theorem headD_ne_else {rest : List Token} (h : rest.head? ≠ some TOKEN_ELSE) :
    rest.headD TOKEN_EOF ≠ TOKEN_ELSE := by
  cases rest <;> simp_all

theorem stmt_if {c s : List Token} {ec es : ExprAST}
    (hc : ExprTokens c ec) (hs : StmtTokens s es) :
    StmtTokens (TOKEN_IF :: TOKEN_LPAREN :: (c ++ TOKEN_RPAREN :: s)) (IfExpr ec es none) := by
  intro rest st hrest
  obtain ⟨N, hN⟩ := hc TOKEN_RPAREN (s ++ rest) st (by simp) rfl
  obtain ⟨M, hM⟩ := hs rest (st ++ ec.nodes) hrest
  refine ⟨N + M + 1, fun fuel hf => ?_⟩
  obtain ⟨k, rfl⟩ : ∃ k, fuel = k + 1 := ⟨fuel - 1, by omega⟩
  obtain ⟨s1, hs1, hnext⟩ := hM k (by omega)
  have hk := hN k (by omega)
  have he := headD_ne_else hrest
  simp only [List.append_assoc, List.cons_append] at hk ⊢
  refine ⟨⟨rest.headD TOKEN_EOF, some (rest.headD TOKEN_EOF), rest.tail,
    st ++ ec.nodes ++ es.nodes ++ [IfExpr ec es none]⟩, ?_, ?_⟩
  · simp only [parseStatement, reading_cons, currToken_mk, nextToken_mk_none, ne_eq,
      not_true_eq_false, if_false, hk, Outcome.ok_bind, hs1, hnext, currToken_reading, he,
      unreadToken_reading, push_back_mk]
  · rw [nextToken_unread]
    simp [ExprAST.nodes, nodesOption]

theorem stmt_if_else {c s t : List Token} {ec es et : ExprAST}
    (hc : ExprTokens c ec) (hs : ClosedStmtTokens s es) (ht : StmtTokens t et) :
    StmtTokens (TOKEN_IF :: TOKEN_LPAREN :: (c ++ TOKEN_RPAREN :: (s ++ TOKEN_ELSE :: t)))
      (IfExpr ec es (some et)) := by
  intro rest st hrest
  obtain ⟨N, hN⟩ := hc TOKEN_RPAREN (s ++ TOKEN_ELSE :: (t ++ rest)) st (by simp) rfl
  obtain ⟨M, hM⟩ := hs (TOKEN_ELSE :: (t ++ rest)) (st ++ ec.nodes)
  obtain ⟨K, hK⟩ := ht rest (st ++ ec.nodes ++ es.nodes) hrest
  obtain ⟨t0, t', rfl, _⟩ := stmtTokens_head ht
  refine ⟨N + M + K + 1, fun fuel hf => ?_⟩
  obtain ⟨k, rfl⟩ : ∃ k, fuel = k + 1 := ⟨fuel - 1, by omega⟩
  obtain ⟨c1, hs1⟩ := hM k (by omega)
  obtain ⟨s2, hs2, hnext⟩ := hK k (by omega)
  have hk := hN k (by omega)
  simp only [List.append_assoc, List.cons_append, reading_cons] at hk hs1 hs2 ⊢
  refine ⟨s2.push_back (IfExpr ec es (some et)), ?_, ?_⟩
  · simp only [parseStatement, currToken_mk, nextToken_mk_none, ne_eq,
      not_true_eq_false, if_false, if_true, hk, Outcome.ok_bind, hs1, hs2, reading_cons]
  · have : nextToken (s2.push_back (IfExpr ec es (some et))) =
        (nextToken s2).push_back (IfExpr ec es (some et)) := by
      cases s2 with
      | mk c b i x => cases b <;> cases i <;> rfl
    rw [this, hnext]
    simp [ExprAST.nodes, nodesOption]



theorem nextToken_push_back (s : State) (e : ExprAST) :
    nextToken (s.push_back e) = (nextToken s).push_back e := by
  cases s with
  | mk c b i x => cases b <;> cases i <;> rfl

theorem closed_if_else {c s t : List Token} {ec es et : ExprAST}
    (hc : ExprTokens c ec) (hs : ClosedStmtTokens s es) (ht : ClosedStmtTokens t et) :
    ClosedStmtTokens (TOKEN_IF :: TOKEN_LPAREN :: (c ++ TOKEN_RPAREN :: (s ++ TOKEN_ELSE :: t)))
      (IfExpr ec es (some et)) := by
  intro rest st
  obtain ⟨N, hN⟩ := hc TOKEN_RPAREN (s ++ TOKEN_ELSE :: (t ++ rest)) st (by simp) rfl
  obtain ⟨M, hM⟩ := hs (TOKEN_ELSE :: (t ++ rest)) (st ++ ec.nodes)
  obtain ⟨K, hK⟩ := ht rest (st ++ ec.nodes ++ es.nodes)
  obtain ⟨t0, t', rfl, _⟩ := stmtTokens_head (stmt_of_closed ht)
  refine ⟨N + M + K + 1, fun fuel hf => ?_⟩
  obtain ⟨k, rfl⟩ : ∃ k, fuel = k + 1 := ⟨fuel - 1, by omega⟩
  obtain ⟨c1, hs1⟩ := hM k (by omega)
  obtain ⟨c2, hs2⟩ := hK k (by omega)
  have hk := hN k (by omega)
  simp only [List.append_assoc, List.cons_append, reading_cons] at hk hs1 hs2 ⊢
  refine ⟨c2, ?_⟩
  simp only [parseStatement, currToken_mk, nextToken_mk_none, ne_eq,
      not_true_eq_false, if_false, if_true, hk, Outcome.ok_bind, hs1, hs2, reading_cons,
      push_back_mk]
  simp [ExprAST.nodes, nodesOption]

theorem parseBlock_spec (stmts : List (List Token × ExprAST))
    (h : ∀ x ∈ stmts, StmtTokens x.1 x.2) :
    ∀ (acc : List ExprAST) (s : State) (rest : List Token) (st : List ExprAST),
    nextToken s = State.reading (concatTokens (stmts.map Prod.fst) ++ TOKEN_RBRACE :: rest) st →
    ∃ N, ∀ fuel, N ≤ fuel →
      parseBlock fuel acc s =
        Outcome.ok (acc ++ stmts.map Prod.snd)
          ⟨TOKEN_RBRACE, none, rest, st ++ nodesList (stmts.map Prod.snd)⟩ := by
  induction stmts with
  | nil =>
    intro acc s rest st hs
    refine ⟨1, fun fuel hf => ?_⟩
    obtain ⟨k, rfl⟩ : ∃ k, fuel = k + 1 := ⟨fuel - 1, by omega⟩
    simp [parseBlock, hs, concatTokens, nodesList]
  | cons x xs ih =>
    intro acc s rest st hs
    have hx := h x (by simp)
    obtain ⟨t, ts', hts, hte, htb⟩ := stmtTokens_head hx
    have hrest : (concatTokens (xs.map Prod.fst) ++ TOKEN_RBRACE :: rest).head? ≠
        some TOKEN_ELSE := by
      cases xs with
      | nil => simp [concatTokens]
      | cons y ys =>
        obtain ⟨u, us, hus, hue, _⟩ := stmtTokens_head (h y (by simp))
        simp [concatTokens, hus, hue]
    obtain ⟨N, hN⟩ := hx (concatTokens (xs.map Prod.fst) ++ TOKEN_RBRACE :: rest) st hrest
    obtain ⟨s1, hs1, hnext⟩ := hN N (le_refl N)
    obtain ⟨M, hM⟩ := ih (fun y hy => h y (by simp [hy])) (acc ++ [x.2]) s1 rest
      (st ++ x.2.nodes) hnext
    refine ⟨N + M + 1, fun fuel hf => ?_⟩
    obtain ⟨k, rfl⟩ : ∃ k, fuel = k + 1 := ⟨fuel - 1, by omega⟩
    have hk := Outcome.refines_ok (parseStatement_mono (show N ≤ k by omega) _) hs1
    have hcur : currToken (State.reading (x.1 ++ (concatTokens (xs.map Prod.fst) ++
        TOKEN_RBRACE :: rest)) st) ≠ TOKEN_RBRACE := by
      simp [hts, htb]
    simp only [List.map_cons, concatTokens, List.append_assoc] at hs
    simp only [parseBlock, hs, if_neg hcur, hk, Outcome.ok_bind, hM k (by omega)]
    simp [nodesList]

theorem closed_block (stmts : List (List Token × ExprAST))
    (h : ∀ x ∈ stmts, StmtTokens x.1 x.2) :
    ClosedStmtTokens (TOKEN_LBRACE :: (concatTokens (stmts.map Prod.fst) ++ [TOKEN_RBRACE]))
      (BlockExpr (stmts.map Prod.snd)) := by
  intro rest st
  obtain ⟨N, hN⟩ := parseBlock_spec stmts h [] ⟨TOKEN_LBRACE, none,
    concatTokens (stmts.map Prod.fst) ++ TOKEN_RBRACE :: rest, st⟩ rest st (by simp)
  refine ⟨N + 1, fun fuel hf => ?_⟩
  obtain ⟨k, rfl⟩ : ∃ k, fuel = k + 1 := ⟨fuel - 1, by omega⟩
  refine ⟨TOKEN_RBRACE, ?_⟩
  have hk := hN k (by omega)
  simp only [List.append_assoc, List.cons_append, List.nil_append, reading_cons]
  simp only [parseStatement, currToken_mk, hk, Outcome.ok_bind, push_back_mk]
  simp [ExprAST.nodes]



/-! ## Declarations -/

theorem parseParams_spec (ps : List String) (hne : ps ≠ []) :
    ∀ (acc : List String) (rest : List Token) (st : List ExprAST) (fuel : Nat),
    ps.length ≤ fuel →
      parseParams fuel acc (State.reading (paramTokens ps ++ TOKEN_RPAREN :: rest) st) =
        Outcome.ok (acc ++ ps) ⟨TOKEN_RPAREN, none, rest, st⟩ := by
  induction ps with
  | nil => exact absurd rfl hne
  | cons p ps ih =>
    intro acc rest st fuel hf
    obtain ⟨k, rfl⟩ : ∃ k, fuel = k + 1 := ⟨fuel - 1, by simp at hf; omega⟩
    cases ps with
    | nil => simp [parseParams, paramTokens]
    | cons q qs =>
      have := ih (by simp) (acc ++ [p]) rest st k (by simp at hf ⊢; omega)
      simp only [paramTokens, List.cons_append, reading_cons] at this ⊢
      simp [parseParams, this]

theorem parseFunctionPrototype_spec (n : String) (ps : List String) (rest : List Token)
    (st : List ExprAST) (fuel : Nat) (hf : ps.length ≤ fuel) :
    parseFunctionPrototype fuel
        (State.reading (TOKEN_IDENTIFIER n :: TOKEN_LPAREN ::
          (paramTokens ps ++ TOKEN_RPAREN :: rest)) st) =
      Outcome.ok ⟨n, ps⟩ (State.reading rest (st ++ [PrototypeExpr ⟨n, ps⟩])) := by
  cases ps with
  | nil => simp [parseFunctionPrototype, paramTokens]
  | cons p qs =>
    have h := parseParams_spec (p :: qs) (by simp) [] rest st fuel hf
    have hcur : currToken (State.reading (paramTokens (p :: qs) ++ TOKEN_RPAREN :: rest) st) ≠
        TOKEN_RPAREN := by
      cases qs <;> simp [paramTokens]
    simp only [parseFunctionPrototype, reading_cons, currToken_mk, nextToken_mk_none, ne_eq,
      not_true_eq_false, if_false, if_pos hcur, h, Outcome.ok_bind]
    simp

/-! ## Operator chains -/

theorem parsePrimary_operand (p : Operand) (rest : List Token) (st : List ExprAST)
    (h : ∀ n, p = Operand.var n → rest.head? ≠ some TOKEN_LPAREN) (fuel : Nat) :
    parsePrimary (fuel + 1) (State.reading (p.token :: rest) st) =
      Outcome.ok p.expr (State.reading rest (st ++ [p.expr])) := by
  cases p with
  | num v => simp [parsePrimary, Operand.token, Operand.expr]
  | var n =>
    have h1 := h n rfl
    cases rest with
    | nil => simp [parsePrimary, Operand.token, Operand.expr, State.reading]
    | cons t ts =>
      have h2 : t ≠ TOKEN_LPAREN := by simpa using h1
      simp [parsePrimary, Operand.token, Operand.expr, h2]

theorem operand_leaf (p : Operand) :
    p.expr.nodes = [p.expr] ∧ rootPrecedence p.expr = none ∧ precedenceOrdered p.expr = true := by
  cases p <;> simp [Operand.expr, ExprAST.nodes, rootPrecedence, precedenceOrdered]

/-- The loop of `parseBinaryExpression` on a chain whose operators all have one
precedence `q` above the threshold: the left-nested tree. -/
theorem binaryLoop_leftNested (q P : Int) (hP : P < q) (next : Token) (rest : List Token)
    (hnext : isBinaryOp next = false) :
    ∀ (ops : List (Char × Operand)) (R : ExprAST) (st0 : List ExprAST) (fuel : Nat),
    (∀ x ∈ ops, x.1 ∈ BinaryOpSet ∧ precedenceOf x.1 = q) →
    (∀ x l n, ops = x :: l → chainLast x.2 l = Operand.var n → next ≠ TOKEN_LPAREN) →
    2 * ops.length + 1 ≤ fuel →
      binaryLoop fuel P R (State.reading (opsTokens ops ++ next :: rest) (st0 ++ R.nodes)) =
        Outcome.ok (leftNested R ops) ⟨next, none, rest, st0 ++ (leftNested R ops).nodes⟩ := by
  intro ops
  induction ops with
  | nil =>
    intro R st0 fuel _ _ hf
    obtain ⟨k, rfl⟩ : ∃ k, fuel = k + 1 := ⟨fuel - 1, by omega⟩
    simp [opsTokens, leftNested, binaryLoop_stop_mk, hnext]
  | cons x l ih =>
    intro R st0 fuel hops hlast hf
    obtain ⟨k, rfl⟩ : ∃ k, fuel = k + 3 := ⟨fuel - 3, by simp at hf; omega⟩
    obtain ⟨hx, hxq⟩ := hops x (by simp)
    have hprim : ∀ n, x.2 = Operand.var n →
        (opsTokens l ++ next :: rest).head? ≠ some TOKEN_LPAREN := by
      intro n hn
      cases l with
      | nil =>
        have := hlast x [] n rfl (by simpa [chainLast] using hn)
        simpa [opsTokens] using this
      | cons y l' => simp [opsTokens]
    have hinner : binaryLoop (k + 1) (precedenceOf x.1) x.2.expr
        (State.reading (opsTokens l ++ next :: rest) (st0 ++ R.nodes ++ [x.2.expr])) =
        Outcome.ok x.2.expr
          (State.reading (opsTokens l ++ next :: rest) (st0 ++ R.nodes ++ [x.2.expr])) := by
      cases l with
      | nil => simp [opsTokens, binaryLoop_stop_mk, hnext]
      | cons y l' =>
        have hy := (hops y (by simp)).2
        simp only [opsTokens, List.cons_append, reading_cons]
        exact binaryLoop_low_mk _ _ _ _ _ _ (by rw [hy, hxq])
    have hrec := ih (BinaryExpr x.1 R x.2.expr) st0 (k + 2)
      (fun y hy => hops y (by simp [hy]))
      (fun y l' n hl hn => hlast x l n rfl (by subst hl; simpa [chainLast] using hn))
      (by simp at hf; omega)
    simp only [opsTokens, List.cons_append, reading_cons]
    rw [binaryLoop_op_mk _ _ _ _ _ _ hx (by rw [hxq]; exact hP), nextToken_mk_none,
      parseBinaryExpression_succ, parsePrimary_operand _ _ _ hprim, Outcome.ok_bind, hinner,
      Outcome.ok_bind, push_back_reading]
    simp only [ExprAST.nodes, (operand_leaf x.2).1, List.append_assoc] at hrec ⊢
    rw [hrec]
    simp [leftNested]



theorem precedenceOrdered_binary {op : Char} {l r : ExprAST}
    (hr : ∀ q, rootPrecedence r = some q → precedenceOf op < q)
    (hl : ∀ q, rootPrecedence l = some q → precedenceOf op ≤ q)
    (hol : precedenceOrdered l = true) (hor : precedenceOrdered r = true) :
    precedenceOrdered (BinaryExpr op l r) = true := by
  simp only [precedenceOrdered, hol, hor, Bool.and_true, Bool.and_eq_true]
  constructor
  · cases h : rootPrecedence r with
    | none => rfl
    | some q => simpa using hr q h
  · cases h : rootPrecedence l with
    | none => rfl
    | some q => simpa using hl q h

theorem chainLast_append (p : Operand) (o1 : List (Char × Operand)) (y : Char × Operand)
    (l : List (Char × Operand)) : chainLast p (o1 ++ y :: l) = chainLast y.2 l := by
  induction o1 generalizing p with
  | nil => rfl
  | cons z zs ih => simpa [chainLast] using ih z.2

/-- The loop of `parseBinaryExpression` on an operator chain: it consumes a
prefix of the chain, stops in front of an operator that is not above the
threshold (or at the end of the chain), and the tree it returns is ordered by
precedence with a root operator above the threshold. -/
theorem binaryLoop_chain (next : Token) (rest : List Token)
    (hnext : isBinaryOp next = false) (n : Nat) :
    ∀ (ops : List (Char × Operand)) (P : Int) (R : ExprAST) (st0 : List ExprAST) (fuel : Nat),
    ops.length ≤ n → 2 * n + 1 ≤ fuel →
    (∀ x ∈ ops, x.1 ∈ BinaryOpSet) →
    (∀ x l m, ops = x :: l → chainLast x.2 l = Operand.var m → next ≠ TOKEN_LPAREN) →
    precedenceOrdered R = true →
    (∀ q, rootPrecedence R = some q → P < q ∧ ∀ x l, ops = x :: l → precedenceOf x.1 ≤ q) →
    ∃ T ops1 ops2, ops = ops1 ++ ops2 ∧
      binaryLoop fuel P R (State.reading (opsTokens ops ++ next :: rest) (st0 ++ R.nodes)) =
        Outcome.ok T (State.reading (opsTokens ops2 ++ next :: rest) (st0 ++ T.nodes)) ∧
      precedenceOrdered T = true ∧
      (∀ q, rootPrecedence T = some q → P < q) ∧
      (∀ x l, ops2 = x :: l → precedenceOf x.1 ≤ P) := by
  induction n with
  | zero =>
    intro ops P R st0 fuel hlen hf _ _ hR hroot
    have : ops = [] := by cases ops <;> simp_all
    subst this
    obtain ⟨k, rfl⟩ : ∃ k, fuel = k + 1 := ⟨fuel - 1, by omega⟩
    refine ⟨R, [], [], rfl, ?_, hR, fun q hq => (hroot q hq).1, by simp⟩
    simp [opsTokens, binaryLoop_stop_mk, hnext]
  | succ n ih =>
    intro ops P R st0 fuel hlen hf hops hlast hR hroot
    obtain ⟨k, rfl⟩ : ∃ k, fuel = k + 3 := ⟨fuel - 3, by omega⟩
    cases ops with
    | nil =>
      refine ⟨R, [], [], rfl, ?_, hR, fun q hq => (hroot q hq).1, by simp⟩
      simp [opsTokens, binaryLoop_stop_mk, hnext]
    | cons x l =>
      have hx := hops x (by simp)
      by_cases hP : precedenceOf x.1 ≤ P
      · refine ⟨R, [], x :: l, rfl, ?_, hR, fun q hq => (hroot q hq).1, ?_⟩
        · simp only [opsTokens, List.cons_append, reading_cons]
          exact binaryLoop_low_mk _ _ _ _ _ _ hP
        · intro y l' h
          cases h
          exact hP
      · have hP' : P < precedenceOf x.1 := not_le.mp hP
        have hprim : ∀ m, x.2 = Operand.var m →
            (opsTokens l ++ next :: rest).head? ≠ some TOKEN_LPAREN := by
          intro m hm
          cases l with
          | nil =>
            have := hlast x [] m rfl (by simpa [chainLast] using hm)
            simpa [opsTokens] using this
          | cons y l' => simp [opsTokens]
        have hlen' : l.length ≤ n := by simpa using hlen
        obtain ⟨T1, o1, o2, ho, hrun1, hT1, hroot1, hstop1⟩ :=
          ih l (precedenceOf x.1) x.2.expr (st0 ++ R.nodes) (k + 1) hlen' (by omega)
            (fun y hy => hops y (by simp [hy]))
            (fun y l' m hl hm => hlast x l m rfl (by subst hl; simpa [chainLast] using hm))
            (operand_leaf x.2).2.2
            (fun q hq => by rw [(operand_leaf x.2).2.1] at hq; cases hq)
        have hlen2 : o2.length ≤ n := by
          have : l.length = o1.length + o2.length := by rw [ho]; simp
          omega
        have hord : precedenceOrdered (BinaryExpr x.1 R T1) = true :=
          precedenceOrdered_binary hroot1 (fun q hq => (hroot q hq).2 x l rfl) hR hT1
        obtain ⟨T, p1, p2, hp, hrun2, hT, hrootT, hstop2⟩ :=
          ih o2 P (BinaryExpr x.1 R T1) st0 (k + 2) hlen2 (by omega)
            (fun y hy => hops y (by simp [ho, hy]))
            (fun y l' m hl hm => hlast x l m rfl (by
              rw [ho, hl, chainLast_append]
              exact hm))
            hord
            (fun q hq => by
              simp only [rootPrecedence, Option.some.injEq] at hq
              subst hq
              exact ⟨hP', fun y l' hl => hstop1 y l' hl⟩)
        refine ⟨T, x :: (o1 ++ p1), p2, by simp [ho, hp], ?_, hT, hrootT, hstop2⟩
        simp only [opsTokens, List.cons_append, reading_cons]
        rw [binaryLoop_op_mk _ _ _ _ _ _ hx hP', nextToken_mk_none,
          parseBinaryExpression_succ, parsePrimary_operand _ _ _ hprim, Outcome.ok_bind]
        rw [(operand_leaf x.2).1] at hrun1
        rw [hrun1, Outcome.ok_bind, push_back_reading]
        simp only [ExprAST.nodes, List.append_assoc] at hrun2 ⊢
        exact hrun2



/-! ## Rendered expression trees -/

theorem renderArgs_single (a : ExprAST) : renderArgs [a] = render a := by
  rw [renderArgs]

theorem renderArgs_cons_cons (a b : ExprAST) (bs : List ExprAST) :
    renderArgs (a :: b :: bs) = render a ++ TOKEN_COMMA :: renderArgs (b :: bs) := by
  rw [renderArgs]

theorem renderArgs_eq (args : List ExprAST) :
    renderArgs args = commaSeparated (args.map render) := by
  induction args with
  | nil => rfl
  | cons a as ih =>
    cases as with
    | nil => simp [renderArgs_single]
    | cons b bs => rw [renderArgs_cons_cons, ih]; simp

mutual

theorem primary_render : ∀ t : ExprAST, isExpression t = true → PrimaryTokens (render t) t
  | NumberExpr v, _ => primary_number v
  | VariableExpr n, _ => primary_variable n
  | BinaryExpr op l r, h => by
    simp only [isExpression, Bool.and_eq_true, decide_eq_true_eq] at h
    have hl := primary_render l h.1.2
    have hr := primary_render r h.2
    have := primary_paren (expr_binary hl hr h.1.1)
    simpa [render] using this
  | CallExpr f args, h => by
    simp only [isExpression] at h
    have hargs := args_render args h
    have := primary_call f (args.map fun a => (render a, a)) (by
      intro a ha
      obtain ⟨b, hb, rfl⟩ := List.mem_map.mp ha
      exact hargs b hb)
    simpa [render, renderArgs_eq, Function.comp_def] using this
  | PrototypeExpr _, h => by simp [isExpression] at h
  | FunctionExpr _ _, h => by simp [isExpression] at h
  | IfExpr _ _ _, h => by simp [isExpression] at h
  | BlockExpr _, h => by simp [isExpression] at h

theorem args_render : ∀ args : List ExprAST, allExpressions args = true →
    ∀ a ∈ args, ExprTokens (render a) a
  | [], _ => by simp
  | e :: es, h => by
    simp only [allExpressions, Bool.and_eq_true] at h
    intro a ha
    rcases List.mem_cons.mp ha with rfl | ha
    · exact expr_of_primary (primary_render _ h.1)
    · exact args_render es h.2 a ha

end


/-! ## Small facts used by the claims -/

theorem isBinaryOp_of_isOperator {t : Token} (h : isOperator t = false) :
    isBinaryOp t = false := by
  cases t <;> simp_all [isOperator, isBinaryOp]

theorem parseExpression_mono_ok {n m : Nat} (h : n ≤ m) {s s' : State} {e : ExprAST}
    (hr : parseExpression n s = Outcome.ok e s') : parseExpression m s = Outcome.ok e s' :=
  Outcome.refines_ok (parseExpression_mono h s) hr

theorem parseStatement_mono_ok {n m : Nat} (h : n ≤ m) {s s' : State} {e : ExprAST}
    (hr : parseStatement n s = Outcome.ok e s') : parseStatement m s = Outcome.ok e s' :=
  Outcome.refines_ok (parseStatement_mono h s) hr

theorem parseStatement_unique {n m : Nat} {s s1 s2 : State} {e1 e2 : ExprAST}
    (h1 : parseStatement n s = Outcome.ok e1 s1) (h2 : parseStatement m s = Outcome.ok e2 s2) :
    e1 = e2 := by
  have a := parseStatement_mono_ok (Nat.le_max_left n m) h1
  have b := parseStatement_mono_ok (Nat.le_max_right n m) h2
  rw [a] at b
  cases b
  rfl

theorem expr_number (v : Nat) : ExprTokens [TOKEN_NUMBER v] (NumberExpr v) :=
  expr_of_primary (primary_number v)

theorem parseStatement_block_spec (stmts : List (List Token × ExprAST))
    (h : ∀ x ∈ stmts, StmtTokens x.1 x.2) (rest : List Token) (st : List ExprAST) :
    ∃ N, ∀ fuel, N ≤ fuel →
      parseStatement fuel (State.reading
          (TOKEN_LBRACE :: (concatTokens (stmts.map Prod.fst) ++ TOKEN_RBRACE :: rest)) st) =
        Outcome.ok (BlockExpr (stmts.map Prod.snd))
          ⟨TOKEN_RBRACE, none, rest, st ++ (BlockExpr (stmts.map Prod.snd)).nodes⟩ := by
  obtain ⟨N, hN⟩ := parseBlock_spec stmts h [] ⟨TOKEN_LBRACE, none,
    concatTokens (stmts.map Prod.fst) ++ TOKEN_RBRACE :: rest, st⟩ rest st (by simp)
  refine ⟨N + 1, fun fuel hf => ?_⟩
  obtain ⟨k, rfl⟩ : ∃ k, fuel = k + 1 := ⟨fuel - 1, by omega⟩
  have hk := hN k (by omega)
  simp only [reading_cons, parseStatement, currToken_mk, hk, Outcome.ok_bind, push_back_mk]
  simp [ExprAST.nodes]

/-! ## Every parse function consumes tokens -/

theorem remaining_nextToken_le (s : State) : (nextToken s).remaining ≤ s.remaining := by
  cases s with
  | mk c b i x =>
    by_cases hc : c = TOKEN_EOF <;> cases b with
    | some t =>
      by_cases ht : t = TOKEN_EOF <;> simp [nextToken, State.remaining, hc, ht] <;> omega
    | none =>
      cases i with
      | nil => simp [nextToken, State.remaining, hc]
      | cons t ts =>
        by_cases ht : t = TOKEN_EOF <;> simp [nextToken, State.remaining, hc, ht] <;> omega

theorem remaining_nextToken_lt (s : State) (h : currToken s ≠ TOKEN_EOF) :
    (nextToken s).remaining < s.remaining := by
  cases s with
  | mk c b i x =>
    simp only [currToken] at h
    cases b with
    | some t =>
      by_cases ht : t = TOKEN_EOF <;> simp [nextToken, State.remaining, h, ht] <;> omega
    | none =>
      cases i with
      | nil => simp [nextToken, State.remaining, h]
      | cons t ts =>
        by_cases ht : t = TOKEN_EOF <;> simp [nextToken, State.remaining, h, ht] <;> omega

@[simp] theorem remaining_push_back (s : State) (e : ExprAST) :
    (s.push_back e).remaining = s.remaining := rfl

@[simp] theorem currToken_push_back (s : State) (e : ExprAST) :
    currToken (s.push_back e) = currToken s := rfl

theorem remaining_next_push (s : State) (e : ExprAST) :
    (nextToken (s.push_back e)).remaining ≤ s.remaining := by
  have := remaining_nextToken_le (s.push_back e)
  simpa using this

theorem nextToken_buffered (s : State) : (nextToken s).Buffered = none := by
  cases s with
  | mk c b i x => cases b <;> cases i <;> rfl

theorem unreadToken_nextToken (s : State) :
    ∃ s', unreadToken (nextToken s) = some s' ∧ s'.remaining = (nextToken s).remaining + 1 ∧
      s'.Buffered = some (nextToken s).Curr ∧ s'.Curr = (nextToken s).Curr := by
  have h := nextToken_buffered s
  generalize nextToken s = t at h
  cases t with
  | mk c b i x =>
    simp only at h
    subst h
    exact ⟨_, rfl, by simp [State.remaining]; omega, rfl, rfl⟩

theorem expr_progress (fuel : Nat) :
    (∀ s e s', parsePrimary fuel s = Outcome.ok e s' → s'.remaining < s.remaining) ∧
    (∀ a s es s', parseArgs fuel a s = Outcome.ok es s' → s'.remaining < s.remaining) ∧
    (∀ P s e s', parseBinaryExpression fuel P s = Outcome.ok e s' →
      s'.remaining < s.remaining) ∧
    (∀ P R s e s', binaryLoop fuel P R s = Outcome.ok e s' → s'.remaining ≤ s.remaining) ∧
    (∀ s e s', parseExpression fuel s = Outcome.ok e s' → s'.remaining < s.remaining) := by
  induction fuel with
  | zero =>
    refine ⟨?_, ?_, ?_, ?_, ?_⟩ <;> intros <;> simp_all [parsePrimary, parseArgs,
      parseBinaryExpression, binaryLoop, parseExpression]
  | succ n ih =>
    obtain ⟨ih1, ih2, ih3, ih4, ih5⟩ := ih
    refine ⟨?_, ?_, ?_, ?_, ?_⟩
    · intro s e s' h
      simp only [parsePrimary] at h
      split at h
      · rename_i hc
        have h1 := remaining_nextToken_lt s (by rw [hc]; simp)
        split at h
        · cases h
          simpa using h1
        · rename_i hl
          simp only [ne_eq, not_not] at hl
          have h2 := remaining_nextToken_lt (nextToken s) (by rw [hl]; simp)
          split at h
          · cases hr : parseArgs n [] (nextToken (nextToken s)) with
            | ok a s2 =>
              rw [hr] at h
              simp only [Outcome.ok_bind, Outcome.ok.injEq] at h
              have h3 := ih2 _ _ _ _ hr
              rw [← h.2]
              exact lt_of_le_of_lt (remaining_next_push _ _) (by omega)
            | _ => rw [hr] at h; simp [Outcome.bind] at h
          · simp only [Outcome.ok_bind, Outcome.ok.injEq] at h
            rw [← h.2]
            exact lt_of_le_of_lt (remaining_next_push _ _) (by omega)
      · rename_i hc
        cases h
        have h1 := remaining_nextToken_lt (s.push_back (NumberExpr ‹Nat›))
          (by rw [currToken_push_back, hc]; simp)
        simpa using h1
      · rename_i hc
        have h1 := remaining_nextToken_lt s (by rw [hc]; simp)
        cases hr : parseExpression n (nextToken s) with
        | ok a s2 =>
          rw [hr] at h
          simp only [Outcome.ok_bind] at h
          split at h
          · cases h
            have h3 := ih5 _ _ _ hr
            have h4 := remaining_nextToken_le s2
            omega
          · cases h
        | _ => rw [hr] at h; simp [Outcome.bind] at h
      · cases h
    · intro a s es s' h
      simp only [parseArgs] at h
      cases hr : parseExpression n s with
      | ok e s2 =>
        rw [hr] at h
        simp only [Outcome.ok_bind] at h
        have h3 := ih5 _ _ _ hr
        split at h
        · have h4 := ih2 _ _ _ _ h
          have h5 := remaining_nextToken_le s2
          omega
        · cases h
          exact h3
        · cases h
      | _ => rw [hr] at h; simp [Outcome.bind] at h
    · intro P s e s' h
      simp only [parseBinaryExpression] at h
      cases hr : parsePrimary n s with
      | ok e1 s2 =>
        rw [hr] at h
        simp only [Outcome.ok_bind] at h
        have h3 := ih1 _ _ _ hr
        have h4 := ih4 _ _ _ _ _ h
        omega
      | _ => rw [hr] at h; simp [Outcome.bind] at h
    · intro P R s e s' h
      simp only [binaryLoop] at h
      split at h
      · split at h
        · cases h; exact le_refl _
        · split at h
          · cases h
          · split at h
            · cases h; exact le_refl _
            · cases hr : parseBinaryExpression n _ (nextToken s) with
              | ok e1 s2 =>
                rw [hr] at h
                simp only [Outcome.ok_bind] at h
                have h3 := ih3 _ _ _ _ hr
                have h4 := ih4 _ _ _ _ _ h
                have h5 := remaining_nextToken_le s
                simp only [remaining_push_back] at h4
                omega
              | _ => rw [hr] at h; simp [Outcome.bind] at h
      · cases h; exact le_refl _
    · intro s e s' h
      simp only [parseExpression] at h
      exact ih3 _ _ _ _ h



theorem stmt_progress (fuel : Nat) :
    (∀ s e s', parseStatement fuel s = Outcome.ok e s' → s'.remaining < s.remaining) ∧
    (∀ a s es s', parseBlock fuel a s = Outcome.ok es s' →
      s'.remaining ≤ (nextToken s).remaining) := by
  induction fuel with
  | zero => refine ⟨?_, ?_⟩ <;> intros <;> simp_all [parseStatement, parseBlock]
  | succ n ih =>
    obtain ⟨ih1, ih2⟩ := ih
    have ihe := (expr_progress n).2.2.2.2
    have hexpr : ∀ s e s', ((parseExpression n s).bind fun Expr s =>
        if currToken s = TOKEN_SEMICOLON then Outcome.ok Expr s else Outcome.fatal) =
        Outcome.ok e s' → s'.remaining < s.remaining := by
      intro s e s' h
      cases hr : parseExpression n s with
      | ok e1 s2 =>
        rw [hr] at h
        simp only [Outcome.ok_bind] at h
        split at h
        · cases h; exact ihe _ _ _ hr
        · cases h
      | _ => rw [hr] at h; simp [Outcome.bind] at h
    refine ⟨?_, ?_⟩
    · intro s e s' h
      simp only [parseStatement] at h
      split at h
      · exact hexpr _ _ _ h
      · exact hexpr _ _ _ h
      · exact hexpr _ _ _ h
      · rename_i hc
        have h1 := remaining_nextToken_lt s (by rw [hc]; simp)
        split at h
        · cases h
        · have h2 := remaining_nextToken_le (nextToken s)
          cases hr : parseExpression n (nextToken (nextToken s)) with
          | ok e1 s2 =>
            rw [hr] at h
            simp only [Outcome.ok_bind] at h
            have h3 := ihe _ _ _ hr
            split at h
            · cases h
            · have h4 := remaining_nextToken_le s2
              cases hr2 : parseStatement n (nextToken s2) with
              | ok e2 s3 =>
                rw [hr2] at h
                simp only [Outcome.ok_bind] at h
                have h5 := ih1 _ _ _ hr2
                have h6 := remaining_nextToken_le s3
                split at h
                · have h7 := remaining_nextToken_le (nextToken s3)
                  cases hr3 : parseStatement n (nextToken (nextToken s3)) with
                  | ok e3 s4 =>
                    rw [hr3] at h
                    simp only [Outcome.ok_bind, Outcome.ok.injEq] at h
                    have h8 := ih1 _ _ _ hr3
                    rw [← h.2]
                    simp only [remaining_push_back]
                    omega
                  | _ => rw [hr3] at h; simp [Outcome.bind] at h
                · obtain ⟨s4, hs4, hrem, _⟩ := unreadToken_nextToken s3
                  rw [hs4] at h
                  simp only [Outcome.ok_bind, Outcome.ok.injEq] at h
                  rw [← h.2]
                  simp only [remaining_push_back]
                  omega
              | _ => rw [hr2] at h; simp [Outcome.bind] at h
          | _ => rw [hr] at h; simp [Outcome.bind] at h
      · rename_i hc
        have h1 := remaining_nextToken_lt s (by rw [hc]; simp)
        cases hr : parseBlock n [] s with
        | ok es s2 =>
          rw [hr] at h
          simp only [Outcome.ok_bind, Outcome.ok.injEq] at h
          have h2 := ih2 _ _ _ _ hr
          rw [← h.2]
          simp only [remaining_push_back]
          omega
        | _ => rw [hr] at h; simp [Outcome.bind] at h
      · cases h
    · intro a s es s' h
      simp only [parseBlock] at h
      split at h
      · cases h; exact le_refl _
      · cases hr : parseStatement n (nextToken s) with
        | ok e1 s2 =>
          rw [hr] at h
          simp only [Outcome.ok_bind] at h
          have h1 := ih1 _ _ _ hr
          have h2 := ih2 _ _ _ _ h
          have h3 := remaining_nextToken_le s2
          omega
        | _ => rw [hr] at h; simp [Outcome.bind] at h

theorem parseParams_progress (fuel : Nat) :
    ∀ a s ps s', parseParams fuel a s = Outcome.ok ps s' → s'.remaining ≤ s.remaining := by
  induction fuel with
  | zero => intros; simp_all [parseParams]
  | succ n ih =>
    intro a s ps s' h
    simp only [parseParams] at h
    split at h
    · have h1 := remaining_nextToken_le s
      split at h
      · have h2 := ih _ _ _ _ h
        have h3 := remaining_nextToken_le (nextToken s)
        omega
      · cases h; exact h1
      · cases h
    · cases h

theorem parseFunctionPrototype_progress {fuel : Nat} {s s' : State} {p : PrototypeAST}
    (h : parseFunctionPrototype fuel s = Outcome.ok p s') : s'.remaining ≤ s.remaining := by
  simp only [parseFunctionPrototype] at h
  split at h
  · have h1 := remaining_nextToken_le s
    have h2 := remaining_nextToken_le (nextToken s)
    split at h
    · cases h
    · split at h
      · cases hr : parseParams fuel [] (nextToken (nextToken s)) with
        | ok ps s2 =>
          rw [hr] at h
          simp only [Outcome.ok_bind, Outcome.ok.injEq] at h
          have h3 := parseParams_progress _ _ _ _ _ hr
          have h4 := remaining_nextToken_le s2
          rw [← h.2]
          simp only [remaining_push_back]
          omega
        | _ => rw [hr] at h; simp [Outcome.bind] at h
      · simp only [Outcome.ok_bind, Outcome.ok.injEq] at h
        have h4 := remaining_nextToken_le (nextToken (nextToken s))
        rw [← h.2]
        simp only [remaining_push_back]
        omega
  · cases h

theorem parsePipeline_progress {fuel : Nat} {s s' : State} {e : ExprAST}
    (h : parsePipeline fuel s = Outcome.ok (some e) s') : s'.remaining < s.remaining := by
  have h0 := remaining_nextToken_le s
  have hstmt : ∀ s1 : State, ((parseStatement fuel s1).bind fun Expr s =>
      Outcome.ok (some Expr) s) = Outcome.ok (some e) s' → s'.remaining < s1.remaining := by
    intro s1 h
    cases hr : parseStatement fuel s1 with
    | ok e1 s2 =>
      rw [hr] at h
      simp only [Outcome.ok_bind, Outcome.ok.injEq] at h
      rw [← h.2]
      exact (stmt_progress fuel).1 _ _ _ hr
    | _ => rw [hr] at h; simp [Outcome.bind] at h
  simp only [parsePipeline] at h
  split at h
  · cases h
  · cases h
  · exact lt_of_lt_of_le (hstmt _ h) h0
  · exact lt_of_lt_of_le (hstmt _ h) h0
  · exact lt_of_lt_of_le (hstmt _ h) h0
  · exact lt_of_lt_of_le (hstmt _ h) h0
  · exact lt_of_lt_of_le (hstmt _ h) h0
  · rename_i hc
    simp only [parseExtern, hc, ne_eq, not_true_eq_false, if_false] at h
    have h1 := remaining_nextToken_lt (nextToken s) (by rw [hc]; simp)
    cases hr : parseFunctionPrototype fuel (nextToken (nextToken s)) with
    | ok p s2 =>
      rw [hr] at h
      simp only [Outcome.ok_bind] at h
      have h2 := parseFunctionPrototype_progress hr
      split at h
      · simp only [Outcome.ok_bind, Outcome.ok.injEq] at h
        rw [← h.2]
        omega
      · simp [Outcome.bind] at h
    | _ => rw [hr] at h; simp [Outcome.bind] at h
  · rename_i hc
    simp only [parseFunction, hc, ne_eq, not_true_eq_false, if_false] at h
    have h1 := remaining_nextToken_lt (nextToken s) (by rw [hc]; simp)
    cases hr : parseFunctionPrototype fuel (nextToken (nextToken s)) with
    | ok p s2 =>
      rw [hr] at h
      simp only [Outcome.ok_bind] at h
      have h2 := parseFunctionPrototype_progress hr
      cases hr2 : parseStatement fuel s2 with
      | ok b s3 =>
        rw [hr2] at h
        simp only [Outcome.ok_bind, Outcome.ok.injEq] at h
        have h3 := (stmt_progress fuel).1 _ _ _ hr2
        rw [← h.2]
        simp only [remaining_push_back]
        omega
      | _ => rw [hr2] at h; simp [Outcome.bind] at h
    | _ => rw [hr] at h; simp [Outcome.bind] at h
  · cases h



/-! ## Every parse function halts -/

theorem Halts.const {α : Type} {o : Outcome α} (h : o ≠ Outcome.outOfFuel) :
    Halts (fun _ => o) :=
  ⟨0, o, h, fun _ _ => rfl⟩

theorem Halts.shift {α : Type} {r : Nat → Outcome α} (h : Halts (fun fuel => r (fuel + 1))) :
    Halts r := by
  obtain ⟨N, o, ho, hN⟩ := h
  refine ⟨N + 1, o, ho, fun fuel hf => ?_⟩
  obtain ⟨k, rfl⟩ : ∃ k, fuel = k + 1 := ⟨fuel - 1, by omega⟩
  exact hN k (by omega)

theorem Halts.bind {α β : Type} {r : Nat → Outcome α} {f : Nat → α → State → Outcome β}
    (hr : Halts r)
    (hf : ∀ a s' N, r N = Outcome.ok a s' → Halts (fun fuel => f fuel a s')) :
    Halts (fun fuel => (r fuel).bind (f fuel)) := by
  obtain ⟨N, o, ho, hN⟩ := hr
  cases o with
  | ok a s' =>
    obtain ⟨M, o', ho', hM⟩ := hf a s' N (hN N (le_refl N))
    refine ⟨max N M, o', ho', fun fuel hfuel => ?_⟩
    have h1 := hN fuel (le_trans (le_max_left N M) hfuel)
    have h2 := hM fuel (le_trans (le_max_right N M) hfuel)
    simp only [h1, Outcome.ok_bind, h2]
  | fatal =>
    refine ⟨N, Outcome.fatal, by simp, fun fuel hfuel => ?_⟩
    simp only [hN fuel hfuel, Outcome.bind]
  | contract =>
    refine ⟨N, Outcome.contract, by simp, fun fuel hfuel => ?_⟩
    simp only [hN fuel hfuel, Outcome.bind]
  | outOfFuel => exact absurd rfl ho

theorem Halts.ite {α : Type} {c : Prop} [Decidable c] {a b : Nat → Outcome α}
    (ha : c → Halts a) (hb : ¬c → Halts b) :
    Halts (fun fuel => if c then a fuel else b fuel) := by
  by_cases h : c
  · simpa [h] using ha h
  · simpa [h] using hb h

theorem expr_halts (n : Nat) : ∀ s : State, s.remaining ≤ n →
    Halts (fun fuel => parsePrimary fuel s) ∧
    (∀ a, Halts (fun fuel => parseArgs fuel a s)) ∧
    (∀ P, Halts (fun fuel => parseBinaryExpression fuel P s)) ∧
    (∀ P R, Halts (fun fuel => binaryLoop fuel P R s)) ∧
    Halts (fun fuel => parseExpression fuel s) := by
  induction n using Nat.strong_induction_on with
  | _ n ih =>
    intro s hs
    have hprim : Halts (fun fuel => parsePrimary fuel s) := by
      apply Halts.shift
      simp only [parsePrimary]
      split
      · rename_i hc
        have h1 := remaining_nextToken_lt s (by rw [hc]; simp)
        refine Halts.ite (fun _ => Halts.const (by simp)) (fun hl => ?_)
        simp only [ne_eq, not_not] at hl
        have h2 := remaining_nextToken_lt (nextToken s) (by rw [hl]; simp)
        refine Halts.bind (Halts.ite (fun _ => ?_) (fun _ => Halts.const (by simp)))
          (fun _ _ _ _ => Halts.const (by simp))
        exact (ih (nextToken (nextToken s)).remaining (by omega) _ (le_refl _)).2.1 _
      · exact Halts.const (by simp)
      · rename_i hc
        have h1 := remaining_nextToken_lt s (by rw [hc]; simp)
        refine Halts.bind (ih (nextToken s).remaining (by omega) _ (le_refl _)).2.2.2.2
          (fun _ _ _ _ => Halts.ite (fun _ => Halts.const (by simp))
            (fun _ => Halts.const (by simp)))
      · exact Halts.const (by simp)
    have hloop : ∀ P R, Halts (fun fuel => binaryLoop fuel P R s) := by
      intro P R
      apply Halts.shift
      simp only [binaryLoop]
      split
      · rename_i hc
        have h1 := remaining_nextToken_lt s (by rw [hc]; simp)
        refine Halts.ite (fun _ => Halts.const (by simp)) (fun _ => ?_)
        split
        · exact Halts.const (by simp)
        · refine Halts.ite (fun _ => Halts.const (by simp)) (fun _ => ?_)
          refine Halts.bind ((ih (nextToken s).remaining (by omega) _ (le_refl _)).2.2.1 _)
            (fun e s2 N hN => ?_)
          have h2 := (expr_progress N).2.2.1 _ _ _ _ hN
          exact (ih s2.remaining (by omega) (s2.push_back _) (by simp)).2.2.2.1 _ _
      · exact Halts.const (by simp)
    have hbin : ∀ P, Halts (fun fuel => parseBinaryExpression fuel P s) := by
      intro P
      apply Halts.shift
      simp only [parseBinaryExpression]
      refine Halts.bind hprim (fun e s2 N hN => ?_)
      have h2 := (expr_progress N).1 _ _ _ hN
      exact (ih s2.remaining (by omega) s2 (le_refl _)).2.2.2.1 _ _
    have hexpr : Halts (fun fuel => parseExpression fuel s) := by
      apply Halts.shift
      simp only [parseExpression]
      exact hbin 0
    refine ⟨hprim, fun a => ?_, hbin, hloop, hexpr⟩
    apply Halts.shift
    simp only [parseArgs]
    refine Halts.bind hexpr (fun e s2 N hN => ?_)
    have h2 := (expr_progress N).2.2.2.2 _ _ _ hN
    split
    · have h3 := remaining_nextToken_le s2
      exact (ih (nextToken s2).remaining (by omega) _ (le_refl _)).2.1 _
    · exact Halts.const (by simp)
    · exact Halts.const (by simp)

theorem parseExpression_halts (s : State) : Halts (fun fuel => parseExpression fuel s) :=
  (expr_halts s.remaining s (le_refl _)).2.2.2.2



theorem stmt_halts (n : Nat) : ∀ s : State,
    (s.remaining ≤ n → Halts (fun fuel => parseStatement fuel s)) ∧
    ((nextToken s).remaining ≤ n → ∀ a, Halts (fun fuel => parseBlock fuel a s)) := by
  induction n using Nat.strong_induction_on with
  | _ n ih =>
    have hexpr : ∀ s : State, Halts (fun fuel => (parseExpression fuel s).bind fun Expr s =>
        if currToken s = TOKEN_SEMICOLON then Outcome.ok Expr s else Outcome.fatal) :=
      fun s => Halts.bind (parseExpression_halts s)
        (fun _ _ _ _ => Halts.ite (fun _ => Halts.const (by simp))
          (fun _ => Halts.const (by simp)))
    have hstmt : ∀ s : State, s.remaining ≤ n → Halts (fun fuel => parseStatement fuel s) := by
      intro s hs
      apply Halts.shift
      simp only [parseStatement]
      split
      · exact hexpr s
      · exact hexpr s
      · exact hexpr s
      · rename_i hc
        have h1 := remaining_nextToken_lt s (by rw [hc]; simp)
        refine Halts.ite (fun _ => Halts.const (by simp)) (fun _ => ?_)
        have h2 := remaining_nextToken_le (nextToken s)
        refine Halts.bind (parseExpression_halts _) (fun e1 s2 N hN => ?_)
        have h3 := (expr_progress N).2.2.2.2 _ _ _ hN
        refine Halts.ite (fun _ => Halts.const (by simp)) (fun _ => ?_)
        have h4 := remaining_nextToken_le s2
        refine Halts.bind ((ih (nextToken s2).remaining (by omega) _).1 (le_refl _))
          (fun e2 s3 M hM => ?_)
        have h5 := (stmt_progress M).1 _ _ _ hM
        have h6 := remaining_nextToken_le s3
        have h7 := remaining_nextToken_le (nextToken s3)
        refine Halts.bind (Halts.ite (fun _ => ?_) (fun _ => ?_))
          (fun _ _ _ _ => Halts.const (by simp))
        · exact Halts.bind
            ((ih (nextToken (nextToken s3)).remaining (by omega) _).1 (le_refl _))
            (fun _ _ _ _ => Halts.const (by simp))
        · obtain ⟨s4, hs4, _⟩ := unreadToken_nextToken s3
          simp only [hs4]
          exact Halts.const (by simp)
      · rename_i hc
        have h1 := remaining_nextToken_lt s (by rw [hc]; simp)
        exact Halts.bind ((ih (nextToken s).remaining (by omega) s).2 (le_refl _) _)
          (fun _ _ _ _ => Halts.const (by simp))
      · exact Halts.const (by simp)
    intro s
    refine ⟨hstmt s, fun hs a => ?_⟩
    apply Halts.shift
    simp only [parseBlock]
    refine Halts.ite (fun _ => Halts.const (by simp)) (fun _ => ?_)
    refine Halts.bind (hstmt _ hs) (fun e s2 N hN => ?_)
    have h1 := (stmt_progress N).1 _ _ _ hN
    have h2 := remaining_nextToken_le s2
    exact (ih (nextToken s2).remaining (by omega) s2).2 (le_refl _) _

theorem parseStatement_halts (s : State) : Halts (fun fuel => parseStatement fuel s) :=
  (stmt_halts s.remaining s).1 (le_refl _)

theorem parseParams_halts (n : Nat) : ∀ (s : State) (a : List String), s.remaining ≤ n →
    Halts (fun fuel => parseParams fuel a s) := by
  induction n using Nat.strong_induction_on with
  | _ n ih =>
    intro s a hs
    apply Halts.shift
    simp only [parseParams]
    split
    · rename_i hc
      have h1 := remaining_nextToken_lt s (by rw [hc]; simp)
      split
      · have h2 := remaining_nextToken_le (nextToken s)
        exact ih (nextToken (nextToken s)).remaining (by omega) _ _ (le_refl _)
      · exact Halts.const (by simp)
      · exact Halts.const (by simp)
    · exact Halts.const (by simp)

theorem parseFunctionPrototype_halts (s : State) :
    Halts (fun fuel => parseFunctionPrototype fuel s) := by
  simp only [parseFunctionPrototype]
  split
  · refine Halts.ite (fun _ => Halts.const (by simp)) (fun _ => ?_)
    exact Halts.bind (Halts.ite (fun _ => parseParams_halts _ _ _ (le_refl _))
      (fun _ => Halts.const (by simp))) (fun _ _ _ _ => Halts.const (by simp))
  · exact Halts.const (by simp)

theorem parsePipeline_halts (s : State) : Halts (fun fuel => parsePipeline fuel s) := by
  have hstmt : ∀ s : State, Halts (fun fuel => (parseStatement fuel s).bind fun Expr s =>
      Outcome.ok (some Expr) s) :=
    fun s => Halts.bind (parseStatement_halts s) (fun _ _ _ _ => Halts.const (by simp))
  simp only [parsePipeline]
  split
  · exact Halts.const (by simp)
  · exact Halts.const (by simp)
  · exact hstmt _
  · exact hstmt _
  · exact hstmt _
  · exact hstmt _
  · exact hstmt _
  · refine Halts.bind ?_ (fun _ _ _ _ => Halts.const (by simp))
    simp only [parseExtern]
    refine Halts.ite (fun _ => Halts.const (by simp)) (fun _ => ?_)
    exact Halts.bind (parseFunctionPrototype_halts _)
      (fun _ _ _ _ => Halts.ite (fun _ => Halts.const (by simp))
        (fun _ => Halts.const (by simp)))
  · refine Halts.bind ?_ (fun _ _ _ _ => Halts.const (by simp))
    simp only [parseFunction]
    refine Halts.ite (fun _ => Halts.const (by simp)) (fun _ => ?_)
    exact Halts.bind (parseFunctionPrototype_halts _)
      (fun _ _ _ _ => Halts.bind (parseStatement_halts _)
        (fun _ _ _ _ => Halts.const (by simp)))
  · exact Halts.const (by simp)

theorem parseMainLoop_halts (n : Nat) : ∀ (s : State) (a : List ExprAST), s.remaining ≤ n →
    Halts (fun fuel => parseMainLoop fuel a s) := by
  induction n using Nat.strong_induction_on with
  | _ n ih =>
    intro s a hs
    apply Halts.shift
    simp only [parseMainLoop]
    refine Halts.bind (parsePipeline_halts s) (fun r s2 N hN => ?_)
    cases r with
    | none => exact Halts.const (by simp)
    | some e =>
      have h1 := parsePipeline_progress hN
      exact ih s2.remaining (by omega) _ _ (le_refl _)

/-! ## The pushback slot is never written twice -/

theorem Outcome.bind_ne_contract {α β : Type} {r : Outcome α} {f : α → State → Outcome β}
    (hr : r ≠ Outcome.contract) (hf : ∀ a s, f a s ≠ Outcome.contract) :
    r.bind f ≠ Outcome.contract := by
  cases r with
  | ok a s => exact hf a s
  | fatal => simp [Outcome.bind]
  | contract => exact absurd rfl hr
  | outOfFuel => simp [Outcome.bind]

theorem expr_no_contract (fuel : Nat) :
    (∀ s, parsePrimary fuel s ≠ Outcome.contract) ∧
    (∀ a s, parseArgs fuel a s ≠ Outcome.contract) ∧
    (∀ P s, parseBinaryExpression fuel P s ≠ Outcome.contract) ∧
    (∀ P R s, binaryLoop fuel P R s ≠ Outcome.contract) ∧
    (∀ s, parseExpression fuel s ≠ Outcome.contract) := by
  induction fuel with
  | zero =>
    refine ⟨?_, ?_, ?_, ?_, ?_⟩ <;> intros <;> simp [parsePrimary, parseArgs,
      parseBinaryExpression, binaryLoop, parseExpression]
  | succ n ih =>
    obtain ⟨ih1, ih2, ih3, ih4, ih5⟩ := ih
    refine ⟨?_, ?_, ?_, ?_, ?_⟩
    · intro s
      simp only [parsePrimary]
      split
      · split
        · simp
        · refine Outcome.bind_ne_contract ?_ (fun _ _ => by simp)
          split
          · exact ih2 _ _
          · simp
      · simp
      · exact Outcome.bind_ne_contract (ih5 _) (fun _ _ => by split <;> simp)
      · simp
    · intro a s
      simp only [parseArgs]
      refine Outcome.bind_ne_contract (ih5 _) (fun _ _ => ?_)
      split
      · exact ih2 _ _
      · simp
      · simp
    · intro P s
      simp only [parseBinaryExpression]
      exact Outcome.bind_ne_contract (ih1 _) (fun _ _ => ih4 _ _ _)
    · intro P R s
      simp only [binaryLoop]
      split
      · split
        · simp
        · split
          · simp
          · split
            · simp
            · exact Outcome.bind_ne_contract (ih3 _ _) (fun _ _ => ih4 _ _ _)
      · simp
    · intro s
      simp only [parseExpression]
      exact ih3 _ _

theorem stmt_no_contract (fuel : Nat) :
    (∀ s, parseStatement fuel s ≠ Outcome.contract) ∧
    (∀ a s, parseBlock fuel a s ≠ Outcome.contract) := by
  induction fuel with
  | zero => refine ⟨?_, ?_⟩ <;> intros <;> simp [parseStatement, parseBlock]
  | succ n ih =>
    obtain ⟨ih1, ih2⟩ := ih
    have ihe := (expr_no_contract n).2.2.2.2
    have hexpr : ∀ s : State, ((parseExpression n s).bind fun Expr s =>
        if currToken s = TOKEN_SEMICOLON then Outcome.ok Expr s else Outcome.fatal) ≠
        Outcome.contract :=
      fun s => Outcome.bind_ne_contract (ihe s) (fun _ _ => by split <;> simp)
    refine ⟨?_, ?_⟩
    · intro s
      simp only [parseStatement]
      split
      · exact hexpr s
      · exact hexpr s
      · exact hexpr s
      · split
        · simp
        · refine Outcome.bind_ne_contract (ihe _) (fun _ s2 => ?_)
          split
          · simp
          · refine Outcome.bind_ne_contract (ih1 _) (fun _ s3 => ?_)
            refine Outcome.bind_ne_contract ?_ (fun _ _ => by simp)
            split
            · exact Outcome.bind_ne_contract (ih1 _) (fun _ _ => by simp)
            · obtain ⟨s4, hs4, _⟩ := unreadToken_nextToken s3
              simp [hs4]
      · exact Outcome.bind_ne_contract (ih2 _ _) (fun _ _ => by simp)
      · simp
    · intro a s
      simp only [parseBlock]
      split
      · simp
      · exact Outcome.bind_ne_contract (ih1 _) (fun _ _ => ih2 _ _)

theorem parseParams_no_contract (fuel : Nat) :
    ∀ a s, parseParams fuel a s ≠ Outcome.contract := by
  induction fuel with
  | zero => intros; simp [parseParams]
  | succ n ih =>
    intro a s
    simp only [parseParams]
    split
    · split
      · exact ih _ _
      · simp
      · simp
    · simp

theorem parseFunctionPrototype_no_contract (fuel : Nat) (s : State) :
    parseFunctionPrototype fuel s ≠ Outcome.contract := by
  simp only [parseFunctionPrototype]
  split
  · split
    · simp
    · refine Outcome.bind_ne_contract ?_ (fun _ _ => by simp)
      split
      · exact parseParams_no_contract _ _ _
      · simp
  · simp

theorem parsePipeline_no_contract (fuel : Nat) (s : State) :
    parsePipeline fuel s ≠ Outcome.contract := by
  have hstmt : ∀ s : State, ((parseStatement fuel s).bind fun Expr s =>
      Outcome.ok (some Expr) s) ≠ Outcome.contract :=
    fun s => Outcome.bind_ne_contract ((stmt_no_contract fuel).1 s) (fun _ _ => by simp)
  simp only [parsePipeline]
  split
  · simp
  · simp
  · exact hstmt _
  · exact hstmt _
  · exact hstmt _
  · exact hstmt _
  · exact hstmt _
  · refine Outcome.bind_ne_contract ?_ (fun _ _ => by simp)
    simp only [parseExtern]
    split
    · simp
    · exact Outcome.bind_ne_contract (parseFunctionPrototype_no_contract _ _)
        (fun _ _ => by split <;> simp)
  · refine Outcome.bind_ne_contract ?_ (fun _ _ => by simp)
    simp only [parseFunction]
    split
    · simp
    · exact Outcome.bind_ne_contract (parseFunctionPrototype_no_contract _ _)
        (fun _ _ => Outcome.bind_ne_contract ((stmt_no_contract fuel).1 _)
          (fun _ _ => by simp))
  · simp



theorem parsePipeline_ne_none {fuel : Nat} {s s' : State}
    (h1 : currToken (nextToken s) ≠ TOKEN_EOF) (h2 : currToken (nextToken s) ≠ TOKEN_SEMICOLON) :
    parsePipeline fuel s ≠ Outcome.ok none s' := by
  have hb : ∀ {α : Type} (r : Outcome α) (g : α → ExprAST),
      (r.bind fun a s => Outcome.ok (some (g a)) s) ≠ Outcome.ok none s' := by
    intro α r g
    cases r <;> simp [Outcome.bind]
  simp only [parsePipeline]
  split
  · rename_i hc; exact absurd hc h1
  · rename_i hc; exact absurd hc h2
  · exact hb _ id
  · exact hb _ id
  · exact hb _ id
  · exact hb _ id
  · exact hb _ id
  · exact hb _ PrototypeExpr
  · exact hb _ id
  · simp

/-! ## Dispatch on the first token -/

theorem parseStatement_expression_case (fuel : Nat) (s : State)
    (h : startsExpression (currToken s) = true) :
    parseStatement (fuel + 1) s =
      (parseExpression fuel s).bind fun Expr s =>
        if currToken s = TOKEN_SEMICOLON then Outcome.ok Expr s else Outcome.fatal := by
  simp only [parseStatement]
  split <;> simp_all [startsExpression]

theorem parseStatement_other_token (fuel : Nat) (s : State)
    (h : startsStatement (currToken s) = false) :
    parseStatement (fuel + 1) s = Outcome.fatal := by
  simp only [parseStatement]
  split <;> simp_all [startsStatement, startsExpression]

theorem parsePipeline_statement_case (fuel : Nat) (s : State)
    (h : startsStatement (currToken (nextToken s)) = true) :
    parsePipeline fuel s =
      (parseStatement fuel (nextToken s)).bind fun Expr s => Outcome.ok (some Expr) s := by
  simp only [parsePipeline]
  split <;> simp_all [startsStatement, startsExpression]

theorem parsePipeline_other_token (fuel : Nat) (s : State)
    (h : startsUnit (currToken (nextToken s)) = false) :
    parsePipeline fuel s = Outcome.fatal := by
  simp only [parsePipeline]
  split <;> simp_all [startsUnit, startsStatement, startsExpression]

theorem startsExpression_of_parse {fuel : Nat} {s s' : State} {e : ExprAST}
    (h : parseExpression fuel s = Outcome.ok e s') : startsExpression (currToken s) = true := by
  rcases parseExpression_head h with ⟨n, hn⟩ | ⟨v, hv⟩ | hl
  · rw [hn]; rfl
  · rw [hv]; rfl
  · rw [hl]; rfl

theorem startsStatement_of_expression {t : Token} (h : startsExpression t = true) :
    startsStatement t = true := by
  cases t <;> simp_all [startsStatement, startsExpression]

theorem startsStatement_of_parse {fuel : Nat} {s s' : State} {e : ExprAST}
    (h : parseStatement fuel s = Outcome.ok e s') : startsStatement (currToken s) = true := by
  cases fuel with
  | zero => simp [parseStatement] at h
  | succ k =>
    by_contra hc
    rw [parseStatement_other_token k s (by simpa using hc)] at h
    cases h

/-! ## Missing delimiters -/

theorem parseStatement_missing_semicolon {fuel : Nat} {s s' : State} {e : ExprAST}
    (h : parseExpression fuel s = Outcome.ok e s') (hc : currToken s' ≠ TOKEN_SEMICOLON)
    (k : Nat) : parseStatement (fuel + 1 + k) s = Outcome.fatal := by
  have hm := parseExpression_mono_ok (Nat.le_add_right fuel k) h
  rw [show fuel + 1 + k = (fuel + k) + 1 by omega,
    parseStatement_expression_case _ _ (startsExpression_of_parse h), hm]
  simp [hc]

theorem parsePrimary_missing_rparen {fuel : Nat} {s s' : State} {e : ExprAST}
    (hl : currToken s = TOKEN_LPAREN)
    (h : parseExpression fuel (nextToken s) = Outcome.ok e s') (hc : currToken s' ≠ TOKEN_RPAREN)
    (k : Nat) : parsePrimary (fuel + 1 + k) s = Outcome.fatal := by
  have hm := parseExpression_mono_ok (Nat.le_add_right fuel k) h
  rw [show fuel + 1 + k = (fuel + k) + 1 by omega]
  simp only [parsePrimary, hl, hm, Outcome.ok_bind, hc, if_false]

theorem parseStatement_if_missing_rparen {fuel : Nat} {s s' : State} {e : ExprAST}
    (hi : currToken s = TOKEN_IF) (hl : currToken (nextToken s) = TOKEN_LPAREN)
    (h : parseExpression fuel (nextToken (nextToken s)) = Outcome.ok e s')
    (hc : currToken s' ≠ TOKEN_RPAREN) (k : Nat) :
    parseStatement (fuel + 1 + k) s = Outcome.fatal := by
  have hm := parseExpression_mono_ok (Nat.le_add_right fuel k) h
  rw [show fuel + 1 + k = (fuel + k) + 1 by omega]
  simp only [parseStatement, hi, hl, ne_eq, not_true_eq_false, if_false, hm, Outcome.ok_bind, hc,
    not_false_eq_true, if_true]

/-! ## Malformed parameter lists -/

theorem parseParams_prefix (ps : List String) :
    ∀ (acc : List String) (rest : List Token) (st : List ExprAST) (fuel : Nat),
    parseParams (fuel + ps.length) acc (State.reading (paramsWithCommas ps ++ rest) st) =
      parseParams fuel (acc ++ ps) (State.reading rest st) := by
  induction ps with
  | nil => intro acc rest st fuel; simp [paramsWithCommas]
  | cons p ps ih =>
    intro acc rest st fuel
    have := ih (acc ++ [p]) rest st fuel
    rw [show fuel + (p :: ps).length = (fuel + ps.length) + 1 by simp; omega]
    simp only [paramsWithCommas, List.cons_append, reading_cons, parseParams, currToken_mk,
      nextToken_mk_none]
    rw [this]
    simp

theorem parseParams_not_identifier (fuel : Nat) (acc : List String) (s : State)
    (h : ∀ p, currToken s ≠ TOKEN_IDENTIFIER p) : parseParams (fuel + 1) acc s = Outcome.fatal := by
  rw [parseParams]
  split
  · rename_i p hp; exact absurd hp (h p)
  · rfl

theorem parseParams_bad_delimiter (fuel : Nat) (acc : List String) (s : State) {p : String}
    (hp : currToken s = TOKEN_IDENTIFIER p) (h1 : currToken (nextToken s) ≠ TOKEN_COMMA)
    (h2 : currToken (nextToken s) ≠ TOKEN_RPAREN) :
    parseParams (fuel + 1) acc s = Outcome.fatal := by
  rw [parseParams]
  simp only [hp]

/-! ## What the parse functions register -/

@[simp] theorem storage_nextToken (s : State) : (nextToken s).ExprStorage = s.ExprStorage := by
  cases s with
  | mk c b i x => cases b <;> cases i <;> rfl

@[simp] theorem storage_push_back (s : State) (e : ExprAST) :
    (s.push_back e).ExprStorage = s.ExprStorage ++ [e] := rfl

theorem storage_unreadToken {s s' : State} (h : unreadToken s = some s') :
    s'.ExprStorage = s.ExprStorage := by
  cases s with
  | mk c b i x =>
    cases b with
    | some t => cases h
    | none => cases h; rfl

theorem nodesList_append (a b : List ExprAST) :
    nodesList (a ++ b) = nodesList a ++ nodesList b := by
  induction a with
  | nil => simp [nodesList]
  | cons e es ih => simp [nodesList, ih]

theorem nodesList_single (e : ExprAST) : nodesList [e] = e.nodes := by
  simp [nodesList]

theorem expr_storage (fuel : Nat) :
    (∀ s e s', parsePrimary fuel s = Outcome.ok e s' →
      s'.ExprStorage = s.ExprStorage ++ e.nodes) ∧
    (∀ a s es s', parseArgs fuel a s = Outcome.ok es s' →
      ∃ new, es = a ++ new ∧ s'.ExprStorage = s.ExprStorage ++ nodesList new) ∧
    (∀ P s e s', parseBinaryExpression fuel P s = Outcome.ok e s' →
      s'.ExprStorage = s.ExprStorage ++ e.nodes) ∧
    (∀ P R s e s', binaryLoop fuel P R s = Outcome.ok e s' →
      ∃ extra, s'.ExprStorage = s.ExprStorage ++ extra ∧ e.nodes = R.nodes ++ extra) ∧
    (∀ s e s', parseExpression fuel s = Outcome.ok e s' →
      s'.ExprStorage = s.ExprStorage ++ e.nodes) := by
  induction fuel with
  | zero =>
    refine ⟨?_, ?_, ?_, ?_, ?_⟩ <;> intros <;> simp_all [parsePrimary, parseArgs,
      parseBinaryExpression, binaryLoop, parseExpression]
  | succ n ih =>
    obtain ⟨ih1, ih2, ih3, ih4, ih5⟩ := ih
    refine ⟨?_, ?_, ?_, ?_, ?_⟩
    · intro s e s' h
      simp only [parsePrimary] at h
      split at h
      · split at h
        · cases h
          simp [ExprAST.nodes]
        · split at h
          · cases hr : parseArgs n [] (nextToken (nextToken s)) with
            | ok a s2 =>
              rw [hr] at h
              simp only [Outcome.ok_bind, Outcome.ok.injEq] at h
              obtain ⟨new, hnew, hst⟩ := ih2 _ _ _ _ hr
              rw [← h.2, ← h.1]
              simp only [List.nil_append] at hnew
              subst hnew
              simp [ExprAST.nodes, hst]
            | _ => rw [hr] at h; simp [Outcome.bind] at h
          · simp only [Outcome.ok_bind, Outcome.ok.injEq] at h
            rw [← h.2, ← h.1]
            simp [ExprAST.nodes, nodesList]
      · cases h
        simp [ExprAST.nodes]
      · cases hr : parseExpression n (nextToken s) with
        | ok a s2 =>
          rw [hr] at h
          simp only [Outcome.ok_bind] at h
          split at h
          · cases h
            simpa using ih5 _ _ _ hr
          · cases h
        | _ => rw [hr] at h; simp [Outcome.bind] at h
      · cases h
    · intro a s es s' h
      simp only [parseArgs] at h
      cases hr : parseExpression n s with
      | ok e s2 =>
        rw [hr] at h
        simp only [Outcome.ok_bind] at h
        have h3 := ih5 _ _ _ hr
        split at h
        · obtain ⟨new, hnew, hst⟩ := ih2 _ _ _ _ h
          refine ⟨e :: new, by simp [hnew], ?_⟩
          simp [hst, h3, nodesList]
        · cases h
          exact ⟨[e], rfl, by simp [h3, nodesList]⟩
        · cases h
      | _ => rw [hr] at h; simp [Outcome.bind] at h
    · intro P s e s' h
      simp only [parseBinaryExpression] at h
      cases hr : parsePrimary n s with
      | ok e1 s2 =>
        rw [hr] at h
        simp only [Outcome.ok_bind] at h
        have h3 := ih1 _ _ _ hr
        obtain ⟨extra, h4, h5⟩ := ih4 _ _ _ _ _ h
        rw [h4, h3, h5, List.append_assoc]
      | _ => rw [hr] at h; simp [Outcome.bind] at h
    · intro P R s e s' h
      simp only [binaryLoop] at h
      split at h
      · split at h
        · cases h; exact ⟨[], by simp, by simp⟩
        · split at h
          · cases h
          · split at h
            · cases h; exact ⟨[], by simp, by simp⟩
            · cases hr : parseBinaryExpression n _ (nextToken s) with
              | ok e1 s2 =>
                rw [hr] at h
                simp only [Outcome.ok_bind] at h
                have h3 := ih3 _ _ _ _ hr
                obtain ⟨extra, h4, h5⟩ := ih4 _ _ _ _ _ h
                rename_i Op _ _ _ _ _ _
                refine ⟨e1.nodes ++ ([BinaryExpr Op R e1] ++ extra), ?_, ?_⟩
                · rw [h4]; simp [h3]
                · rw [h5]; simp [ExprAST.nodes]
              | _ => rw [hr] at h; simp [Outcome.bind] at h
      · cases h; exact ⟨[], by simp, by simp⟩
    · intro s e s' h
      simp only [parseExpression] at h
      exact ih3 _ _ _ _ h

theorem stmt_storage (fuel : Nat) :
    (∀ s e s', parseStatement fuel s = Outcome.ok e s' →
      s'.ExprStorage = s.ExprStorage ++ e.nodes) ∧
    (∀ a s es s', parseBlock fuel a s = Outcome.ok es s' →
      ∃ new, es = a ++ new ∧ s'.ExprStorage = s.ExprStorage ++ nodesList new) := by
  induction fuel with
  | zero => refine ⟨?_, ?_⟩ <;> intros <;> simp_all [parseStatement, parseBlock]
  | succ n ih =>
    obtain ⟨ih1, ih2⟩ := ih
    have ihe := (expr_storage n).2.2.2.2
    have hexpr : ∀ s e s', ((parseExpression n s).bind fun Expr s =>
        if currToken s = TOKEN_SEMICOLON then Outcome.ok Expr s else Outcome.fatal) =
        Outcome.ok e s' → s'.ExprStorage = s.ExprStorage ++ e.nodes := by
      intro s e s' h
      cases hr : parseExpression n s with
      | ok e1 s2 =>
        rw [hr] at h
        simp only [Outcome.ok_bind] at h
        split at h
        · cases h; exact ihe _ _ _ hr
        · cases h
      | _ => rw [hr] at h; simp [Outcome.bind] at h
    refine ⟨?_, ?_⟩
    · intro s e s' h
      simp only [parseStatement] at h
      split at h
      · exact hexpr _ _ _ h
      · exact hexpr _ _ _ h
      · exact hexpr _ _ _ h
      · split at h
        · cases h
        · cases hr : parseExpression n (nextToken (nextToken s)) with
          | ok e1 s2 =>
            rw [hr] at h
            simp only [Outcome.ok_bind] at h
            have h3 := ihe _ _ _ hr
            split at h
            · cases h
            · cases hr2 : parseStatement n (nextToken s2) with
              | ok e2 s3 =>
                rw [hr2] at h
                simp only [Outcome.ok_bind] at h
                have h5 := ih1 _ _ _ hr2
                split at h
                · cases hr3 : parseStatement n (nextToken (nextToken s3)) with
                  | ok e3 s4 =>
                    rw [hr3] at h
                    simp only [Outcome.ok_bind, Outcome.ok.injEq] at h
                    have h8 := ih1 _ _ _ hr3
                    rw [← h.2, ← h.1]
                    simp [ExprAST.nodes, nodesOption, h8, h5, h3]
                  | _ => rw [hr3] at h; simp [Outcome.bind] at h
                · obtain ⟨s4, hs4, _⟩ := unreadToken_nextToken s3
                  have h9 := storage_unreadToken hs4
                  rw [hs4] at h
                  simp only [Outcome.ok_bind, Outcome.ok.injEq] at h
                  rw [← h.2, ← h.1]
                  simp [ExprAST.nodes, nodesOption, h9, h5, h3]
              | _ => rw [hr2] at h; simp [Outcome.bind] at h
          | _ => rw [hr] at h; simp [Outcome.bind] at h
      · cases hr : parseBlock n [] s with
        | ok es s2 =>
          rw [hr] at h
          simp only [Outcome.ok_bind, Outcome.ok.injEq] at h
          obtain ⟨new, hnew, hst⟩ := ih2 _ _ _ _ hr
          simp only [List.nil_append] at hnew
          subst hnew
          rw [← h.2, ← h.1]
          simp [ExprAST.nodes, hst]
        | _ => rw [hr] at h; simp [Outcome.bind] at h
      · cases h
    · intro a s es s' h
      simp only [parseBlock] at h
      split at h
      · cases h; exact ⟨[], by simp, by simp [nodesList]⟩
      · cases hr : parseStatement n (nextToken s) with
        | ok e1 s2 =>
          rw [hr] at h
          simp only [Outcome.ok_bind] at h
          have h1 := ih1 _ _ _ hr
          obtain ⟨new, hnew, hst⟩ := ih2 _ _ _ _ h
          refine ⟨e1 :: new, by simp [hnew], ?_⟩
          simp [hst, h1, nodesList]
        | _ => rw [hr] at h; simp [Outcome.bind] at h

theorem parseParams_storage (fuel : Nat) :
    ∀ a s ps s', parseParams fuel a s = Outcome.ok ps s' → s'.ExprStorage = s.ExprStorage := by
  induction fuel with
  | zero => intros; simp_all [parseParams]
  | succ n ih =>
    intro a s ps s' h
    simp only [parseParams] at h
    split at h
    · split at h
      · simpa using ih _ _ _ _ h
      · cases h; simp
      · cases h
    · cases h

theorem parseFunctionPrototype_storage {fuel : Nat} {s s' : State} {p : PrototypeAST}
    (h : parseFunctionPrototype fuel s = Outcome.ok p s') :
    s'.ExprStorage = s.ExprStorage ++ [PrototypeExpr p] := by
  simp only [parseFunctionPrototype] at h
  split at h
  · split at h
    · cases h
    · split at h
      · cases hr : parseParams fuel [] (nextToken (nextToken s)) with
        | ok ps s2 =>
          rw [hr] at h
          simp only [Outcome.ok_bind, Outcome.ok.injEq] at h
          have h3 := parseParams_storage _ _ _ _ _ hr
          rw [← h.2, ← h.1]
          simpa using h3
        | _ => rw [hr] at h; simp [Outcome.bind] at h
      · simp only [Outcome.ok_bind, Outcome.ok.injEq] at h
        rw [← h.2, ← h.1]
        simp
  · cases h

theorem parsePipeline_storage {fuel : Nat} {s s' : State} {r : Option ExprAST}
    (h : parsePipeline fuel s = Outcome.ok r s') :
    s'.ExprStorage = s.ExprStorage ++ nodesOption r := by
  have hstmt : ∀ s1 : State, ((parseStatement fuel s1).bind fun Expr s =>
      Outcome.ok (some Expr) s) = Outcome.ok r s' →
      s'.ExprStorage = s1.ExprStorage ++ nodesOption r := by
    intro s1 h
    cases hr : parseStatement fuel s1 with
    | ok e1 s2 =>
      rw [hr] at h
      simp only [Outcome.ok_bind, Outcome.ok.injEq] at h
      rw [← h.2, ← h.1]
      exact (stmt_storage fuel).1 _ _ _ hr
    | _ => rw [hr] at h; simp [Outcome.bind] at h
  simp only [parsePipeline] at h
  split at h
  · cases h; simp [nodesOption]
  · cases h; simp [nodesOption]
  · simpa using hstmt _ h
  · simpa using hstmt _ h
  · simpa using hstmt _ h
  · simpa using hstmt _ h
  · simpa using hstmt _ h
  · simp only [parseExtern] at h
    split at h
    · simp [Outcome.bind] at h
    · cases hr : parseFunctionPrototype fuel (nextToken (nextToken s)) with
      | ok p s2 =>
        rw [hr] at h
        simp only [Outcome.ok_bind] at h
        have h1 := parseFunctionPrototype_storage hr
        split at h
        · simp only [Outcome.ok_bind, Outcome.ok.injEq] at h
          rw [← h.2, ← h.1]
          simpa [nodesOption, ExprAST.nodes] using h1
        · simp [Outcome.bind] at h
      | _ => rw [hr] at h; simp [Outcome.bind] at h
  · simp only [parseFunction] at h
    split at h
    · simp [Outcome.bind] at h
    · cases hr : parseFunctionPrototype fuel (nextToken (nextToken s)) with
      | ok p s2 =>
        rw [hr] at h
        simp only [Outcome.ok_bind] at h
        have h1 := parseFunctionPrototype_storage hr
        cases hr2 : parseStatement fuel s2 with
        | ok b s3 =>
          rw [hr2] at h
          simp only [Outcome.ok_bind, Outcome.ok.injEq] at h
          have h2 := (stmt_storage fuel).1 _ _ _ hr2
          rw [← h.2, ← h.1]
          simp only [storage_nextToken] at h1
          simp [nodesOption, ExprAST.nodes, h2, h1]
        | _ => rw [hr2] at h; simp [Outcome.bind] at h
      | _ => rw [hr] at h; simp [Outcome.bind] at h
  · cases h

theorem parseMainLoop_storage (fuel : Nat) : ∀ (a : List ExprAST) (s : State)
    (es : List ExprAST) (s' : State), parseMainLoop fuel a s = Outcome.ok es s' →
    ∃ new, es = a ++ new ∧ s'.ExprStorage = s.ExprStorage ++ nodesList new := by
  induction fuel with
  | zero => intros; simp_all [parseMainLoop]
  | succ n ih =>
    intro a s es s' h
    simp only [parseMainLoop] at h
    cases hr : parsePipeline n s with
    | ok r s2 =>
      rw [hr] at h
      simp only [Outcome.ok_bind] at h
      have h1 := parsePipeline_storage hr
      cases r with
      | none =>
        cases h
        exact ⟨[], by simp, by simpa [nodesOption, nodesList] using h1⟩
      | some e =>
        obtain ⟨new, hnew, hst⟩ := ih _ _ _ _ h
        refine ⟨e :: new, by simp [hnew], ?_⟩
        simp [hst, h1, nodesList, nodesOption]
    | _ => rw [hr] at h; simp [Outcome.bind] at h

theorem parseMainLoop_no_contract (fuel : Nat) : ∀ (a : List ExprAST) (s : State),
    parseMainLoop fuel a s ≠ Outcome.contract := by
  induction fuel with
  | zero => intros; simp [parseMainLoop]
  | succ n ih =>
    intro a s
    simp only [parseMainLoop]
    refine Outcome.bind_ne_contract (parsePipeline_no_contract n s) (fun r s2 => ?_)
    cases r with
    | none => simp
    | some e => exact ih _ _

/-! ## Statements at top level -/

theorem parsePipeline_statement {ts : List Token} {e : ExprAST} (h : StmtTokens ts e)
    (s : State) (rest : List Token) (st : List ExprAST)
    (hrest : rest.head? ≠ some TOKEN_ELSE)
    (hs : nextToken s = State.reading (ts ++ rest) st) :
    ∃ N, ∀ fuel, N ≤ fuel →
      ∃ s', parsePipeline fuel s = Outcome.ok (some e) s' ∧
        nextToken s' = State.reading rest (st ++ e.nodes) := by
  obtain ⟨N, hN⟩ := h rest st hrest
  refine ⟨N, fun fuel hf => ?_⟩
  obtain ⟨s', hs', hnext⟩ := hN fuel hf
  refine ⟨s', ?_, hnext⟩
  rw [parsePipeline_statement_case _ _ (by rw [hs]; exact startsStatement_of_parse hs'), hs, hs']
  rfl

theorem parseMainLoop_statements (stmts : List (List Token × ExprAST))
    (h : ∀ x ∈ stmts, StmtTokens x.1 x.2) :
    ∀ (acc : List ExprAST) (s : State) (st : List ExprAST),
    nextToken s = State.reading (concatTokens (stmts.map Prod.fst)) st →
    ∃ N, ∀ fuel, N ≤ fuel →
      parseMainLoop fuel acc s =
        Outcome.ok (acc ++ stmts.map Prod.snd)
          ⟨TOKEN_EOF, none, [], st ++ nodesList (stmts.map Prod.snd)⟩ := by
  induction stmts with
  | nil =>
    intro acc s st hs
    refine ⟨1, fun fuel hf => ?_⟩
    obtain ⟨k, rfl⟩ : ∃ k, fuel = k + 1 := ⟨fuel - 1, by omega⟩
    simp [parseMainLoop, parsePipeline, hs, concatTokens, nodesList, State.reading]
  | cons x xs ih =>
    intro acc s st hs
    have hx := h x (by simp)
    have hrest : (concatTokens (xs.map Prod.fst)).head? ≠ some TOKEN_ELSE := by
      cases xs with
      | nil => simp [concatTokens]
      | cons y ys =>
        obtain ⟨u, us, hus, hue, _⟩ := stmtTokens_head (h y (by simp))
        simp [concatTokens, hus, hue]
    obtain ⟨N, hN⟩ := parsePipeline_statement hx s (concatTokens (xs.map Prod.fst)) st hrest
      (by simpa [concatTokens] using hs)
    obtain ⟨s1, hs1, hnext⟩ := hN N (le_refl N)
    obtain ⟨M, hM⟩ := ih (fun y hy => h y (by simp [hy])) (acc ++ [x.2]) s1
      (st ++ x.2.nodes) hnext
    refine ⟨N + M + 1, fun fuel hf => ?_⟩
    obtain ⟨k, rfl⟩ : ∃ k, fuel = k + 1 := ⟨fuel - 1, by omega⟩
    have hk := Outcome.refines_ok (parsePipeline_mono (show N ≤ k by omega) _) hs1
    simp only [parseMainLoop, hk, Outcome.ok_bind, hM k (by omega)]
    simp [nodesList]

/-! ## The bounded stack changes no result -/

theorem exprD_refines (n : Nat) : ∀ d,
    (∀ s, (parsePrimaryD n d s).refines (parsePrimary n s)) ∧
    (∀ a s, (parseArgsD n d a s).refines (parseArgs n a s)) ∧
    (∀ P s, (parseBinaryExpressionD n d P s).refines (parseBinaryExpression n P s)) ∧
    (∀ P R s, (binaryLoopD n d P R s).refines (binaryLoop n P R s)) ∧
    (∀ s, (parseExpressionD n d s).refines (parseExpression n s)) := by
  induction n with
  | zero =>
    intro d
    refine ⟨?_, ?_, ?_, ?_, ?_⟩ <;> intros <;> left <;> rfl
  | succ n ih =>
    intro d
    refine ⟨?_, ?_, ?_, ?_, ?_⟩
    · intro s
      cases d with
      | zero => left; rfl
      | succ d =>
        obtain ⟨ih1, ih2, ih3, ih4, ih5⟩ := ih d
        simp only [parsePrimaryD, parsePrimary]
        split
        · split
          · exact Outcome.refines_rfl _
          · exact Outcome.refines_bind (Outcome.refines_ite (ih2 _ _) (Outcome.refines_rfl _))
              (fun _ _ => Outcome.refines_rfl _)
        · exact Outcome.refines_rfl _
        · exact Outcome.refines_bind (ih5 _) (fun _ _ => Outcome.refines_rfl _)
        · exact Outcome.refines_rfl _
    · intro a s
      obtain ⟨ih1, ih2, ih3, ih4, ih5⟩ := ih d
      simp only [parseArgsD, parseArgs]
      refine Outcome.refines_bind (ih5 _) (fun _ _ => ?_)
      split
      · exact ih2 _ _
      · exact Outcome.refines_rfl _
      · exact Outcome.refines_rfl _
    · intro P s
      cases d with
      | zero => left; rfl
      | succ d =>
        obtain ⟨ih1, ih2, ih3, ih4, ih5⟩ := ih d
        simp only [parseBinaryExpressionD, parseBinaryExpression]
        exact Outcome.refines_bind (ih1 _) (fun _ _ => ih4 _ _ _)
    · intro P R s
      obtain ⟨ih1, ih2, ih3, ih4, ih5⟩ := ih d
      simp only [binaryLoopD, binaryLoop]
      split
      · split
        · exact Outcome.refines_rfl _
        · split
          · exact Outcome.refines_rfl _
          · split
            · exact Outcome.refines_rfl _
            · exact Outcome.refines_bind (ih3 _ _) (fun _ _ => ih4 _ _ _)
      · exact Outcome.refines_rfl _
    · intro s
      cases d with
      | zero => left; rfl
      | succ d =>
        obtain ⟨ih1, ih2, ih3, ih4, ih5⟩ := ih d
        simp only [parseExpressionD, parseExpression]
        exact ih3 _ _

theorem stmtD_refines (n : Nat) : ∀ d,
    (∀ s, (parseStatementD n d s).refines (parseStatement n s)) ∧
    (∀ a s, (parseBlockD n d a s).refines (parseBlock n a s)) := by
  induction n with
  | zero =>
    intro d
    refine ⟨?_, ?_⟩ <;> intros <;> left <;> rfl
  | succ n ih =>
    intro d
    refine ⟨?_, ?_⟩
    · intro s
      cases d with
      | zero => left; rfl
      | succ d =>
        obtain ⟨ih1, ih2⟩ := ih d
        have ihe := (exprD_refines n d).2.2.2.2
        simp only [parseStatementD, parseStatement]
        split
        · exact Outcome.refines_bind (ihe _) (fun _ _ => Outcome.refines_rfl _)
        · exact Outcome.refines_bind (ihe _) (fun _ _ => Outcome.refines_rfl _)
        · exact Outcome.refines_bind (ihe _) (fun _ _ => Outcome.refines_rfl _)
        · refine Outcome.refines_ite (Outcome.refines_rfl _) ?_
          refine Outcome.refines_bind (ihe _) (fun _ _ => ?_)
          refine Outcome.refines_ite (Outcome.refines_rfl _) ?_
          refine Outcome.refines_bind (ih1 _) (fun _ _ => ?_)
          refine Outcome.refines_bind ?_ (fun _ _ => Outcome.refines_rfl _)
          refine Outcome.refines_ite ?_ (Outcome.refines_rfl _)
          exact Outcome.refines_bind (ih1 _) (fun _ _ => Outcome.refines_rfl _)
        · exact Outcome.refines_bind (ih2 _ _) (fun _ _ => Outcome.refines_rfl _)
        · exact Outcome.refines_rfl _
    · intro a s
      obtain ⟨ih1, ih2⟩ := ih d
      simp only [parseBlockD, parseBlock]
      refine Outcome.refines_ite (Outcome.refines_rfl _) ?_
      exact Outcome.refines_bind (ih1 _) (fun _ _ => ih2 _ _)

theorem parseFunctionPrototypeD_refines (fuel d : Nat) (s : State) :
    (parseFunctionPrototypeD fuel d s).refines (parseFunctionPrototype fuel s) := by
  cases d with
  | zero => left; rfl
  | succ d => exact Outcome.refines_rfl _

theorem parsePipelineD_refines (fuel d : Nat) (s : State) :
    (parsePipelineD fuel d s).refines (parsePipeline fuel s) := by
  cases d with
  | zero => left; rfl
  | succ d =>
    have hs := fun s => (stmtD_refines fuel d).1 s
    simp only [parsePipelineD, parsePipeline]
    split
    · exact Outcome.refines_rfl _
    · exact Outcome.refines_rfl _
    · exact Outcome.refines_bind (hs _) (fun _ _ => Outcome.refines_rfl _)
    · exact Outcome.refines_bind (hs _) (fun _ _ => Outcome.refines_rfl _)
    · exact Outcome.refines_bind (hs _) (fun _ _ => Outcome.refines_rfl _)
    · exact Outcome.refines_bind (hs _) (fun _ _ => Outcome.refines_rfl _)
    · exact Outcome.refines_bind (hs _) (fun _ _ => Outcome.refines_rfl _)
    · refine Outcome.refines_bind ?_ (fun _ _ => Outcome.refines_rfl _)
      cases d with
      | zero => left; rfl
      | succ d =>
        simp only [parseExternD, parseExtern]
        refine Outcome.refines_ite (Outcome.refines_rfl _) ?_
        exact Outcome.refines_bind (parseFunctionPrototypeD_refines _ _ _)
          (fun _ _ => Outcome.refines_rfl _)
    · refine Outcome.refines_bind ?_ (fun _ _ => Outcome.refines_rfl _)
      cases d with
      | zero => left; rfl
      | succ d =>
        simp only [parseFunctionD, parseFunction]
        refine Outcome.refines_ite (Outcome.refines_rfl _) ?_
        refine Outcome.refines_bind (parseFunctionPrototypeD_refines _ _ _) (fun _ _ => ?_)
        exact Outcome.refines_bind ((stmtD_refines fuel d).1 _) (fun _ _ => Outcome.refines_rfl _)
    · exact Outcome.refines_rfl _

theorem parseMainLoopD_refines (n : Nat) : ∀ d a s,
    (parseMainLoopD n d a s).refines (parseMainLoop n a s) := by
  induction n with
  | zero => intro d a s; left; rfl
  | succ n ih =>
    intro d a s
    simp only [parseMainLoopD, parseMainLoop]
    refine Outcome.refines_bind (parsePipelineD_refines _ _ _) (fun r _ => ?_)
    cases r with
    | none => exact Outcome.refines_rfl _
    | some e => exact ih _ _ _

theorem parseMainD_refines (fuel d : Nat) (s : State) :
    (parseMainD fuel d s).refines (parseMain fuel s) := by
  cases d with
  | zero => left; rfl
  | succ d => exact parseMainLoopD_refines fuel d [] s

/-! ## The stack bound of every phrase of the grammar -/

theorem parseExpressionD_succ (fuel depth : Nat) (s : State) :
    parseExpressionD (fuel + 1) (depth + 1) s = parseBinaryExpressionD fuel depth 0 s := rfl

theorem parseBinaryExpressionD_succ (fuel depth : Nat) (P : Int) (s : State) :
    parseBinaryExpressionD (fuel + 1) (depth + 1) P s =
      (parsePrimaryD fuel depth s).bind fun Result s => binaryLoopD fuel depth P Result s := rfl

theorem binaryLoopD_stop (fuel depth : Nat) (P : Int) (R : ExprAST) (s : State)
    (h : isBinaryOp (currToken s) = false) :
    binaryLoopD (fuel + 1) depth P R s = Outcome.ok R s := by
  simp only [binaryLoopD]
  split
  · rename_i Op hc
    rw [hc] at h
    simp [isBinaryOp] at h
    simp [h]
  · rfl

theorem binaryLoopD_op (fuel depth : Nat) (P : Int) (R : ExprAST) (s : State) {op : Char}
    (hc : currToken s = TOKEN_OP op) (hop : op ∈ BinaryOpSet) (hP : P < precedenceOf op) :
    binaryLoopD (fuel + 1) depth P R s =
      (parseBinaryExpressionD fuel depth (precedenceOf op) (nextToken s)).bind fun Right s =>
        binaryLoopD fuel depth P (BinaryExpr op R Right) (s.push_back (BinaryExpr op R Right)) := by
  simp only [binaryLoopD, hc, hop, not_true_eq_false, if_false, (lookup_of_mem hop).1,
    not_le.mpr hP]

theorem binaryLoopD_low (fuel depth : Nat) (P : Int) (R : ExprAST) (s : State) {op : Char}
    (hc : currToken s = TOKEN_OP op) (hP : precedenceOf op ≤ P) :
    binaryLoopD (fuel + 1) depth P R s = Outcome.ok R s := by
  simp only [binaryLoopD, hc]
  split
  · rfl
  · rename_i hop
    simp only [not_not] at hop
    simp only [(lookup_of_mem hop).1, hP, if_true]

theorem precedenceOf_cases {op : Char} (hop : op ∈ BinaryOpSet) :
    precedenceOf op = 10 ∨ precedenceOf op = 20 := by
  simp [BinaryOpSet] at hop
  rcases hop with rfl | rfl | rfl | rfl <;> decide

theorem within_number (v n : Nat) : Within Category.primary n [TOKEN_NUMBER v] := by
  intro next rest st _
  refine ⟨1, NumberExpr v, st ++ [NumberExpr v], fun fuel depth hf hd => ?_⟩
  obtain ⟨k, rfl⟩ : ∃ k, fuel = k + 1 := ⟨fuel - 1, by omega⟩
  obtain ⟨j, rfl⟩ : ∃ j, depth = j + 1 := ⟨depth - 1, by omega⟩
  simp [parsePrimaryD]

theorem within_name (x : String) (n : Nat) : Within Category.primary n [TOKEN_IDENTIFIER x] := by
  intro next rest st hl
  refine ⟨1, VariableExpr x, st ++ [VariableExpr x], fun fuel depth hf hd => ?_⟩
  obtain ⟨k, rfl⟩ : ∃ k, fuel = k + 1 := ⟨fuel - 1, by omega⟩
  obtain ⟨j, rfl⟩ : ∃ j, depth = j + 1 := ⟨depth - 1, by omega⟩
  simp [parsePrimaryD, hl]

theorem within_paren {ts : List Token} {n : Nat} (h : Within Category.expression n ts) :
    Within Category.primary (n + 1) (TOKEN_LPAREN :: (ts ++ [TOKEN_RPAREN])) := by
  intro next rest st _
  obtain ⟨N, e, st', hN⟩ := h TOKEN_RPAREN (next :: rest) st (by simp) rfl
  refine ⟨N + 1, e, st', fun fuel depth hf hd => ?_⟩
  obtain ⟨k, rfl⟩ : ∃ k, fuel = k + 1 := ⟨fuel - 1, by omega⟩
  obtain ⟨j, rfl⟩ : ∃ j, depth = j + 1 := ⟨depth - 1, by omega⟩
  simp [parsePrimaryD, hN k j (by omega) (by omega)]

theorem within_expression_head {ts : List Token} {n : Nat}
    (h : Within Category.expression n ts) :
    ∃ t ts', ts = t :: ts' ∧
      ((∃ x, t = TOKEN_IDENTIFIER x) ∨ (∃ v, t = TOKEN_NUMBER v) ∨ t = TOKEN_LPAREN) := by
  obtain ⟨N, e, st', hN⟩ := h TOKEN_SEMICOLON [] [] (by simp) rfl
  have h1 := Outcome.refines_ok ((exprD_refines N (5 * n + 5)).2.2.2.2 _)
    (hN N (5 * n + 5) (le_refl _) (le_refl _))
  have h0 := parseExpression_head h1
  cases ts with
  | nil => simp at h0
  | cons t ts' => exact ⟨t, ts', rfl, by simpa using h0⟩

theorem parseArgsD_spec {n : Nat} (args : List (List Token))
    (h : ∀ a, a ∈ args → Within Category.expression n a) (hne : args ≠ []) :
    ∀ (acc : List ExprAST) (rest : List Token) (st : List ExprAST),
    ∃ N es st', ∀ fuel depth, N ≤ fuel → 5 * n + 5 ≤ depth →
      parseArgsD fuel depth acc
          (State.reading (commaSeparated args ++ TOKEN_RPAREN :: rest) st) =
        Outcome.ok es ⟨TOKEN_RPAREN, none, rest, st'⟩ := by
  induction args with
  | nil => exact absurd rfl hne
  | cons a as ih =>
    intro acc rest st
    have ha := h a (by simp)
    cases as with
    | nil =>
      obtain ⟨N, e, st', hN⟩ := ha TOKEN_RPAREN rest st (by simp) rfl
      refine ⟨N + 1, acc ++ [e], st', fun fuel depth hf hd => ?_⟩
      obtain ⟨k, rfl⟩ : ∃ k, fuel = k + 1 := ⟨fuel - 1, by omega⟩
      simp [parseArgsD, hN k depth (by omega) hd]
    | cons b bs =>
      obtain ⟨N, e, st', hN⟩ := ha TOKEN_COMMA
        (commaSeparated (b :: bs) ++ TOKEN_RPAREN :: rest) st (by simp) rfl
      obtain ⟨M, es, st2, hM⟩ := ih (fun x hx => h x (by simp [hx])) (by simp)
        (acc ++ [e]) rest st'
      refine ⟨N + M + 1, es, st2, fun fuel depth hf hd => ?_⟩
      obtain ⟨k, rfl⟩ : ∃ k, fuel = k + 1 := ⟨fuel - 1, by omega⟩
      have hM' := hM k depth (by omega) hd
      have hN' := hN k depth (by omega) hd
      simp only [commaSeparated_cons_cons, List.append_assoc, List.cons_append] at hM' hN' ⊢
      simp [parseArgsD, hN', hM']

theorem within_call (f : String) (args : List (List Token)) {n : Nat}
    (h : ∀ a, a ∈ args → Within Category.expression n a) :
    Within Category.primary (n + 1)
      (TOKEN_IDENTIFIER f :: TOKEN_LPAREN :: (commaSeparated args ++ [TOKEN_RPAREN])) := by
  intro next rest st _
  cases args with
  | nil =>
    refine ⟨1, CallExpr f [], st ++ [CallExpr f []], fun fuel depth hf hd => ?_⟩
    obtain ⟨k, rfl⟩ : ∃ k, fuel = k + 1 := ⟨fuel - 1, by omega⟩
    obtain ⟨j, rfl⟩ : ∃ j, depth = j + 1 := ⟨depth - 1, by omega⟩
    simp [parsePrimaryD]
  | cons a as =>
    obtain ⟨N, es, st', hN⟩ := parseArgsD_spec (a :: as) h (by simp) [] (next :: rest) st
    obtain ⟨t, ts', hts, ht⟩ := within_expression_head (h a (by simp))
    have hhead : (commaSeparated (a :: as) ++ TOKEN_RPAREN :: (next :: rest)).headD
        TOKEN_EOF ≠ TOKEN_RPAREN := by
      cases as <;> simp [hts] <;> rcases ht with ⟨n, rfl⟩ | ⟨v, rfl⟩ | rfl <;> simp
    refine ⟨N + 1, CallExpr f es, st' ++ [CallExpr f es], fun fuel depth hf hd => ?_⟩
    obtain ⟨k, rfl⟩ : ∃ k, fuel = k + 1 := ⟨fuel - 1, by omega⟩
    obtain ⟨j, rfl⟩ : ∃ j, depth = j + 1 := ⟨depth - 1, by omega⟩
    simp only [List.cons_append, List.append_assoc, List.singleton_append, List.nil_append,
      parsePrimaryD, reading_cons, currToken_mk, nextToken_mk_none, ne_eq,
      not_true_eq_false, ite_false, if_false, currToken_reading]
    rw [if_pos hhead, hN k j (by omega) (by omega)]
    simp

theorem operandTokens_head (l : List (Char × List Token)) (next : Token) (rest : List Token)
    (hnl : next ≠ TOKEN_LPAREN) :
    ∃ t ts, operandTokens l ++ next :: rest = t :: ts ∧ t ≠ TOKEN_LPAREN := by
  cases l with
  | nil => exact ⟨next, rest, rfl, hnl⟩
  | cons x l => exact ⟨TOKEN_OP x.1, _, rfl, by simp⟩

/-- The loop of `parseBinaryExpression` on a chain of operators and primary
operands of nesting depth `n`: two more frames than a primary needs suffice
below precedence 10, one more below precedence 20. -/
theorem binaryLoopD_chain (n : Nat) (next : Token) (rest : List Token)
    (hnext : isBinaryOp next = false) (hnl : next ≠ TOKEN_LPAREN) (m : Nat) :
    ∀ (ops : List (Char × List Token)) (P : Int) (R : ExprAST) (st : List ExprAST),
    ops.length ≤ m → (∀ x, x ∈ ops → x.1 ∈ BinaryOpSet) →
    (∀ x, x ∈ ops → Within Category.primary n x.2) →
    ∃ N T st' ops2, (∃ ops1, ops = ops1 ++ ops2) ∧
      (∀ x l, ops2 = x :: l → precedenceOf x.1 ≤ P) ∧
      ∀ fuel depth, N ≤ fuel → (P < 10 → 5 * n + 3 ≤ depth) → (P < 20 → 5 * n + 2 ≤ depth) →
        binaryLoopD fuel depth P R (State.reading (operandTokens ops ++ next :: rest) st) =
          Outcome.ok T (State.reading (operandTokens ops2 ++ next :: rest) st') := by
  induction m with
  | zero =>
    intro ops P R st hlen _ _
    have : ops = [] := by cases ops <;> simp_all
    subst this
    refine ⟨1, R, st, [], ⟨[], rfl⟩, by simp, fun fuel depth hf _ _ => ?_⟩
    obtain ⟨k, rfl⟩ : ∃ k, fuel = k + 1 := ⟨fuel - 1, by omega⟩
    exact binaryLoopD_stop _ _ _ _ _ (by simpa [operandTokens] using hnext)
  | succ m ih =>
    intro ops P R st hlen hops hprim
    cases ops with
    | nil =>
      refine ⟨1, R, st, [], ⟨[], rfl⟩, by simp, fun fuel depth hf _ _ => ?_⟩
      obtain ⟨k, rfl⟩ : ∃ k, fuel = k + 1 := ⟨fuel - 1, by omega⟩
      exact binaryLoopD_stop _ _ _ _ _ (by simpa [operandTokens] using hnext)
    | cons x l =>
      have hx := hops x (by simp)
      by_cases hP : precedenceOf x.1 ≤ P
      · refine ⟨1, R, st, x :: l, ⟨[], rfl⟩, ?_, fun fuel depth hf _ _ => ?_⟩
        · intro y l' hy
          cases hy
          exact hP
        · obtain ⟨k, rfl⟩ : ∃ k, fuel = k + 1 := ⟨fuel - 1, by omega⟩
          exact binaryLoopD_low _ _ _ _ _ (by simp [operandTokens]) hP
      · have hP' : P < precedenceOf x.1 := not_le.mp hP
        obtain ⟨t, ts, hts, htl⟩ := operandTokens_head l next rest hnl
        obtain ⟨N1, R1, st1, h1⟩ := hprim x (by simp) t ts st htl
        obtain ⟨N2, T1, st2, l2, ⟨l1, hl⟩, hstop2, h2⟩ := ih l (precedenceOf x.1) R1 st1
          (by simpa using hlen) (fun y hy => hops y (by simp [hy]))
          (fun y hy => hprim y (by simp [hy]))
        have hlen2 : l2.length ≤ m := by
          have : l.length = l1.length + l2.length := by rw [hl]; simp
          simp at hlen
          omega
        obtain ⟨N3, T, st3, l3, ⟨l2', hl2⟩, hstop3, h3⟩ := ih l2 P
          (BinaryExpr x.1 R T1) (st2 ++ [BinaryExpr x.1 R T1]) hlen2
          (fun y hy => hops y (by simp [hl, hy]))
          (fun y hy => hprim y (by simp [hl, hy]))
        refine ⟨N1 + N2 + N3 + 2, T, st3, l3, ⟨x :: (l1 ++ l2'), by simp [hl, hl2]⟩, hstop3,
          fun fuel depth hf hd1 hd2 => ?_⟩
        obtain ⟨k, rfl⟩ : ∃ k, fuel = k + 2 := ⟨fuel - 2, by omega⟩
        have hq := precedenceOf_cases hx
        have hP20 : P < 20 := by omega
        obtain ⟨j, rfl⟩ : ∃ j, depth = j + 1 := ⟨depth - 1, by have := hd2 hP20; omega⟩
        have hj1 : 5 * n + 1 ≤ j := by have := hd2 hP20; omega
        have hj2 : precedenceOf x.1 < 20 → 5 * n + 2 ≤ j := by
          intro hlt
          have : P < 10 := by omega
          have := hd1 this
          omega
        rw [binaryLoopD_op _ _ _ _ _ (by simp [operandTokens]) hx hP']
        simp only [operandTokens, List.cons_append, reading_cons, nextToken_mk_none,
          List.append_assoc]
        rw [parseBinaryExpressionD_succ, hts, h1 k j (by omega) hj1, Outcome.ok_bind,
          ← reading_cons, ← hts,
          h2 k j (by omega) (fun h => by omega) hj2, Outcome.ok_bind, push_back_reading]
        exact h3 (k + 1) (j + 1) (by omega) hd1 hd2

theorem within_chain {p : List Token} (ops : List (Char × List Token)) {n : Nat}
    (hp : Within Category.primary n p) (hops : ∀ x, x ∈ ops → x.1 ∈ BinaryOpSet)
    (hprim : ∀ x, x ∈ ops → Within Category.primary n x.2) :
    Within Category.expression n (p ++ operandTokens ops) := by
  intro next rest st hnl hb
  obtain ⟨t, ts, hts, htl⟩ := operandTokens_head ops next rest hnl
  obtain ⟨N1, R, st1, h1⟩ := hp t ts st htl
  obtain ⟨N2, T, st2, l2, _, hstop, h2⟩ := binaryLoopD_chain n next rest hb hnl ops.length
    ops 0 R st1 (le_refl _) hops hprim
  have hl2 : l2 = [] := by
    cases l2 with
    | nil => rfl
    | cons y l' =>
      have h0 := hstop y l' rfl
      have hy : y ∈ ops := by
        rename_i h
        obtain ⟨o1, ho1⟩ := h
        rw [ho1]; simp
      have := (lookup_of_mem (hops y hy)).2
      omega
  subst hl2
  refine ⟨N1 + N2 + 2, T, st2, fun fuel depth hf hd => ?_⟩
  obtain ⟨k, rfl⟩ : ∃ k, fuel = k + 2 := ⟨fuel - 2, by omega⟩
  obtain ⟨j, rfl⟩ : ∃ j, depth = j + 2 := ⟨depth - 2, by omega⟩
  rw [parseExpressionD_succ, parseBinaryExpressionD_succ, List.append_assoc, hts,
    h1 k j (by omega) (by omega), Outcome.ok_bind, ← reading_cons, ← hts,
    h2 k j (by omega) (fun _ => by omega) (fun _ => by omega)]
  simp [operandTokens]

theorem within_exprStmt {ts : List Token} {n : Nat} (h : Within Category.expression n ts) :
    Within Category.closed n (ts ++ [TOKEN_SEMICOLON]) := by
  intro rest st
  obtain ⟨N, e, st', hN⟩ := h TOKEN_SEMICOLON rest st (by simp) rfl
  obtain ⟨t, ts', rfl, ht⟩ := within_expression_head h
  refine ⟨N + 1, e, st', TOKEN_SEMICOLON, fun fuel depth hf hd => ?_⟩
  obtain ⟨k, rfl⟩ : ∃ k, fuel = k + 1 := ⟨fuel - 1, by omega⟩
  obtain ⟨j, rfl⟩ : ∃ j, depth = j + 1 := ⟨depth - 1, by omega⟩
  have hk := hN k j (by omega) (by omega)
  simp only [List.append_assoc, List.cons_append, List.nil_append, reading_cons] at hk ⊢
  rcases ht with ⟨x, rfl⟩ | ⟨v, rfl⟩ | rfl <;> simp [parseStatementD, hk]

theorem within_closedStmt {ts : List Token} {n : Nat} (h : Within Category.closed n ts) :
    Within Category.statement n ts := by
  intro rest st _
  obtain ⟨N, e, st', c, hN⟩ := h rest st
  exact ⟨N, e, st', ⟨c, none, rest, st'⟩, by simp, hN⟩

theorem within_statement_head {ts : List Token} {n : Nat}
    (h : Within Category.statement n ts) :
    ∃ t ts', ts = t :: ts' ∧ t ≠ TOKEN_ELSE ∧ t ≠ TOKEN_RBRACE ∧ startsStatement t = true := by
  obtain ⟨N, e, st', s', _, hN⟩ := h [] [] (by simp)
  have h1 := Outcome.refines_ok ((stmtD_refines N (5 * n + 6)).1 _)
    (hN N (5 * n + 6) (le_refl _) (le_refl _))
  have h0 := parseStatement_head h1
  have h2 := startsStatement_of_parse h1
  cases ts with
  | nil => simp at h0
  | cons t ts' =>
    exact ⟨t, ts', rfl, by simpa using h0.1, by simpa using h0.2.1, by simpa using h2⟩

theorem within_ifThen {c s : List Token} {n : Nat}
    (hc : Within Category.expression n c) (hs : Within Category.statement n s) :
    Within Category.statement (n + 1) (TOKEN_IF :: TOKEN_LPAREN :: (c ++ TOKEN_RPAREN :: s)) := by
  intro rest st hrest
  obtain ⟨N, ec, st1, hN⟩ := hc TOKEN_RPAREN (s ++ rest) st (by simp) rfl
  obtain ⟨M, es, st2, s1, hnext, hM⟩ := hs rest st1 hrest
  have he := headD_ne_else hrest
  refine ⟨N + M + 1, IfExpr ec es none,
    st2 ++ [IfExpr ec es none],
    ⟨rest.headD TOKEN_EOF, some (rest.headD TOKEN_EOF), rest.tail,
      st2 ++ [IfExpr ec es none]⟩, nextToken_unread _ _, fun fuel depth hf hd => ?_⟩
  obtain ⟨k, rfl⟩ : ∃ k, fuel = k + 1 := ⟨fuel - 1, by omega⟩
  obtain ⟨j, rfl⟩ : ∃ j, depth = j + 1 := ⟨depth - 1, by omega⟩
  have hk := hN k j (by omega) (by omega)
  have hs1 := hM k j (by omega) (by omega)
  simp only [List.append_assoc, List.cons_append] at hk ⊢
  simp only [parseStatementD, reading_cons, currToken_mk, nextToken_mk_none, ne_eq,
    not_true_eq_false, if_false, hk, Outcome.ok_bind, hs1, hnext, currToken_reading, he,
    unreadToken_reading, push_back_mk]

theorem within_ifElse {c s t : List Token} {n : Nat}
    (hc : Within Category.expression n c) (hs : Within Category.closed n s)
    (ht : Within Category.statement n t) :
    Within Category.statement (n + 1)
      (TOKEN_IF :: TOKEN_LPAREN :: (c ++ TOKEN_RPAREN :: (s ++ TOKEN_ELSE :: t))) := by
  intro rest st hrest
  obtain ⟨N, ec, st1, hN⟩ := hc TOKEN_RPAREN (s ++ TOKEN_ELSE :: (t ++ rest)) st (by simp) rfl
  obtain ⟨M, es, st2, c1, hM⟩ := hs (TOKEN_ELSE :: (t ++ rest)) st1
  obtain ⟨K, et, st3, s2, hnext, hK⟩ := ht rest st2 hrest
  obtain ⟨t0, t', rfl, _⟩ := within_statement_head ht
  refine ⟨N + M + K + 1, IfExpr ec es (some et), st3 ++ [IfExpr ec es (some et)],
    s2.push_back (IfExpr ec es (some et)), ?_, fun fuel depth hf hd => ?_⟩
  · rw [nextToken_push_back, hnext]
    rfl
  · obtain ⟨k, rfl⟩ : ∃ k, fuel = k + 1 := ⟨fuel - 1, by omega⟩
    obtain ⟨j, rfl⟩ : ∃ j, depth = j + 1 := ⟨depth - 1, by omega⟩
    have hk := hN k j (by omega) (by omega)
    have hs1 := hM k j (by omega) (by omega)
    have hs2 := hK k j (by omega) (by omega)
    simp only [List.append_assoc, List.cons_append, reading_cons] at hk hs1 hs2 ⊢
    simp only [parseStatementD, currToken_mk, nextToken_mk_none, ne_eq,
      not_true_eq_false, if_false, if_true, hk, Outcome.ok_bind, hs1, hs2, reading_cons]

theorem within_ifElseClosed {c s t : List Token} {n : Nat}
    (hc : Within Category.expression n c) (hs : Within Category.closed n s)
    (ht : Within Category.closed n t) :
    Within Category.closed (n + 1)
      (TOKEN_IF :: TOKEN_LPAREN :: (c ++ TOKEN_RPAREN :: (s ++ TOKEN_ELSE :: t))) := by
  intro rest st
  obtain ⟨N, ec, st1, hN⟩ := hc TOKEN_RPAREN (s ++ TOKEN_ELSE :: (t ++ rest)) st (by simp) rfl
  obtain ⟨M, es, st2, c1, hM⟩ := hs (TOKEN_ELSE :: (t ++ rest)) st1
  obtain ⟨K, et, st3, c2, hK⟩ := ht rest st2
  obtain ⟨t0, t', rfl, _⟩ := within_statement_head (within_closedStmt ht)
  refine ⟨N + M + K + 1, IfExpr ec es (some et), st3 ++ [IfExpr ec es (some et)], c2,
    fun fuel depth hf hd => ?_⟩
  obtain ⟨k, rfl⟩ : ∃ k, fuel = k + 1 := ⟨fuel - 1, by omega⟩
  obtain ⟨j, rfl⟩ : ∃ j, depth = j + 1 := ⟨depth - 1, by omega⟩
  have hk := hN k j (by omega) (by omega)
  have hs1 := hM k j (by omega) (by omega)
  have hs2 := hK k j (by omega) (by omega)
  simp only [List.append_assoc, List.cons_append, reading_cons] at hk hs1 hs2 ⊢
  simp only [parseStatementD, currToken_mk, nextToken_mk_none, ne_eq,
    not_true_eq_false, if_false, if_true, hk, Outcome.ok_bind, hs1, hs2, reading_cons,
    push_back_mk]

theorem concatTokens_head_ne_else {n : Nat} (stmts : List (List Token))
    (h : ∀ s, s ∈ stmts → Within Category.statement n s) (tail : List Token)
    (htail : tail.head? ≠ some TOKEN_ELSE) :
    (concatTokens stmts ++ tail).head? ≠ some TOKEN_ELSE := by
  cases stmts with
  | nil => simpa [concatTokens] using htail
  | cons y ys =>
    obtain ⟨u, us, hus, hue, _⟩ := within_statement_head (h y (by simp))
    simp [concatTokens, hus, hue]

theorem parseBlockD_spec {n : Nat} (stmts : List (List Token))
    (h : ∀ s, s ∈ stmts → Within Category.statement n s) :
    ∀ (acc : List ExprAST) (s : State) (rest : List Token) (st : List ExprAST),
    nextToken s = State.reading (concatTokens stmts ++ TOKEN_RBRACE :: rest) st →
    ∃ N es st', ∀ fuel depth, N ≤ fuel → 5 * n + 6 ≤ depth →
      parseBlockD fuel depth acc s = Outcome.ok es ⟨TOKEN_RBRACE, none, rest, st'⟩ := by
  induction stmts with
  | nil =>
    intro acc s rest st hs
    refine ⟨1, acc, st, fun fuel depth hf hd => ?_⟩
    obtain ⟨k, rfl⟩ : ∃ k, fuel = k + 1 := ⟨fuel - 1, by omega⟩
    simp [parseBlockD, hs, concatTokens]
  | cons x xs ih =>
    intro acc s rest st hs
    have hx := h x (by simp)
    obtain ⟨t, ts', hts, hte, htb, _⟩ := within_statement_head hx
    have hrest := concatTokens_head_ne_else xs (fun y hy => h y (by simp [hy]))
      (TOKEN_RBRACE :: rest) (by simp)
    obtain ⟨N, e, st1, s1, hnext, hN⟩ := hx (concatTokens xs ++ TOKEN_RBRACE :: rest) st hrest
    obtain ⟨M, es, st2, hM⟩ := ih (fun y hy => h y (by simp [hy])) (acc ++ [e]) s1 rest st1
      hnext
    refine ⟨N + M + 1, es, st2, fun fuel depth hf hd => ?_⟩
    obtain ⟨k, rfl⟩ : ∃ k, fuel = k + 1 := ⟨fuel - 1, by omega⟩
    have hcur : currToken (State.reading (x ++ (concatTokens xs ++
        TOKEN_RBRACE :: rest)) st) ≠ TOKEN_RBRACE := by
      simp [hts, htb]
    simp only [concatTokens, List.append_assoc] at hs
    simp only [parseBlockD, hs, if_neg hcur, hN k depth (by omega) hd, Outcome.ok_bind,
      hM k depth (by omega) hd]

theorem within_block (stmts : List (List Token)) {n : Nat}
    (h : ∀ s, s ∈ stmts → Within Category.statement n s) :
    Within Category.closed (n + 1) (TOKEN_LBRACE :: (concatTokens stmts ++ [TOKEN_RBRACE])) := by
  intro rest st
  obtain ⟨N, es, st', hN⟩ := parseBlockD_spec stmts h [] ⟨TOKEN_LBRACE, none,
    concatTokens stmts ++ TOKEN_RBRACE :: rest, st⟩ rest st (by simp)
  refine ⟨N + 1, BlockExpr es, st' ++ [BlockExpr es], TOKEN_RBRACE, fun fuel depth hf hd => ?_⟩
  obtain ⟨k, rfl⟩ : ∃ k, fuel = k + 1 := ⟨fuel - 1, by omega⟩
  obtain ⟨j, rfl⟩ : ∃ j, depth = j + 1 := ⟨depth - 1, by omega⟩
  have hk := hN k j (by omega) (by omega)
  simp only [List.append_assoc, List.cons_append, List.nil_append, reading_cons]
  simp only [parseStatementD, currToken_mk, hk, Outcome.ok_bind, push_back_mk]

theorem within_stmtUnit {ts : List Token} {n : Nat} (h : Within Category.statement n ts) :
    Within Category.unit n ts := by
  intro s rest st hrest hs
  obtain ⟨N, e, st', s', hnext, hN⟩ := h rest st hrest
  obtain ⟨t, ts', rfl, _, _, hstart⟩ := within_statement_head h
  refine ⟨N, e, st', s', hnext, fun fuel depth hf hd => ?_⟩
  obtain ⟨j, rfl⟩ : ∃ j, depth = j + 1 := ⟨depth - 1, by omega⟩
  have hk := hN fuel j hf (by omega)
  have hcur : currToken (nextToken s) = t := by rw [hs]; rfl
  simp only [parsePipelineD]
  rw [hs] at hcur ⊢
  simp only [List.cons_append, reading_cons, currToken_mk] at hk hcur ⊢
  cases t <;> simp [startsStatement, startsExpression] at hstart <;> simp [hk]

theorem within_externUnit (f : String) (params : List String) (n : Nat) :
    Within Category.unit n
      (TOKEN_EXTERN :: TOKEN_IDENTIFIER f :: TOKEN_LPAREN ::
        (paramTokens params ++ [TOKEN_RPAREN, TOKEN_SEMICOLON])) := by
  intro s rest st _ hs
  refine ⟨params.length, PrototypeExpr ⟨f, params⟩, st ++ [PrototypeExpr ⟨f, params⟩],
    ⟨TOKEN_SEMICOLON, none, rest, st ++ [PrototypeExpr ⟨f, params⟩]⟩, by simp,
    fun fuel depth hf hd => ?_⟩
  obtain ⟨j, rfl⟩ : ∃ j, depth = j + 3 := ⟨depth - 3, by omega⟩
  have h := parseFunctionPrototype_spec f params (TOKEN_SEMICOLON :: rest) st fuel hf
  simp only [reading_cons] at h
  simp only [List.cons_append, List.append_assoc, List.nil_append] at hs
  simp [parsePipelineD, parseExternD, parseFunctionPrototypeD, hs, h]

theorem within_defUnit (f : String) (params : List String) {body : List Token} {n : Nat}
    (h : Within Category.statement n body) :
    Within Category.unit (n + 1)
      (TOKEN_DEF :: TOKEN_IDENTIFIER f :: TOKEN_LPAREN ::
        (paramTokens params ++ TOKEN_RPAREN :: body)) := by
  intro s rest st hrest hs
  obtain ⟨N, e, st', s1, hnext, hN⟩ := h rest (st ++ [PrototypeExpr ⟨f, params⟩]) hrest
  refine ⟨N + params.length, FunctionExpr ⟨f, params⟩ e,
    st' ++ [FunctionExpr ⟨f, params⟩ e], s1.push_back (FunctionExpr ⟨f, params⟩ e), ?_,
    fun fuel depth hf hd => ?_⟩
  · rw [nextToken_push_back, hnext]
    rfl
  · obtain ⟨j, rfl⟩ : ∃ j, depth = j + 3 := ⟨depth - 3, by omega⟩
    have hp := parseFunctionPrototype_spec f params (body ++ rest) st fuel (by omega)
    have hb := hN fuel (j + 1) (by omega) (by omega)
    simp only [reading_cons] at hp
    simp only [List.cons_append, List.append_assoc] at hs
    simp [parsePipelineD, parseFunctionD, parseFunctionPrototypeD, hs, hp, hb]

/-- Every phrase of the grammar is read within the stack bound of its nesting
depth. -/
theorem nested_within {k : Category} {ts : List Token} {n : Nat} (h : Nested k ts n) :
    Within k n ts := by
  induction h with
  | number v n => exact within_number v n
  | name x n => exact within_name x n
  | paren _ ih => exact within_paren ih
  | call f args _ ih => exact within_call f args ih
  | chain ops _ hops _ ihp ihops => exact within_chain ops ihp hops ihops
  | exprStmt _ ih => exact within_exprStmt ih
  | block stmts _ ih => exact within_block stmts ih
  | ifElseClosed _ _ _ ihc ihs iht => exact within_ifElseClosed ihc ihs iht
  | closedStmt _ ih => exact within_closedStmt ih
  | ifThen _ _ ihc ihs => exact within_ifThen ihc ihs
  | ifElse _ _ _ ihc ihs iht => exact within_ifElse ihc ihs iht
  | stmtUnit _ ih => exact within_stmtUnit ih
  | externUnit f params n => exact within_externUnit f params n
  | defUnit f params _ ih => exact within_defUnit f params ih

theorem within_unit_head {ts : List Token} {n : Nat} (h : Within Category.unit n ts) :
    ∃ t ts', ts = t :: ts' ∧ t ≠ TOKEN_ELSE := by
  obtain ⟨N, e, st', s', _, hN⟩ := h (State.initial TOKEN_EOF ts) [] [] (by simp)
    (by simp [State.initial])
  have h1 := Outcome.refines_ok (parsePipelineD_refines N (5 * n + 7) _)
    (hN N (5 * n + 7) (le_refl _) (le_refl _))
  cases ts with
  | nil => simp [parsePipeline, State.initial, nextToken, currToken] at h1
  | cons t ts' =>
    refine ⟨t, ts', rfl, fun he => ?_⟩
    subst he
    rw [parsePipeline_other_token _ _ (by simp [State.initial, startsUnit, startsStatement,
      startsExpression])] at h1
    cases h1

theorem parseMainLoopD_units {n : Nat} (units : List (List Token))
    (h : ∀ u, u ∈ units → Within Category.unit n u) :
    ∀ (acc : List ExprAST) (s : State) (st : List ExprAST),
    nextToken s = State.reading (concatTokens units) st →
    ∃ N es st', ∀ fuel depth, N ≤ fuel → 5 * n + 7 ≤ depth →
      parseMainLoopD fuel depth acc s = Outcome.ok es ⟨TOKEN_EOF, none, [], st'⟩ := by
  induction units with
  | nil =>
    intro acc s st hs
    refine ⟨1, acc, st, fun fuel depth hf hd => ?_⟩
    obtain ⟨k, rfl⟩ : ∃ k, fuel = k + 1 := ⟨fuel - 1, by omega⟩
    obtain ⟨j, rfl⟩ : ∃ j, depth = j + 1 := ⟨depth - 1, by omega⟩
    simp [parseMainLoopD, parsePipelineD, hs, concatTokens, State.reading]
  | cons x xs ih =>
    intro acc s st hs
    have hx := h x (by simp)
    have hrest : (concatTokens xs).head? ≠ some TOKEN_ELSE := by
      cases xs with
      | nil => simp [concatTokens]
      | cons y ys =>
        obtain ⟨t, ts', hts, hte⟩ := within_unit_head (h y (by simp))
        simp [concatTokens, hts, hte]
    obtain ⟨N, e, st1, s1, hnext, hN⟩ := hx s (concatTokens xs) st hrest
      (by simpa [concatTokens] using hs)
    obtain ⟨M, es, st2, hM⟩ := ih (fun y hy => h y (by simp [hy])) (acc ++ [e]) s1 st1 hnext
    refine ⟨N + M + 1, es, st2, fun fuel depth hf hd => ?_⟩
    obtain ⟨k, rfl⟩ : ∃ k, fuel = k + 1 := ⟨fuel - 1, by omega⟩
    simp only [parseMainLoopD, hN k depth (by omega) hd, Outcome.ok_bind,
      hM k depth (by omega) hd]

/-! ## Every loop iteration consumes tokens -/

theorem parseArgs_iteration (fuel : Nat) (Args : List ExprAST) (s s1 : State) (Arg : ExprAST)
    (h : parseExpression fuel s = Outcome.ok Arg s1) (hc : currToken s1 = TOKEN_COMMA) :
    parseArgs (fuel + 1) Args s = parseArgs fuel (Args ++ [Arg]) (nextToken s1) ∧
      (nextToken s1).remaining < s.remaining := by
  refine ⟨by simp only [parseArgs, h, Outcome.ok_bind, hc], ?_⟩
  have h1 := (expr_progress fuel).2.2.2.2 _ _ _ h
  have h2 := remaining_nextToken_le s1
  omega

theorem binaryLoop_iteration (fuel : Nat) (P : Int) (R Right : ExprAST) (s s1 : State)
    {op : Char} (hc : currToken s = TOKEN_OP op) (hop : op ∈ BinaryOpSet)
    (hP : P < precedenceOf op)
    (h : parseBinaryExpression fuel (precedenceOf op) (nextToken s) = Outcome.ok Right s1) :
    binaryLoop (fuel + 1) P R s =
        binaryLoop fuel P (BinaryExpr op R Right) (s1.push_back (BinaryExpr op R Right)) ∧
      (s1.push_back (BinaryExpr op R Right)).remaining < s.remaining := by
  refine ⟨by rw [binaryLoop_op fuel P R s hc hop hP, h, Outcome.ok_bind], ?_⟩
  have h1 := (expr_progress fuel).2.2.1 _ _ _ _ h
  have h2 := remaining_nextToken_le s
  simp only [remaining_push_back]
  omega

theorem parseBlock_iteration (fuel : Nat) (Exprs : List ExprAST) (s s1 : State) (Expr : ExprAST)
    (hc : currToken (nextToken s) ≠ TOKEN_RBRACE)
    (h : parseStatement fuel (nextToken s) = Outcome.ok Expr s1) :
    parseBlock (fuel + 1) Exprs s = parseBlock fuel (Exprs ++ [Expr]) s1 ∧
      s1.remaining < s.remaining := by
  refine ⟨by simp only [parseBlock, if_neg hc, h, Outcome.ok_bind], ?_⟩
  have h1 := (stmt_progress fuel).1 _ _ _ h
  have h2 := remaining_nextToken_le s
  omega

theorem parseParams_iteration (fuel : Nat) (Args : List String) (s : State) {p : String}
    (hp : currToken s = TOKEN_IDENTIFIER p) (hc : currToken (nextToken s) = TOKEN_COMMA) :
    parseParams (fuel + 1) Args s = parseParams fuel (Args ++ [p]) (nextToken (nextToken s)) ∧
      (nextToken (nextToken s)).remaining < s.remaining := by
  refine ⟨by simp only [parseParams, hp, hc], ?_⟩
  have h1 := remaining_nextToken_lt s (by rw [hp]; simp)
  have h2 := remaining_nextToken_le (nextToken s)
  omega

/-! ## Settled outcomes, and the stack bound of units and programs -/

theorem Halts.settles {α : Type} {r : Nat → Outcome α} (h : Halts r)
    (hc : ∀ fuel, r fuel ≠ Outcome.contract) :
    ∃ N, (∀ fuel, N ≤ fuel → r fuel = Outcome.fatal) ∨
      ∃ a s', ∀ fuel, N ≤ fuel → r fuel = Outcome.ok a s' := by
  obtain ⟨N, o, ho, hN⟩ := h
  refine ⟨N, ?_⟩
  cases o with
  | ok a s' => exact Or.inr ⟨a, s', hN⟩
  | fatal => exact Or.inl hN
  | contract => exact absurd (hN N (le_refl N)) (hc N)
  | outOfFuel => exact absurd rfl ho

theorem parsePipelineD_unit {u : List Token} {n : Nat} (h : Nested Category.unit u n)
    (c0 : Token) (rest : List Token) (hrest : rest.head? ≠ some TOKEN_ELSE) :
    ∃ N e s', ∀ fuel depth, N ≤ fuel → 5 * n + 7 ≤ depth →
      parsePipelineD fuel depth (State.initial c0 (u ++ rest)) = Outcome.ok (some e) s' ∧
      parsePipeline fuel (State.initial c0 (u ++ rest)) = Outcome.ok (some e) s' := by
  obtain ⟨N, e, st', s', _, hN⟩ := nested_within h (State.initial c0 (u ++ rest)) rest []
    hrest (by simp [State.initial])
  refine ⟨N, e, s', fun fuel depth hf hd => ?_⟩
  have h1 := hN fuel depth hf hd
  exact ⟨h1, Outcome.refines_ok (parsePipelineD_refines fuel depth _) h1⟩

theorem parseMainD_units (units : List (List Token)) {n : Nat}
    (h : ∀ u, u ∈ units → Nested Category.unit u n) (c0 : Token) :
    ∃ N es storage, ∀ fuel depth, N ≤ fuel → 5 * n + 8 ≤ depth →
      parseMainD fuel depth (State.initial c0 (concatTokens units)) =
        Outcome.ok es ⟨TOKEN_EOF, none, [], storage⟩ ∧
      parseMain fuel (State.initial c0 (concatTokens units)) =
        Outcome.ok es ⟨TOKEN_EOF, none, [], storage⟩ := by
  obtain ⟨N, es, st', hN⟩ := parseMainLoopD_units units (fun u hu => nested_within (h u hu)) []
    (State.initial c0 (concatTokens units)) [] (by simp [State.initial])
  refine ⟨N, es, st', fun fuel depth hf hd => ?_⟩
  obtain ⟨j, rfl⟩ : ∃ j, depth = j + 1 := ⟨depth - 1, by omega⟩
  have h1 : parseMainD fuel (j + 1) (State.initial c0 (concatTokens units)) = _ :=
    hN fuel j hf (by omega)
  exact ⟨h1, Outcome.refines_ok (parseMainD_refines fuel (j + 1) _) h1⟩

/-! ## The tree lists the tokens in their order -/

theorem withoutPunctuation_append (a b : List Token) :
    withoutPunctuation (a ++ b) = withoutPunctuation a ++ withoutPunctuation b := by
  simp [withoutPunctuation]

theorem headD_cons_tail {toks : List Token} {t : Token} (h : toks.headD TOKEN_EOF = t)
    (ht : t ≠ TOKEN_EOF) : toks = t :: toks.tail := by
  cases toks with
  | nil => exact absurd h.symm ht
  | cons u us => simp at h; simp [h]

theorem inorderList_append (a b : List ExprAST) :
    inorderList (a ++ b) = inorderList a ++ inorderList b := by
  induction a with
  | nil => simp [inorderList]
  | cons e es ih => simp [inorderList, ih]

theorem expr_inorder (fuel : Nat) :
    (∀ toks st e s', parsePrimary fuel (State.reading toks st) = Outcome.ok e s' →
      ∃ consumed rest st', toks = consumed ++ rest ∧ s' = State.reading rest st' ∧
        e.inorder = withoutPunctuation consumed ∧ consumed.all isExpressionToken = true) ∧
    (∀ a toks st es s', parseArgs fuel a (State.reading toks st) = Outcome.ok es s' →
      ∃ new consumed rest st', es = a ++ new ∧ toks = consumed ++ TOKEN_RPAREN :: rest ∧
        s' = State.reading (TOKEN_RPAREN :: rest) st' ∧
        inorderList new = withoutPunctuation consumed ∧
        consumed.all isExpressionToken = true) ∧
    (∀ P toks st e s', parseBinaryExpression fuel P (State.reading toks st) = Outcome.ok e s' →
      ∃ consumed rest st', toks = consumed ++ rest ∧ s' = State.reading rest st' ∧
        e.inorder = withoutPunctuation consumed ∧ consumed.all isExpressionToken = true) ∧
    (∀ P R toks st e s', binaryLoop fuel P R (State.reading toks st) = Outcome.ok e s' →
      ∃ consumed rest st', toks = consumed ++ rest ∧ s' = State.reading rest st' ∧
        e.inorder = R.inorder ++ withoutPunctuation consumed ∧
        consumed.all isExpressionToken = true) ∧
    (∀ toks st e s', parseExpression fuel (State.reading toks st) = Outcome.ok e s' →
      ∃ consumed rest st', toks = consumed ++ rest ∧ s' = State.reading rest st' ∧
        e.inorder = withoutPunctuation consumed ∧ consumed.all isExpressionToken = true) := by
  induction fuel with
  | zero =>
    refine ⟨?_, ?_, ?_, ?_, ?_⟩ <;> intros <;> simp_all [parsePrimary, parseArgs,
      parseBinaryExpression, binaryLoop, parseExpression]
  | succ n ih =>
    obtain ⟨ih1, ih2, ih3, ih4, ih5⟩ := ih
    refine ⟨?_, ?_, ?_, ?_, ?_⟩
    · intro toks st e s' h
      simp only [parsePrimary, currToken_reading, nextToken_reading, push_back_reading] at h
      split at h
      · rename_i x hc
        have htoks := headD_cons_tail hc (by simp)
        split at h
        · cases h
          exact ⟨[TOKEN_IDENTIFIER x], toks.tail, _, htoks, rfl,
            by simp [ExprAST.inorder, withoutPunctuation, isPunctuation],
            by simp [isExpressionToken]⟩
        · rename_i hl
          simp only [ne_eq, not_not] at hl
          have htl := headD_cons_tail hl (by simp)
          split at h
          · cases hr : parseArgs n [] (State.reading toks.tail.tail st) with
            | ok a s2 =>
              rw [hr] at h
              obtain ⟨new, consumed, rest, st2, hnew, hsplit, hs2, hin, hall⟩ := ih2 _ _ _ _ _ hr
              subst hs2
              simp only [Outcome.ok_bind, push_back_reading, nextToken_reading, List.tail_cons,
                Outcome.ok.injEq] at h
              obtain ⟨he, hs'⟩ := h
              refine ⟨TOKEN_IDENTIFIER x :: TOKEN_LPAREN :: (consumed ++ [TOKEN_RPAREN]), rest, _,
                ?_, hs'.symm, ?_, ?_⟩
              · rw [htoks, htl, hsplit]; simp
              · rw [← he]
                simp only [List.nil_append] at hnew
                subst hnew
                simp [ExprAST.inorder, hin, withoutPunctuation, isPunctuation]
              · simp [isExpressionToken, isPunctuation, hall]
            | _ => rw [hr] at h; simp [Outcome.bind] at h
          · rename_i hrp
            simp only [ne_eq, not_not] at hrp
            have htl2 := headD_cons_tail hrp (by simp)
            simp only [Outcome.ok_bind, push_back_reading, nextToken_reading,
              Outcome.ok.injEq] at h
            obtain ⟨he, hs'⟩ := h
            refine ⟨[TOKEN_IDENTIFIER x, TOKEN_LPAREN, TOKEN_RPAREN], toks.tail.tail.tail, _,
              ?_, hs'.symm, ?_, ?_⟩
            · rw [List.cons_append, List.cons_append, List.cons_append, List.nil_append, ← htl2,
                ← htl, ← htoks]
            · rw [← he]
              simp [ExprAST.inorder, inorderList, withoutPunctuation, isPunctuation]
            · simp [isExpressionToken, isPunctuation]
      · rename_i v hc
        have htoks := headD_cons_tail hc (by simp)
        simp only [Outcome.ok.injEq] at h
        obtain ⟨he, hs'⟩ := h
        exact ⟨[TOKEN_NUMBER v], toks.tail, _, htoks, hs'.symm,
          by rw [← he]; simp [ExprAST.inorder, withoutPunctuation, isPunctuation],
          by simp [isExpressionToken]⟩
      · rename_i hc
        have htoks := headD_cons_tail hc (by simp)
        cases hr : parseExpression n (State.reading toks.tail st) with
        | ok a s2 =>
          rw [hr] at h
          obtain ⟨consumed, rest, st2, hsplit, hs2, hin, hall⟩ := ih5 _ _ _ _ hr
          subst hs2
          simp only [Outcome.ok_bind, currToken_reading, nextToken_reading] at h
          split at h
          · rename_i hrp
            have hrest := headD_cons_tail hrp (by simp)
            simp only [Outcome.ok.injEq] at h
            obtain ⟨he, hs'⟩ := h
            refine ⟨TOKEN_LPAREN :: (consumed ++ [TOKEN_RPAREN]), rest.tail, _, ?_, hs'.symm,
              ?_, ?_⟩
            · rw [htoks, hsplit]
              simp only [List.cons_append, List.append_assoc, List.nil_append, ← hrest]
            · rw [← he, hin]
              simp [withoutPunctuation, isPunctuation]
            · simp [isExpressionToken, isPunctuation, hall]
          · cases h
        | _ => rw [hr] at h; simp [Outcome.bind] at h
      · cases h
    · intro a toks st es s' h
      simp only [parseArgs] at h
      cases hr : parseExpression n (State.reading toks st) with
      | ok e s2 =>
        rw [hr] at h
        obtain ⟨consumed, rest, st2, hsplit, hs2, hin, hall⟩ := ih5 _ _ _ _ hr
        subst hs2
        simp only [Outcome.ok_bind, currToken_reading, nextToken_reading] at h
        split at h
        · rename_i hc
          have hrest := headD_cons_tail hc (by simp)
          obtain ⟨new, consumed2, rest2, st3, hnew, hsplit2, hs3, hin2, hall2⟩ :=
            ih2 _ _ _ _ _ h
          refine ⟨e :: new, consumed ++ TOKEN_COMMA :: consumed2, rest2, st3, ?_, ?_, hs3, ?_, ?_⟩
          · rw [hnew]; simp
          · rw [hsplit, hrest, hsplit2]; simp
          · simp [inorderList, hin, hin2, withoutPunctuation, isPunctuation]
          · simp [isExpressionToken, isPunctuation, hall, hall2]
        · rename_i hc
          have hrest := headD_cons_tail hc (by simp)
          simp only [Outcome.ok.injEq] at h
          obtain ⟨he, hs'⟩ := h
          refine ⟨[e], consumed, rest.tail, st2, he.symm, ?_, ?_, ?_, hall⟩
          · rw [hsplit, ← hrest]
          · rw [← hs', ← hrest]
          · simp [inorderList, hin]
        · cases h
      | _ => rw [hr] at h; simp [Outcome.bind] at h
    · intro P toks st e s' h
      simp only [parseBinaryExpression] at h
      cases hr : parsePrimary n (State.reading toks st) with
      | ok R s2 =>
        rw [hr] at h
        obtain ⟨consumed, rest, st2, hsplit, hs2, hin, hall⟩ := ih1 _ _ _ _ hr
        subst hs2
        simp only [Outcome.ok_bind] at h
        obtain ⟨consumed2, rest2, st3, hsplit2, hs3, hin2, hall2⟩ := ih4 _ _ _ _ _ _ h
        refine ⟨consumed ++ consumed2, rest2, st3, ?_, hs3, ?_, ?_⟩
        · rw [hsplit, hsplit2]; simp
        · rw [hin2, hin, withoutPunctuation_append]
        · simp [hall, hall2]
      | _ => rw [hr] at h; simp [Outcome.bind] at h
    · intro P R toks st e s' h
      have stop : Outcome.ok R (State.reading toks st) = Outcome.ok e s' →
          ∃ consumed rest st', toks = consumed ++ rest ∧ s' = State.reading rest st' ∧
            e.inorder = R.inorder ++ withoutPunctuation consumed ∧
            consumed.all isExpressionToken = true := by
        intro h
        simp only [Outcome.ok.injEq] at h
        exact ⟨[], toks, st, rfl, h.2.symm, by rw [← h.1]; simp [withoutPunctuation], rfl⟩
      simp only [binaryLoop, currToken_reading, nextToken_reading] at h
      split at h
      · rename_i op hc
        have htoks := headD_cons_tail hc (by simp)
        split at h
        · exact stop h
        · split at h
          · cases h
          · split at h
            · exact stop h
            · cases hr : parseBinaryExpression n _ (State.reading toks.tail st) with
              | ok Right s2 =>
                rw [hr] at h
                obtain ⟨consumed, rest, st2, hsplit, hs2, hin, hall⟩ := ih3 _ _ _ _ _ hr
                subst hs2
                simp only [Outcome.ok_bind, push_back_reading] at h
                obtain ⟨consumed2, rest2, st3, hsplit2, hs3, hin2, hall2⟩ :=
                  ih4 _ _ _ _ _ _ h
                refine ⟨TOKEN_OP op :: (consumed ++ consumed2), rest2, st3, ?_, hs3, ?_, ?_⟩
                · rw [htoks, hsplit, hsplit2]; simp
                · rw [hin2]
                  simp [ExprAST.inorder, hin, withoutPunctuation, isPunctuation]
                · simp [isExpressionToken, hall, hall2]
              | _ => rw [hr] at h; simp [Outcome.bind] at h
      · exact stop h
    · intro toks st e s' h
      simp only [parseExpression] at h
      exact ih3 _ _ _ _ _ h

theorem allExpressions_append (a b : List ExprAST) :
    allExpressions (a ++ b) = (allExpressions a && allExpressions b) := by
  induction a with
  | nil => simp [allExpressions]
  | cons e es ih => simp [allExpressions, ih, Bool.and_assoc]

theorem expr_isExpression (fuel : Nat) :
    (∀ s e s', parsePrimary fuel s = Outcome.ok e s' → isExpression e = true) ∧
    (∀ a s es s', parseArgs fuel a s = Outcome.ok es s' → allExpressions a = true →
      allExpressions es = true) ∧
    (∀ P s e s', parseBinaryExpression fuel P s = Outcome.ok e s' → isExpression e = true) ∧
    (∀ P R s e s', binaryLoop fuel P R s = Outcome.ok e s' → isExpression R = true →
      isExpression e = true) ∧
    (∀ s e s', parseExpression fuel s = Outcome.ok e s' → isExpression e = true) := by
  induction fuel with
  | zero =>
    refine ⟨?_, ?_, ?_, ?_, ?_⟩ <;> intros <;> simp_all [parsePrimary, parseArgs,
      parseBinaryExpression, binaryLoop, parseExpression]
  | succ n ih =>
    obtain ⟨ih1, ih2, ih3, ih4, ih5⟩ := ih
    refine ⟨?_, ?_, ?_, ?_, ?_⟩
    · intro s e s' h
      simp only [parsePrimary] at h
      split at h
      · split at h
        · cases h; rfl
        · split at h
          · cases hr : parseArgs n [] (nextToken (nextToken s)) with
            | ok a s2 =>
              rw [hr] at h
              simp only [Outcome.ok_bind, Outcome.ok.injEq] at h
              rw [← h.1]
              simpa [isExpression] using ih2 _ _ _ _ hr rfl
            | _ => rw [hr] at h; simp [Outcome.bind] at h
          · simp only [Outcome.ok_bind, Outcome.ok.injEq] at h
            rw [← h.1]
            rfl
      · cases h; rfl
      · cases hr : parseExpression n (nextToken s) with
        | ok a s2 =>
          rw [hr] at h
          simp only [Outcome.ok_bind] at h
          split at h
          · cases h; exact ih5 _ _ _ hr
          · cases h
        | _ => rw [hr] at h; simp [Outcome.bind] at h
      · cases h
    · intro a s es s' h ha
      simp only [parseArgs] at h
      cases hr : parseExpression n s with
      | ok e s2 =>
        rw [hr] at h
        simp only [Outcome.ok_bind] at h
        have he := ih5 _ _ _ hr
        have hae : allExpressions (a ++ [e]) = true := by
          simp [allExpressions_append, allExpressions, ha, he]
        split at h
        · exact ih2 _ _ _ _ h hae
        · cases h; exact hae
        · cases h
      | _ => rw [hr] at h; simp [Outcome.bind] at h
    · intro P s e s' h
      simp only [parseBinaryExpression] at h
      cases hr : parsePrimary n s with
      | ok R s2 =>
        rw [hr] at h
        exact ih4 _ _ _ _ _ h (ih1 _ _ _ hr)
      | _ => rw [hr] at h; simp [Outcome.bind] at h
    · intro P R s e s' h hR
      simp only [binaryLoop] at h
      split at h
      · split at h
        · cases h; exact hR
        · rename_i hop
          simp only [not_not] at hop
          split at h
          · cases h
          · split at h
            · cases h; exact hR
            · cases hr : parseBinaryExpression n _ (nextToken s) with
              | ok Right s2 =>
                rw [hr] at h
                refine ih4 _ _ _ _ _ h ?_
                simp [isExpression, hop, hR, ih3 _ _ _ _ hr]
              | _ => rw [hr] at h; simp [Outcome.bind] at h
      · cases h; exact hR
    · intro s e s' h
      simp only [parseExpression] at h
      exact ih3 _ _ _ _ h

/-! ## The option parser and the one output stream -/

/-- A second `-o` fails whatever its path: the static stream is already open. -/
theorem parseOptions_second_output_fails (stringSplit : String → Char → List String)
    (prog a b : String) (more : List String) :
    parseOptions stringSplit (fun _ => true) (prog :: "-o" :: a :: "-o" :: b :: more)
        global_option =
      OptionsResult.returned false
        { global_option with output_file := a, out_stream := StreamRef.file } := rfl

/-! ## The claims -/

/-- The chain `a - b` followed by the non-operator token `(`: on `a - b ( ) ;` the
identifier `b` is read with the following `(` `)` as a call, so `parseExpression`
returns `BinaryExpr(-, a, CallExpr b [])` with `;` current, and with no fuel the
left-nested tree `BinaryExpr(-, a, b)` of the chain. -/
theorem equal_precedence_chain_before_lparen_counterexample :
    (∀ x ∈ [('-', Operand.var "b")], x.1 = '+' ∨ x.1 = '-') ∧
    isOperator TOKEN_LPAREN = false ∧
    chainTokens (Operand.var "a") [('-', Operand.var "b")] ++
        TOKEN_LPAREN :: [TOKEN_RPAREN, TOKEN_SEMICOLON] =
      [TOKEN_IDENTIFIER "a", TOKEN_OP '-', TOKEN_IDENTIFIER "b", TOKEN_LPAREN, TOKEN_RPAREN,
        TOKEN_SEMICOLON] ∧
    leftNested (Operand.var "a").expr [('-', Operand.var "b")] =
      BinaryExpr '-' (VariableExpr "a") (VariableExpr "b") ∧
    (∀ fuel,
      parseExpression (fuel + 5) (State.reading
          (chainTokens (Operand.var "a") [('-', Operand.var "b")] ++
            TOKEN_LPAREN :: [TOKEN_RPAREN, TOKEN_SEMICOLON]) []) =
        Outcome.ok (BinaryExpr '-' (VariableExpr "a") (CallExpr "b" []))
          ⟨TOKEN_SEMICOLON, none, [],
            [VariableExpr "a", CallExpr "b" [],
              BinaryExpr '-' (VariableExpr "a") (CallExpr "b" [])]⟩) ∧
    (∀ fuel s',
      parseExpression fuel (State.reading
          (chainTokens (Operand.var "a") [('-', Operand.var "b")] ++
            TOKEN_LPAREN :: [TOKEN_RPAREN, TOKEN_SEMICOLON]) []) ≠
        Outcome.ok (leftNested (Operand.var "a").expr [('-', Operand.var "b")]) s') := by
  have h5 : parseExpression 5 (State.reading
      (chainTokens (Operand.var "a") [('-', Operand.var "b")] ++
        TOKEN_LPAREN :: [TOKEN_RPAREN, TOKEN_SEMICOLON]) []) =
      Outcome.ok (BinaryExpr '-' (VariableExpr "a") (CallExpr "b" []))
        ⟨TOKEN_SEMICOLON, none, [],
          [VariableExpr "a", CallExpr "b" [],
            BinaryExpr '-' (VariableExpr "a") (CallExpr "b" [])]⟩ := rfl
  refine ⟨by simp, rfl, rfl, rfl,
    fun fuel => parseExpression_mono_ok (Nat.le_add_left 5 fuel) h5, fun fuel s' h => ?_⟩
  have a := parseExpression_mono_ok (Nat.le_max_left fuel 5) h
  have b := parseExpression_mono_ok (Nat.le_max_right fuel 5) h5
  rw [a] at b
  simp [leftNested, Operand.expr] at b

/-- Claim C1, amended: a chain `p0 op1 p1 ... opn pn` of number/variable operands
whose operators all come from `+`, `-` or all come from `*`, `/`, followed by a
token that is not an operator and, when the last operand `pn` is a variable, is
not `(` (`hlast`: an identifier followed by `(` starts a call), makes
`parseExpression` return the left-nested tree
`BinaryExpr(opn, ... BinaryExpr(op1, p0, p1) ..., pn)`, with that token current
and exactly the nodes of the tree registered. -/
theorem parseExpression_equal_precedence_left_nested
    (p0 : Operand) (ops : List (Char × Operand)) (next : Token) (rest : List Token)
    (storage : List ExprAST)
    (hops : (∀ x ∈ ops, x.1 = '+' ∨ x.1 = '-') ∨ (∀ x ∈ ops, x.1 = '*' ∨ x.1 = '/'))
    (hnext : isOperator next = false)
    (hlast : ∀ n, chainLast p0 ops = Operand.var n → next ≠ TOKEN_LPAREN)
    (fuel : Nat) (hfuel : 2 * ops.length + 4 ≤ fuel) :
    parseExpression fuel (State.reading (chainTokens p0 ops ++ next :: rest) storage) =
      Outcome.ok (leftNested p0.expr ops)
        ⟨next, none, rest, storage ++ (leftNested p0.expr ops).nodes⟩ := by
  obtain ⟨k, rfl⟩ : ∃ k, fuel = k + 3 := ⟨fuel - 3, by omega⟩
  have hb := isBinaryOp_of_isOperator hnext
  have hprim : ∀ n, p0 = Operand.var n →
      (opsTokens ops ++ next :: rest).head? ≠ some TOKEN_LPAREN := by
    intro n hn
    cases ops with
    | nil => simpa [opsTokens] using hlast n (by simpa [chainLast] using hn)
    | cons y l => simp [opsTokens]
  have hl : ∀ x l n, ops = x :: l → chainLast x.2 l = Operand.var n → next ≠ TOKEN_LPAREN := by
    intro x l n hx hn
    exact hlast n (by subst hx; simpa [chainLast] using hn)
  have key : ∃ q : Int, 0 < q ∧ ∀ x ∈ ops, x.1 ∈ BinaryOpSet ∧ precedenceOf x.1 = q := by
    rcases hops with h | h
    · refine ⟨10, by decide, fun x hx => ?_⟩
      rcases h x hx with h' | h' <;> rw [h'] <;> decide
    · refine ⟨20, by decide, fun x hx => ?_⟩
      rcases h x hx with h' | h' <;> rw [h'] <;> decide
  obtain ⟨q, hq, hall⟩ := key
  have hloop := binaryLoop_leftNested q 0 hq next rest hb ops p0.expr storage (k + 1) hall hl
    (by omega)
  rw [(operand_leaf p0).1] at hloop
  simp only [chainTokens, List.cons_append]
  rw [parseExpression_succ, parseBinaryExpression_succ, parsePrimary_operand _ _ _ hprim,
    Outcome.ok_bind, hloop]

/-- Witness of C1: `a-b-c ;` parses to `(a-b)-c` and `a/b/c ;` to `(a/b)/c`. -/
theorem parseExpression_equal_precedence_left_nested_witness :
    parseExpression 8 (State.reading [TOKEN_IDENTIFIER "a", TOKEN_OP '-', TOKEN_IDENTIFIER "b",
        TOKEN_OP '-', TOKEN_IDENTIFIER "c", TOKEN_SEMICOLON] []) =
      Outcome.ok
        (BinaryExpr '-' (BinaryExpr '-' (VariableExpr "a") (VariableExpr "b")) (VariableExpr "c"))
        ⟨TOKEN_SEMICOLON, none, [],
          [VariableExpr "a", VariableExpr "b", BinaryExpr '-' (VariableExpr "a") (VariableExpr "b"),
            VariableExpr "c",
            BinaryExpr '-' (BinaryExpr '-' (VariableExpr "a") (VariableExpr "b"))
              (VariableExpr "c")]⟩ ∧
    parseExpression 8 (State.reading [TOKEN_IDENTIFIER "a", TOKEN_OP '/', TOKEN_IDENTIFIER "b",
        TOKEN_OP '/', TOKEN_IDENTIFIER "c", TOKEN_SEMICOLON] []) =
      Outcome.ok
        (BinaryExpr '/' (BinaryExpr '/' (VariableExpr "a") (VariableExpr "b")) (VariableExpr "c"))
        ⟨TOKEN_SEMICOLON, none, [],
          [VariableExpr "a", VariableExpr "b", BinaryExpr '/' (VariableExpr "a") (VariableExpr "b"),
            VariableExpr "c",
            BinaryExpr '/' (BinaryExpr '/' (VariableExpr "a") (VariableExpr "b"))
              (VariableExpr "c")]⟩ :=
  ⟨parseExpression_equal_precedence_left_nested (Operand.var "a")
      [('-', Operand.var "b"), ('-', Operand.var "c")] TOKEN_SEMICOLON [] []
      (Or.inl (by simp)) rfl (by simp) 8 (by decide),
    parseExpression_equal_precedence_left_nested (Operand.var "a")
      [('/', Operand.var "b"), ('/', Operand.var "c")] TOKEN_SEMICOLON [] []
      (Or.inr (by simp)) rfl (by simp) 8 (by decide)⟩

/-- The chain `a - b` followed by the non-operator token `(`: on `a - b ( ;` the
identifier `b` starts a call whose argument list is malformed and
`parseExpression` aborts, returning no tree; on `a - b ( ( 1 + 2 ) * 3 ) ;` it
returns `BinaryExpr(-, a, CallExpr b [BinaryExpr(*, BinaryExpr(+,1,2), 3)])`, a
tree that is not precedence-ordered: the `*` node has the left child `+`, of
lower precedence. -/
theorem chain_before_lparen_not_ordered_counterexample :
    (∀ x ∈ [('-', Operand.var "b")], x.1 ∈ BinaryOpSet) ∧
    isOperator TOKEN_LPAREN = false ∧
    chainTokens (Operand.var "a") [('-', Operand.var "b")] =
      [TOKEN_IDENTIFIER "a", TOKEN_OP '-', TOKEN_IDENTIFIER "b"] ∧
    (∀ fuel,
      parseExpression (fuel + 9) (State.reading
          (chainTokens (Operand.var "a") [('-', Operand.var "b")] ++
            TOKEN_LPAREN :: [TOKEN_SEMICOLON]) []) = Outcome.fatal) ∧
    (∀ fuel,
      parseExpression (fuel + 14) (State.reading
          (chainTokens (Operand.var "a") [('-', Operand.var "b")] ++
            TOKEN_LPAREN :: [TOKEN_LPAREN, TOKEN_NUMBER 1, TOKEN_OP '+', TOKEN_NUMBER 2,
              TOKEN_RPAREN, TOKEN_OP '*', TOKEN_NUMBER 3, TOKEN_RPAREN, TOKEN_SEMICOLON]) []) =
        Outcome.ok
          (BinaryExpr '-' (VariableExpr "a")
            (CallExpr "b"
              [BinaryExpr '*' (BinaryExpr '+' (NumberExpr 1) (NumberExpr 2)) (NumberExpr 3)]))
          ⟨TOKEN_SEMICOLON, none, [],
            [VariableExpr "a", NumberExpr 1, NumberExpr 2,
              BinaryExpr '+' (NumberExpr 1) (NumberExpr 2), NumberExpr 3,
              BinaryExpr '*' (BinaryExpr '+' (NumberExpr 1) (NumberExpr 2)) (NumberExpr 3),
              CallExpr "b"
                [BinaryExpr '*' (BinaryExpr '+' (NumberExpr 1) (NumberExpr 2)) (NumberExpr 3)],
              BinaryExpr '-' (VariableExpr "a")
                (CallExpr "b"
                  [BinaryExpr '*' (BinaryExpr '+' (NumberExpr 1) (NumberExpr 2))
                    (NumberExpr 3)])]⟩) ∧
    precedenceOrdered
        (BinaryExpr '-' (VariableExpr "a")
          (CallExpr "b"
            [BinaryExpr '*' (BinaryExpr '+' (NumberExpr 1) (NumberExpr 2)) (NumberExpr 3)])) =
      false ∧
    (∀ fuel T s',
      parseExpression fuel (State.reading
          (chainTokens (Operand.var "a") [('-', Operand.var "b")] ++
            TOKEN_LPAREN :: [TOKEN_LPAREN, TOKEN_NUMBER 1, TOKEN_OP '+', TOKEN_NUMBER 2,
              TOKEN_RPAREN, TOKEN_OP '*', TOKEN_NUMBER 3, TOKEN_RPAREN, TOKEN_SEMICOLON]) []) =
        Outcome.ok T s' → precedenceOrdered T = false) := by
  have h14 : parseExpression 14 (State.reading
      (chainTokens (Operand.var "a") [('-', Operand.var "b")] ++
        TOKEN_LPAREN :: [TOKEN_LPAREN, TOKEN_NUMBER 1, TOKEN_OP '+', TOKEN_NUMBER 2,
          TOKEN_RPAREN, TOKEN_OP '*', TOKEN_NUMBER 3, TOKEN_RPAREN, TOKEN_SEMICOLON]) []) =
      Outcome.ok
        (BinaryExpr '-' (VariableExpr "a")
          (CallExpr "b"
            [BinaryExpr '*' (BinaryExpr '+' (NumberExpr 1) (NumberExpr 2)) (NumberExpr 3)]))
        ⟨TOKEN_SEMICOLON, none, [],
          [VariableExpr "a", NumberExpr 1, NumberExpr 2,
            BinaryExpr '+' (NumberExpr 1) (NumberExpr 2), NumberExpr 3,
            BinaryExpr '*' (BinaryExpr '+' (NumberExpr 1) (NumberExpr 2)) (NumberExpr 3),
            CallExpr "b"
              [BinaryExpr '*' (BinaryExpr '+' (NumberExpr 1) (NumberExpr 2)) (NumberExpr 3)],
            BinaryExpr '-' (VariableExpr "a")
              (CallExpr "b"
                [BinaryExpr '*' (BinaryExpr '+' (NumberExpr 1) (NumberExpr 2))
                  (NumberExpr 3)])]⟩ := by
    simp [parseExpression, parseBinaryExpression, parsePrimary, parseArgs, binaryLoop,
      chainTokens, opsTokens, Operand.token, BinaryOpSet, OpPrecedenceMap, List.lookup,
      Outcome.bind, State.push_back]
  have h9 : parseExpression 9 (State.reading
      (chainTokens (Operand.var "a") [('-', Operand.var "b")] ++
        TOKEN_LPAREN :: [TOKEN_SEMICOLON]) []) = Outcome.fatal := by
    simp [parseExpression, parseBinaryExpression, parsePrimary, parseArgs, binaryLoop,
      chainTokens, opsTokens, Operand.token, BinaryOpSet, OpPrecedenceMap, List.lookup,
      Outcome.bind, State.push_back]
  refine ⟨by simp [BinaryOpSet], rfl, rfl, fun fuel => ?_,
    fun fuel => parseExpression_mono_ok (Nat.le_add_left 14 fuel) h14, by decide,
    fun fuel T s' h => ?_⟩
  · rw [Outcome.refines_eq (parseExpression_mono (Nat.le_add_left 9 fuel) _)
      (by rw [h9]; simp), h9]
  · have a := parseExpression_mono_ok (Nat.le_max_left fuel 14) h
    have b := parseExpression_mono_ok (Nat.le_max_right fuel 14) h14
    rw [a] at b
    simp only [Outcome.ok.injEq] at b
    rw [b.1]
    decide

/-- Claim C2, amended: for every parenthesis-free chain `p0 op1 p1 ... opn pn` of
number/variable operands joined by operators of `+`, `-`, `*`, `/` and followed
by a token that is not an operator and, when the last operand `pn` is a
variable, is not `(`, `parseExpression` returns a tree (consuming the whole
chain) in which every `BinaryExpr` whose right child is a `BinaryExpr` has a
right-child operator of strictly higher precedence and every `BinaryExpr` whose
left child is a `BinaryExpr` has a left-child operator of equal or higher
precedence; `1+2*3` gives `BinaryExpr(+, 1, BinaryExpr(*,2,3))` and `1*2+3` gives
`BinaryExpr(+, BinaryExpr(*,1,2), 3)`. -/
theorem parseExpression_chain_precedence_ordered :
    (∀ (p0 : Operand) (ops : List (Char × Operand)) (next : Token) (rest : List Token)
      (storage : List ExprAST),
      (∀ x ∈ ops, x.1 ∈ BinaryOpSet) → isOperator next = false →
      (∀ n, chainLast p0 ops = Operand.var n → next ≠ TOKEN_LPAREN) →
      ∃ T, (∀ fuel, 2 * ops.length + 4 ≤ fuel →
          parseExpression fuel (State.reading (chainTokens p0 ops ++ next :: rest) storage) =
            Outcome.ok T ⟨next, none, rest, storage ++ T.nodes⟩) ∧
        precedenceOrdered T = true) ∧
    (∀ fuel,
      parseExpression (fuel + 8) (State.reading [TOKEN_NUMBER 1, TOKEN_OP '+', TOKEN_NUMBER 2,
          TOKEN_OP '*', TOKEN_NUMBER 3, TOKEN_SEMICOLON] []) =
        Outcome.ok (BinaryExpr '+' (NumberExpr 1) (BinaryExpr '*' (NumberExpr 2) (NumberExpr 3)))
          ⟨TOKEN_SEMICOLON, none, [],
            [NumberExpr 1, NumberExpr 2, NumberExpr 3,
              BinaryExpr '*' (NumberExpr 2) (NumberExpr 3),
              BinaryExpr '+' (NumberExpr 1) (BinaryExpr '*' (NumberExpr 2) (NumberExpr 3))]⟩) ∧
    (∀ fuel,
      parseExpression (fuel + 8) (State.reading [TOKEN_NUMBER 1, TOKEN_OP '*', TOKEN_NUMBER 2,
          TOKEN_OP '+', TOKEN_NUMBER 3, TOKEN_SEMICOLON] []) =
        Outcome.ok (BinaryExpr '+' (BinaryExpr '*' (NumberExpr 1) (NumberExpr 2)) (NumberExpr 3))
          ⟨TOKEN_SEMICOLON, none, [],
            [NumberExpr 1, NumberExpr 2, BinaryExpr '*' (NumberExpr 1) (NumberExpr 2),
              NumberExpr 3,
              BinaryExpr '+' (BinaryExpr '*' (NumberExpr 1) (NumberExpr 2)) (NumberExpr 3)]⟩) := by
  refine ⟨?_, fun fuel => parseExpression_mono_ok (Nat.le_add_left 8 fuel) rfl,
    fun fuel => parseExpression_mono_ok (Nat.le_add_left 8 fuel) rfl⟩
  intro p0 ops next rest storage hops hnext hlast
  have hb := isBinaryOp_of_isOperator hnext
  have hprim : ∀ n, p0 = Operand.var n →
      (opsTokens ops ++ next :: rest).head? ≠ some TOKEN_LPAREN := by
    intro n hn
    cases ops with
    | nil => simpa [opsTokens] using hlast n (by simpa [chainLast] using hn)
    | cons y l => simp [opsTokens]
  have hl : ∀ x l n, ops = x :: l → chainLast x.2 l = Operand.var n → next ≠ TOKEN_LPAREN := by
    intro x l n hx hn
    exact hlast n (by subst hx; simpa [chainLast] using hn)
  obtain ⟨T, o1, o2, ho, hrun, hT, _, hstop⟩ :=
    binaryLoop_chain next rest hb ops.length ops 0 p0.expr storage (2 * ops.length + 1)
      (le_refl _) (le_refl _) hops hl (operand_leaf p0).2.2
      (fun q hq => by rw [(operand_leaf p0).2.1] at hq; cases hq)
  have ho2 : o2 = [] := by
    cases o2 with
    | nil => rfl
    | cons y l =>
      have h1 := hstop y l rfl
      have h2 := (lookup_of_mem (hops y (by simp [ho]))).2
      omega
  subst ho2
  refine ⟨T, fun fuel hf => ?_, hT⟩
  obtain ⟨k, rfl⟩ : ∃ k, fuel = k + 3 := ⟨fuel - 3, by omega⟩
  rw [(operand_leaf p0).1] at hrun
  have hrun' := Outcome.refines_ok
    ((expr_mono (2 * ops.length + 1) (k + 1) (by omega)).2.2.2.1 0 p0.expr _) hrun
  simp only [chainTokens, List.cons_append]
  rw [parseExpression_succ, parseBinaryExpression_succ, parsePrimary_operand _ _ _ hprim,
    Outcome.ok_bind, hrun']
  simp [opsTokens]

/-- Witness of C2: the chain `1 + x * 3 - 4` followed by `)`. -/
theorem parseExpression_chain_precedence_ordered_witness :
    ∃ T, (∀ fuel, 10 ≤ fuel →
        parseExpression fuel (State.reading
          [TOKEN_NUMBER 1, TOKEN_OP '+', TOKEN_IDENTIFIER "x", TOKEN_OP '*', TOKEN_NUMBER 3,
            TOKEN_OP '-', TOKEN_NUMBER 4, TOKEN_RPAREN] []) =
          Outcome.ok T ⟨TOKEN_RPAREN, none, [], [] ++ T.nodes⟩) ∧
      precedenceOrdered T = true :=
  parseExpression_chain_precedence_ordered.1 (Operand.num 1)
    [('+', Operand.var "x"), ('*', Operand.num 3), ('-', Operand.num 4)] TOKEN_RPAREN [] []
    (by simp [BinaryOpSet]) rfl (by simp [chainLast])

/-- Claim C3: parenthesization overrides precedence and creates no node.  For
every expression tree `t` built from `NumberExpr`, `VariableExpr`, `CallExpr` and
`BinaryExpr` over `+`, `-`, `*`, `/`, `parseExpression` on the tokens of `t` with
every `BinaryExpr` wrapped in `(` `)`, followed by `;`, returns exactly `t` and
registers exactly the nodes of `t`; `(1+2)*3` gives
`BinaryExpr(*, BinaryExpr(+,1,2), 3)`. -/
theorem parseExpression_parenthesized_roundtrip :
    (∀ t : ExprAST, isExpression t = true → ∀ (rest : List Token) (storage : List ExprAST),
      ∃ N, ∀ fuel, N ≤ fuel →
        parseExpression fuel (State.reading (render t ++ TOKEN_SEMICOLON :: rest) storage) =
          Outcome.ok t ⟨TOKEN_SEMICOLON, none, rest, storage ++ t.nodes⟩) ∧
    (∀ fuel,
      parseExpression (fuel + 10) (State.reading [TOKEN_LPAREN, TOKEN_NUMBER 1, TOKEN_OP '+',
          TOKEN_NUMBER 2, TOKEN_RPAREN, TOKEN_OP '*', TOKEN_NUMBER 3, TOKEN_SEMICOLON] []) =
        Outcome.ok (BinaryExpr '*' (BinaryExpr '+' (NumberExpr 1) (NumberExpr 2)) (NumberExpr 3))
          ⟨TOKEN_SEMICOLON, none, [],
            [NumberExpr 1, NumberExpr 2, BinaryExpr '+' (NumberExpr 1) (NumberExpr 2),
              NumberExpr 3,
              BinaryExpr '*' (BinaryExpr '+' (NumberExpr 1) (NumberExpr 2)) (NumberExpr 3)]⟩) :=
  ⟨fun t ht rest storage =>
      expr_of_primary (primary_render t ht) TOKEN_SEMICOLON rest storage (by simp) rfl,
    fun fuel => parseExpression_mono_ok (Nat.le_add_left 10 fuel) rfl⟩

/-- Witness of C3: the tree of `(1+x)*f(3, 4-5)`, rendered as
`( ( 1 + x ) * f ( 3 , ( 4 - 5 ) ) )`. -/
theorem parseExpression_parenthesized_roundtrip_witness :
    ∃ N, ∀ fuel, N ≤ fuel →
      parseExpression fuel (State.reading
          [TOKEN_LPAREN, TOKEN_LPAREN, TOKEN_NUMBER 1, TOKEN_OP '+', TOKEN_IDENTIFIER "x",
            TOKEN_RPAREN, TOKEN_OP '*', TOKEN_IDENTIFIER "f", TOKEN_LPAREN, TOKEN_NUMBER 3,
            TOKEN_COMMA, TOKEN_LPAREN, TOKEN_NUMBER 4, TOKEN_OP '-', TOKEN_NUMBER 5,
            TOKEN_RPAREN, TOKEN_RPAREN, TOKEN_RPAREN, TOKEN_SEMICOLON] []) =
        Outcome.ok (BinaryExpr '*' (BinaryExpr '+' (NumberExpr 1) (VariableExpr "x"))
            (CallExpr "f" [NumberExpr 3, BinaryExpr '-' (NumberExpr 4) (NumberExpr 5)]))
          ⟨TOKEN_SEMICOLON, none, [],
            [NumberExpr 1, VariableExpr "x", BinaryExpr '+' (NumberExpr 1) (VariableExpr "x"),
              NumberExpr 3, NumberExpr 4, NumberExpr 5,
              BinaryExpr '-' (NumberExpr 4) (NumberExpr 5),
              CallExpr "f" [NumberExpr 3, BinaryExpr '-' (NumberExpr 4) (NumberExpr 5)],
              BinaryExpr '*' (BinaryExpr '+' (NumberExpr 1) (VariableExpr "x"))
                (CallExpr "f" [NumberExpr 3, BinaryExpr '-' (NumberExpr 4) (NumberExpr 5)])]⟩ :=
  parseExpression_parenthesized_roundtrip.1
    (BinaryExpr '*' (BinaryExpr '+' (NumberExpr 1) (VariableExpr "x"))
      (CallExpr "f" [NumberExpr 3, BinaryExpr '-' (NumberExpr 4) (NumberExpr 5)]))
    (by decide) [] []

/-- Counterexample to claim C4 as stated: `1` and `2` are expressions,
`if ( 3 ) 4 ;` is a statement with tree `IfExpr(3, 4, no else)` and `5 ;` is a
statement with tree `5`, yet on `if ( 1 ) if ( 2 ) if ( 3 ) 4 ; else 5 ;` the
function `parseStatement` returns
`IfExpr(1, IfExpr(2, IfExpr(3, 4, 5), no else), no else)`: the `else` goes to the
innermost `if`, and with no fuel is the claimed tree
`IfExpr(1, IfExpr(2, IfExpr(3, 4, no else), 5), no else)` returned. -/
theorem dangling_else_inner_if_counterexample :
    ExprTokens [TOKEN_NUMBER 1] (NumberExpr 1) ∧
    ExprTokens [TOKEN_NUMBER 2] (NumberExpr 2) ∧
    StmtTokens [TOKEN_IF, TOKEN_LPAREN, TOKEN_NUMBER 3, TOKEN_RPAREN, TOKEN_NUMBER 4,
      TOKEN_SEMICOLON] (IfExpr (NumberExpr 3) (NumberExpr 4) none) ∧
    StmtTokens [TOKEN_NUMBER 5, TOKEN_SEMICOLON] (NumberExpr 5) ∧
    (∀ fuel,
      parseStatement (fuel + 7) (State.reading
        ([TOKEN_IF, TOKEN_LPAREN] ++ [TOKEN_NUMBER 1] ++ [TOKEN_RPAREN] ++
          [TOKEN_IF, TOKEN_LPAREN] ++ [TOKEN_NUMBER 2] ++ [TOKEN_RPAREN] ++
          [TOKEN_IF, TOKEN_LPAREN, TOKEN_NUMBER 3, TOKEN_RPAREN, TOKEN_NUMBER 4,
            TOKEN_SEMICOLON] ++
          [TOKEN_ELSE] ++ [TOKEN_NUMBER 5, TOKEN_SEMICOLON]) []) =
        Outcome.ok
          (IfExpr (NumberExpr 1)
            (IfExpr (NumberExpr 2)
              (IfExpr (NumberExpr 3) (NumberExpr 4) (some (NumberExpr 5))) none) none)
          ⟨TOKEN_EOF, some TOKEN_EOF, [],
            [NumberExpr 1, NumberExpr 2, NumberExpr 3, NumberExpr 4, NumberExpr 5,
              IfExpr (NumberExpr 3) (NumberExpr 4) (some (NumberExpr 5)),
              IfExpr (NumberExpr 2)
                (IfExpr (NumberExpr 3) (NumberExpr 4) (some (NumberExpr 5))) none,
              IfExpr (NumberExpr 1)
                (IfExpr (NumberExpr 2)
                  (IfExpr (NumberExpr 3) (NumberExpr 4) (some (NumberExpr 5))) none)
                none]⟩) ∧
    (∀ fuel s',
      parseStatement fuel (State.reading
        ([TOKEN_IF, TOKEN_LPAREN] ++ [TOKEN_NUMBER 1] ++ [TOKEN_RPAREN] ++
          [TOKEN_IF, TOKEN_LPAREN] ++ [TOKEN_NUMBER 2] ++ [TOKEN_RPAREN] ++
          [TOKEN_IF, TOKEN_LPAREN, TOKEN_NUMBER 3, TOKEN_RPAREN, TOKEN_NUMBER 4,
            TOKEN_SEMICOLON] ++
          [TOKEN_ELSE] ++ [TOKEN_NUMBER 5, TOKEN_SEMICOLON]) []) ≠
        Outcome.ok
          (IfExpr (NumberExpr 1)
            (IfExpr (NumberExpr 2)
              (IfExpr (NumberExpr 3) (NumberExpr 4) none) (some (NumberExpr 5))) none) s') := by
  have h5 : StmtTokens [TOKEN_NUMBER 5, TOKEN_SEMICOLON] (NumberExpr 5) :=
    stmt_of_closed (closed_expr (expr_number 5))
  have h4 : StmtTokens [TOKEN_NUMBER 4, TOKEN_SEMICOLON] (NumberExpr 4) :=
    stmt_of_closed (closed_expr (expr_number 4))
  refine ⟨expr_number 1, expr_number 2, stmt_if (expr_number 3) h4, h5,
    fun fuel => parseStatement_mono_ok (Nat.le_add_left 7 fuel) rfl, fun fuel s' h => ?_⟩
  have h7 : parseStatement 7 (State.reading
      ([TOKEN_IF, TOKEN_LPAREN] ++ [TOKEN_NUMBER 1] ++ [TOKEN_RPAREN] ++
        [TOKEN_IF, TOKEN_LPAREN] ++ [TOKEN_NUMBER 2] ++ [TOKEN_RPAREN] ++
        [TOKEN_IF, TOKEN_LPAREN, TOKEN_NUMBER 3, TOKEN_RPAREN, TOKEN_NUMBER 4,
          TOKEN_SEMICOLON] ++
        [TOKEN_ELSE] ++ [TOKEN_NUMBER 5, TOKEN_SEMICOLON]) []) = _ := rfl
  have := parseStatement_unique h h7
  simp at this

/-- Claim C4, amended: for all expressions `c1`, `c2`, every self-delimiting
statement `s` (one that `parseStatement` consumes in the same way whatever
follows it, so not one ending in an `if` without `else`) and every statement `t`,
`parseStatement` on `if ( c1 ) if ( c2 ) s else t`, not followed by a further
`else`, returns `IfExpr(c1, IfExpr(c2, s, t), no else)`: the outer `if` has no
else-branch and the else-branch of the inner `if` is `t`. -/
theorem parseStatement_dangling_else (c1 c2 s t : List Token) (e1 e2 es et : ExprAST)
    (h1 : ExprTokens c1 e1) (h2 : ExprTokens c2 e2)
    (hs : ClosedStmtTokens s es) (ht : StmtTokens t et)
    (rest : List Token) (storage : List ExprAST) (hrest : rest.head? ≠ some TOKEN_ELSE) :
    ∃ N, ∀ fuel, N ≤ fuel →
      ∃ s', parseStatement fuel (State.reading
          (TOKEN_IF :: TOKEN_LPAREN :: (c1 ++ TOKEN_RPAREN ::
            TOKEN_IF :: TOKEN_LPAREN :: (c2 ++ TOKEN_RPAREN :: (s ++ TOKEN_ELSE :: t))) ++ rest)
          storage) =
          Outcome.ok (IfExpr e1 (IfExpr e2 es (some et)) none) s' ∧
        nextToken s' =
          State.reading rest (storage ++ (IfExpr e1 (IfExpr e2 es (some et)) none).nodes) :=
  stmt_if h1 (stmt_if_else h2 hs ht) rest storage hrest

/-- Witness of C4 (amended): `if ( 1 ) if ( 2 ) 3 ; else 4 ;`. -/
theorem parseStatement_dangling_else_witness :
    ∃ N, ∀ fuel, N ≤ fuel →
      ∃ s', parseStatement fuel (State.reading
          [TOKEN_IF, TOKEN_LPAREN, TOKEN_NUMBER 1, TOKEN_RPAREN, TOKEN_IF, TOKEN_LPAREN,
            TOKEN_NUMBER 2, TOKEN_RPAREN, TOKEN_NUMBER 3, TOKEN_SEMICOLON, TOKEN_ELSE,
            TOKEN_NUMBER 4, TOKEN_SEMICOLON] []) =
          Outcome.ok (IfExpr (NumberExpr 1)
            (IfExpr (NumberExpr 2) (NumberExpr 3) (some (NumberExpr 4))) none) s' ∧
        nextToken s' = State.reading []
          [NumberExpr 1, NumberExpr 2, NumberExpr 3, NumberExpr 4,
            IfExpr (NumberExpr 2) (NumberExpr 3) (some (NumberExpr 4)),
            IfExpr (NumberExpr 1)
              (IfExpr (NumberExpr 2) (NumberExpr 3) (some (NumberExpr 4))) none] :=
  parseStatement_dangling_else [TOKEN_NUMBER 1] [TOKEN_NUMBER 2]
    [TOKEN_NUMBER 3, TOKEN_SEMICOLON] [TOKEN_NUMBER 4, TOKEN_SEMICOLON]
    (NumberExpr 1) (NumberExpr 2) (NumberExpr 3) (NumberExpr 4)
    (expr_number 1) (expr_number 2) (closed_expr (expr_number 3))
    (stmt_of_closed (closed_expr (expr_number 4))) [] [] (by simp)

/-- Claim C5, the code at the failing input `1 ; ; 2 ;`: `parseMain` returns only
the unit `1` and stops at the bare `;` with `2 ;` still unread (the claim has
both units in the result), while the loop of `interactiveMain` on the same input
hands both units `1` and `2` on and stops at end-of-input. -/
theorem parseMain_stops_at_bare_semicolon (c0 : Token) (fuel : Nat) :
    parseMain (fuel + 5) (State.initial c0 [TOKEN_NUMBER 1, TOKEN_SEMICOLON, TOKEN_SEMICOLON,
        TOKEN_NUMBER 2, TOKEN_SEMICOLON]) =
      Outcome.ok [NumberExpr 1]
        ⟨TOKEN_SEMICOLON, none, [TOKEN_NUMBER 2, TOKEN_SEMICOLON], [NumberExpr 1]⟩ ∧
    interactiveMain (fuel + 7) (State.initial c0 [TOKEN_NUMBER 1, TOKEN_SEMICOLON,
        TOKEN_SEMICOLON, TOKEN_NUMBER 2, TOKEN_SEMICOLON]) =
      Outcome.ok [NumberExpr 1, NumberExpr 2]
        ⟨TOKEN_EOF, none, [], [NumberExpr 1, NumberExpr 2]⟩ :=
  ⟨Outcome.refines_ok (parseMainLoop_mono 5 (fuel + 5) (by omega) _ _) rfl,
    Outcome.refines_ok (interactiveMainLoop_mono 7 (fuel + 7) (by omega) _ _) rfl⟩

/-- Claim C6: `parseMain` on an empty input (the first token is end-of-input)
returns the empty sequence, and on an input that is a lone `;` it returns the
empty sequence as well, in both cases without a fatal abort and with any
positive fuel. -/
theorem parseMain_empty_and_lone_semicolon (c0 : Token) (fuel : Nat) :
    parseMain (fuel + 1) (State.initial c0 []) = Outcome.ok [] ⟨TOKEN_EOF, none, [], []⟩ ∧
    parseMain (fuel + 1) (State.initial c0 [TOKEN_SEMICOLON]) =
      Outcome.ok [] ⟨TOKEN_SEMICOLON, none, [], []⟩ :=
  ⟨rfl, rfl⟩

/-- Claim C7: `parsePipeline` returns the no-unit sentinel exactly when the token
it advances to is end-of-input or `;`, and then the state it leaves is the one
right after the advance, so that very token is the current token.  For every
other leading token it never returns the sentinel, and with enough fuel it
either returns a unit or aborts fatally. -/
theorem parsePipeline_no_unit_sentinel (s : State) :
    ((currToken (nextToken s) = TOKEN_EOF ∨ currToken (nextToken s) = TOKEN_SEMICOLON) →
      ∀ fuel, parsePipeline fuel s = Outcome.ok none (nextToken s)) ∧
    (currToken (nextToken s) ≠ TOKEN_EOF → currToken (nextToken s) ≠ TOKEN_SEMICOLON →
      (∀ fuel s', parsePipeline fuel s ≠ Outcome.ok none s') ∧
      ∃ N, (∀ fuel, N ≤ fuel → parsePipeline fuel s = Outcome.fatal) ∨
        (∃ e s', ∀ fuel, N ≤ fuel → parsePipeline fuel s = Outcome.ok (some e) s')) := by
  constructor
  · intro h fuel
    rcases h with h | h <;> simp [parsePipeline, h]
  · intro h1 h2
    refine ⟨fun fuel s' => parsePipeline_ne_none h1 h2, ?_⟩
    obtain ⟨N, o, ho, hN⟩ := parsePipeline_halts s
    refine ⟨N, ?_⟩
    cases o with
    | ok r s' =>
      cases r with
      | none => exact absurd (hN N (le_refl N)) (parsePipeline_ne_none h1 h2)
      | some e => exact Or.inr ⟨e, s', hN⟩
    | fatal => exact Or.inl hN
    | contract => exact absurd (hN N (le_refl N)) (parsePipeline_no_contract N s)
    | outOfFuel => exact absurd rfl ho

/-- Witness of C7: a bare `;` in front of `1` gives the sentinel with `;`
current; the leading token `1` of `1 ;` never gives the sentinel. -/
theorem parsePipeline_no_unit_sentinel_witness :
    (∀ fuel, parsePipeline fuel (State.initial TOKEN_EOF [TOKEN_SEMICOLON, TOKEN_NUMBER 1]) =
      Outcome.ok none ⟨TOKEN_SEMICOLON, none, [TOKEN_NUMBER 1], []⟩) ∧
    ((∀ fuel s', parsePipeline fuel (State.initial TOKEN_EOF [TOKEN_NUMBER 1, TOKEN_SEMICOLON]) ≠
        Outcome.ok none s') ∧
      ∃ N, (∀ fuel, N ≤ fuel →
          parsePipeline fuel (State.initial TOKEN_EOF [TOKEN_NUMBER 1, TOKEN_SEMICOLON]) =
            Outcome.fatal) ∨
        (∃ e s', ∀ fuel, N ≤ fuel →
          parsePipeline fuel (State.initial TOKEN_EOF [TOKEN_NUMBER 1, TOKEN_SEMICOLON]) =
            Outcome.ok (some e) s')) :=
  ⟨(parsePipeline_no_unit_sentinel (State.initial TOKEN_EOF [TOKEN_SEMICOLON, TOKEN_NUMBER 1])).1
      (Or.inr rfl),
    (parsePipeline_no_unit_sentinel (State.initial TOKEN_EOF [TOKEN_NUMBER 1, TOKEN_SEMICOLON])).2
      (by decide) (by decide)⟩

/-- Claim C8: for every identifier `f` and every list of expressions `a1..an`
(token lists with the trees `parseExpression` gives them), `parsePrimary` on
`f ( a1 , ... , an )` returns `CallExpr` with callee `f` and the argument trees
in source order; `f ( )` gives an empty argument list; and an identifier that is
not followed by `(` gives `VariableExpr(f)`. -/
theorem parsePrimary_call_arguments (f : String) (args : List (List Token × ExprAST))
    (hargs : ∀ a ∈ args, ExprTokens a.1 a.2) (rest : List Token) (storage : List ExprAST) :
    (∃ N, ∀ fuel, N ≤ fuel →
      parsePrimary fuel
          (State.reading (TOKEN_IDENTIFIER f :: TOKEN_LPAREN ::
            (commaSeparated (args.map Prod.fst) ++ TOKEN_RPAREN :: rest)) storage) =
        Outcome.ok (CallExpr f (args.map Prod.snd))
          (State.reading rest (storage ++ (CallExpr f (args.map Prod.snd)).nodes))) ∧
    (∀ fuel, parsePrimary (fuel + 1)
          (State.reading (TOKEN_IDENTIFIER f :: TOKEN_LPAREN :: TOKEN_RPAREN :: rest) storage) =
        Outcome.ok (CallExpr f []) (State.reading rest (storage ++ [CallExpr f []]))) ∧
    (rest.head? ≠ some TOKEN_LPAREN → ∀ fuel,
      parsePrimary (fuel + 1) (State.reading (TOKEN_IDENTIFIER f :: rest) storage) =
        Outcome.ok (VariableExpr f) (State.reading rest (storage ++ [VariableExpr f]))) := by
  refine ⟨parsePrimary_call f args hargs rest storage, fun fuel => ?_, fun h fuel => ?_⟩
  · simp [parsePrimary]
  · exact parsePrimary_operand (Operand.var f) rest storage (fun _ _ => h) fuel

/-- Witness of C8: `f ( 1 , x , 2 + 3 ) ;`, and `f ;`. -/
theorem parsePrimary_call_arguments_witness :
    (∃ N, ∀ fuel, N ≤ fuel →
      parsePrimary fuel
          (State.reading [TOKEN_IDENTIFIER "f", TOKEN_LPAREN, TOKEN_NUMBER 1, TOKEN_COMMA,
            TOKEN_IDENTIFIER "x", TOKEN_COMMA, TOKEN_NUMBER 2, TOKEN_OP '+', TOKEN_NUMBER 3,
            TOKEN_RPAREN, TOKEN_SEMICOLON] []) =
        Outcome.ok (CallExpr "f" [NumberExpr 1, VariableExpr "x",
            BinaryExpr '+' (NumberExpr 2) (NumberExpr 3)])
          ⟨TOKEN_SEMICOLON, none, [],
            [NumberExpr 1, VariableExpr "x", NumberExpr 2, NumberExpr 3,
              BinaryExpr '+' (NumberExpr 2) (NumberExpr 3),
              CallExpr "f" [NumberExpr 1, VariableExpr "x",
                BinaryExpr '+' (NumberExpr 2) (NumberExpr 3)]]⟩) ∧
    (∀ fuel, parsePrimary (fuel + 1)
        (State.reading [TOKEN_IDENTIFIER "f", TOKEN_SEMICOLON] []) =
      Outcome.ok (VariableExpr "f") ⟨TOKEN_SEMICOLON, none, [], [VariableExpr "f"]⟩) :=
  ⟨(parsePrimary_call_arguments "f"
      [([TOKEN_NUMBER 1], NumberExpr 1), ([TOKEN_IDENTIFIER "x"], VariableExpr "x"),
        ([TOKEN_NUMBER 2, TOKEN_OP '+', TOKEN_NUMBER 3],
          BinaryExpr '+' (NumberExpr 2) (NumberExpr 3))]
      (by
        intro a ha
        simp only [List.mem_cons, List.mem_singleton, List.not_mem_nil, or_false] at ha
        rcases ha with rfl | rfl | rfl
        · exact expr_number 1
        · exact expr_of_primary (primary_variable "x")
        · exact expr_binary (primary_number 2) (primary_number 3) (by decide))
      [TOKEN_SEMICOLON] []).1,
    (parsePrimary_call_arguments "f" [] (by simp) [TOKEN_SEMICOLON] []).2.2 (by simp)⟩

/-- Claim C9: declarations round-trip their name and parameters.  For every
identifier `n` and every list `ps` of identifiers (empty and duplicates
included), `parsePipeline` on `extern n ( ps ) ;` returns the prototype with name
`n` and parameters exactly `ps` in order, and on `def n ( ps ) S`, for every
statement `S` with tree `Body`, it returns the function whose prototype has name
`n` and parameters exactly `ps` and whose body is `Body`. -/
theorem parsePipeline_declarations (c0 : Token) (n : String) (ps : List String)
    (rest : List Token) (storage : List ExprAST) :
    (∀ fuel,
      parsePipeline (fuel + ps.length) ⟨c0, none, TOKEN_EXTERN :: TOKEN_IDENTIFIER n ::
          TOKEN_LPAREN :: (paramTokens ps ++ TOKEN_RPAREN :: TOKEN_SEMICOLON :: rest), storage⟩ =
        Outcome.ok (some (PrototypeExpr ⟨n, ps⟩))
          ⟨TOKEN_SEMICOLON, none, rest, storage ++ [PrototypeExpr ⟨n, ps⟩]⟩) ∧
    (∀ (S : List Token) (Body : ExprAST), StmtTokens S Body →
      rest.head? ≠ some TOKEN_ELSE →
      ∃ N, ∀ fuel, N ≤ fuel →
        ∃ s', parsePipeline fuel ⟨c0, none, TOKEN_DEF :: TOKEN_IDENTIFIER n :: TOKEN_LPAREN ::
            (paramTokens ps ++ TOKEN_RPAREN :: (S ++ rest)), storage⟩ =
            Outcome.ok (some (FunctionExpr ⟨n, ps⟩ Body)) s' ∧
          nextToken s' = State.reading rest (storage ++ (FunctionExpr ⟨n, ps⟩ Body).nodes)) := by
  constructor
  · intro fuel
    have h := parseFunctionPrototype_spec n ps (TOKEN_SEMICOLON :: rest) storage
      (fuel + ps.length) (Nat.le_add_left _ _)
    simp only [reading_cons] at h
    simp [parsePipeline, parseExtern, h]
  · intro S Body hS hrest
    obtain ⟨N, hN⟩ := hS rest (storage ++ [PrototypeExpr ⟨n, ps⟩]) hrest
    refine ⟨N + ps.length, fun fuel hf => ?_⟩
    obtain ⟨s1, hs1, hnext⟩ := hN fuel (by omega)
    have h := parseFunctionPrototype_spec n ps (S ++ rest) storage fuel (by omega)
    simp only [reading_cons] at h
    refine ⟨s1.push_back (FunctionExpr ⟨n, ps⟩ Body), ?_, ?_⟩
    · simp [parsePipeline, parseFunction, h, hs1]
    · rw [nextToken_push_back, hnext]
      simp [ExprAST.nodes]

/-- Witness of C9: `extern g ( a , b , a ) ;` and `def f ( a , b , a ) a ;`. -/
theorem parsePipeline_declarations_witness :
    parsePipeline 3 ⟨TOKEN_EOF, none, [TOKEN_EXTERN, TOKEN_IDENTIFIER "g", TOKEN_LPAREN,
        TOKEN_IDENTIFIER "a", TOKEN_COMMA, TOKEN_IDENTIFIER "b", TOKEN_COMMA,
        TOKEN_IDENTIFIER "a", TOKEN_RPAREN, TOKEN_SEMICOLON], []⟩ =
      Outcome.ok (some (PrototypeExpr ⟨"g", ["a", "b", "a"]⟩))
        ⟨TOKEN_SEMICOLON, none, [], [PrototypeExpr ⟨"g", ["a", "b", "a"]⟩]⟩ ∧
    ∃ N, ∀ fuel, N ≤ fuel →
      ∃ s', parsePipeline fuel ⟨TOKEN_EOF, none, [TOKEN_DEF, TOKEN_IDENTIFIER "f",
          TOKEN_LPAREN, TOKEN_IDENTIFIER "a", TOKEN_COMMA, TOKEN_IDENTIFIER "b", TOKEN_COMMA,
          TOKEN_IDENTIFIER "a", TOKEN_RPAREN, TOKEN_IDENTIFIER "a", TOKEN_SEMICOLON], []⟩ =
          Outcome.ok (some (FunctionExpr ⟨"f", ["a", "b", "a"]⟩ (VariableExpr "a"))) s' ∧
        nextToken s' = State.reading []
          [PrototypeExpr ⟨"f", ["a", "b", "a"]⟩, VariableExpr "a",
            FunctionExpr ⟨"f", ["a", "b", "a"]⟩ (VariableExpr "a")] :=
  ⟨(parsePipeline_declarations TOKEN_EOF "g" ["a", "b", "a"] [] []).1 0,
    (parsePipeline_declarations TOKEN_EOF "f" ["a", "b", "a"] [] []).2
      [TOKEN_IDENTIFIER "a", TOKEN_SEMICOLON] (VariableExpr "a")
      (stmt_of_closed (closed_expr (expr_of_primary (primary_variable "a")))) (by simp)⟩

/-- Claim C10: for every list of statements `s1..sn` (token lists with the trees
`parseStatement` gives them), `parseStatement` on `{ s1 ... sn }` returns the
`BlockExpr` whose statement list is exactly the trees of `s1..sn` in source
order, blocks among the `si` included, and stops on the closing `}`; the empty
block `{ }` gives a `BlockExpr` with zero statements. -/
theorem parseStatement_block (stmts : List (List Token × ExprAST))
    (hstmts : ∀ x ∈ stmts, StmtTokens x.1 x.2) (rest : List Token) (storage : List ExprAST) :
    (∃ N, ∀ fuel, N ≤ fuel →
      parseStatement fuel (State.reading
          (TOKEN_LBRACE :: (concatTokens (stmts.map Prod.fst) ++ TOKEN_RBRACE :: rest))
          storage) =
        Outcome.ok (BlockExpr (stmts.map Prod.snd))
          ⟨TOKEN_RBRACE, none, rest, storage ++ (BlockExpr (stmts.map Prod.snd)).nodes⟩) ∧
    (∀ fuel, parseStatement (fuel + 2)
          (State.reading (TOKEN_LBRACE :: TOKEN_RBRACE :: rest) storage) =
        Outcome.ok (BlockExpr []) ⟨TOKEN_RBRACE, none, rest, storage ++ [BlockExpr []]⟩) := by
  constructor
  · exact parseStatement_block_spec stmts hstmts rest storage
  · intro fuel
    simp [parseStatement, parseBlock, ExprAST.nodes, nodesList]

/-- Witness of C10: the nested block `{ 1 ; { 2 ; } if ( 3 ) 4 ; 5 ; }`. -/
theorem parseStatement_block_witness :
    ∃ N, ∀ fuel, N ≤ fuel →
      parseStatement fuel (State.reading
          [TOKEN_LBRACE, TOKEN_NUMBER 1, TOKEN_SEMICOLON, TOKEN_LBRACE, TOKEN_NUMBER 2,
            TOKEN_SEMICOLON, TOKEN_RBRACE, TOKEN_IF, TOKEN_LPAREN, TOKEN_NUMBER 3, TOKEN_RPAREN,
            TOKEN_NUMBER 4, TOKEN_SEMICOLON, TOKEN_NUMBER 5, TOKEN_SEMICOLON, TOKEN_RBRACE] []) =
        Outcome.ok (BlockExpr [NumberExpr 1, BlockExpr [NumberExpr 2],
            IfExpr (NumberExpr 3) (NumberExpr 4) none, NumberExpr 5])
          ⟨TOKEN_RBRACE, none, [],
            [NumberExpr 1, NumberExpr 2, BlockExpr [NumberExpr 2], NumberExpr 3, NumberExpr 4,
              IfExpr (NumberExpr 3) (NumberExpr 4) none, NumberExpr 5,
              BlockExpr [NumberExpr 1, BlockExpr [NumberExpr 2],
                IfExpr (NumberExpr 3) (NumberExpr 4) none, NumberExpr 5]]⟩ :=
  (parseStatement_block
    [([TOKEN_NUMBER 1, TOKEN_SEMICOLON], NumberExpr 1),
      ([TOKEN_LBRACE, TOKEN_NUMBER 2, TOKEN_SEMICOLON, TOKEN_RBRACE], BlockExpr [NumberExpr 2]),
      ([TOKEN_IF, TOKEN_LPAREN, TOKEN_NUMBER 3, TOKEN_RPAREN, TOKEN_NUMBER 4, TOKEN_SEMICOLON],
        IfExpr (NumberExpr 3) (NumberExpr 4) none),
      ([TOKEN_NUMBER 5, TOKEN_SEMICOLON], NumberExpr 5)]
    (by
      intro x hx
      simp only [List.mem_cons, List.mem_singleton, List.not_mem_nil, or_false] at hx
      rcases hx with rfl | rfl | rfl | rfl
      · exact stmt_of_closed (closed_expr (expr_number 1))
      · exact stmt_of_closed (closed_block [([TOKEN_NUMBER 2, TOKEN_SEMICOLON], NumberExpr 2)]
          (by
            intro y hy
            simp only [List.mem_singleton] at hy
            subst hy
            exact stmt_of_closed (closed_expr (expr_number 2))))
      · exact stmt_if (expr_number 3) (stmt_of_closed (closed_expr (expr_number 4)))
      · exact stmt_of_closed (closed_expr (expr_number 5)))
    [] []).1

/-- Claim C11: a missing required delimiter is fatal and yields no unit.  Whenever
`parseExpression` reads an expression `e` and stops on a token that is not the
required delimiter, the enclosing parse aborts: `parsePrimary` on `( e` when that
token is not `)`, and `parsePipeline` on a leading `( e` when it is not `)`, on
an expression statement `e` when it is not `;`, and on `if ( e` when it is not
`)`.  In terms of tokens: for every expression `ts` with tree `e` and every
following token `next` at which the expression ends, the units `( ts next`,
`ts next` and `if ( ts next` abort once `next` is not the required `)`, `;`,
`)`. -/
theorem parsePipeline_missing_delimiter :
    (∀ (fuel : Nat) (s : State) (e : ExprAST) (s' : State),
      (currToken s = TOKEN_LPAREN →
        parseExpression fuel (nextToken s) = Outcome.ok e s' →
        currToken s' ≠ TOKEN_RPAREN →
        ∀ k, parsePrimary (fuel + 1 + k) s = Outcome.fatal) ∧
      (currToken (nextToken s) = TOKEN_LPAREN →
        parseExpression fuel (nextToken (nextToken s)) = Outcome.ok e s' →
        currToken s' ≠ TOKEN_RPAREN →
        ∀ k, parsePipeline (fuel + 4 + k) s = Outcome.fatal) ∧
      (parseExpression fuel (nextToken s) = Outcome.ok e s' →
        currToken s' ≠ TOKEN_SEMICOLON →
        ∀ k, parsePipeline (fuel + 1 + k) s = Outcome.fatal) ∧
      (currToken (nextToken s) = TOKEN_IF →
        currToken (nextToken (nextToken s)) = TOKEN_LPAREN →
        parseExpression fuel (nextToken (nextToken (nextToken s))) = Outcome.ok e s' →
        currToken s' ≠ TOKEN_RPAREN →
        ∀ k, parsePipeline (fuel + 1 + k) s = Outcome.fatal)) ∧
    (∀ (ts : List Token) (e : ExprAST), ExprTokens ts e →
      ∀ (c0 next : Token) (rest : List Token),
        next ≠ TOKEN_LPAREN → isBinaryOp next = false →
        (next ≠ TOKEN_RPAREN → ∃ N, ∀ fuel, N ≤ fuel →
          parsePipeline fuel (State.initial c0 (TOKEN_LPAREN :: (ts ++ next :: rest))) =
            Outcome.fatal) ∧
        (next ≠ TOKEN_SEMICOLON → ∃ N, ∀ fuel, N ≤ fuel →
          parsePipeline fuel (State.initial c0 (ts ++ next :: rest)) = Outcome.fatal) ∧
        (next ≠ TOKEN_RPAREN → ∃ N, ∀ fuel, N ≤ fuel →
          parsePipeline fuel
              (State.initial c0 (TOKEN_IF :: TOKEN_LPAREN :: (ts ++ next :: rest))) =
            Outcome.fatal)) := by
  have paren : ∀ (fuel : Nat) (s : State) (e : ExprAST) (s' : State),
      currToken (nextToken s) = TOKEN_LPAREN →
      parseExpression fuel (nextToken (nextToken s)) = Outcome.ok e s' →
      currToken s' ≠ TOKEN_RPAREN →
      ∀ k, parsePipeline (fuel + 4 + k) s = Outcome.fatal := by
    intro fuel s e s' hl h hc k
    have hp := parsePrimary_missing_rparen hl h hc k
    rw [parsePipeline_statement_case _ _ (by rw [hl]; rfl),
      show fuel + 4 + k = (fuel + 1 + k + 2) + 1 by omega,
      parseStatement_expression_case _ _ (by rw [hl]; rfl), parseExpression_succ,
      parseBinaryExpression_succ, hp]
    rfl
  have semi : ∀ (fuel : Nat) (s : State) (e : ExprAST) (s' : State),
      parseExpression fuel (nextToken s) = Outcome.ok e s' →
      currToken s' ≠ TOKEN_SEMICOLON →
      ∀ k, parsePipeline (fuel + 1 + k) s = Outcome.fatal := by
    intro fuel s e s' h hc k
    rw [parsePipeline_statement_case _ _
      (startsStatement_of_expression (startsExpression_of_parse h)),
      parseStatement_missing_semicolon h hc k]
    rfl
  have cond : ∀ (fuel : Nat) (s : State) (e : ExprAST) (s' : State),
      currToken (nextToken s) = TOKEN_IF →
      currToken (nextToken (nextToken s)) = TOKEN_LPAREN →
      parseExpression fuel (nextToken (nextToken (nextToken s))) = Outcome.ok e s' →
      currToken s' ≠ TOKEN_RPAREN →
      ∀ k, parsePipeline (fuel + 1 + k) s = Outcome.fatal := by
    intro fuel s e s' hi hl h hc k
    rw [parsePipeline_statement_case _ _ (by rw [hi]; rfl),
      parseStatement_if_missing_rparen hi hl h hc k]
    rfl
  refine ⟨fun fuel s e s' => ⟨fun hl h hc => parsePrimary_missing_rparen hl h hc,
    paren fuel s e s', semi fuel s e s', cond fuel s e s'⟩, ?_⟩
  intro ts e he c0 next rest hn hb
  refine ⟨fun hne => ?_, fun hne => ?_, fun hne => ?_⟩
  · obtain ⟨N, hN⟩ := he next rest [] hn hb
    refine ⟨N + 4, fun fuel hf => ?_⟩
    obtain ⟨k, rfl⟩ : ∃ k, fuel = N + 4 + k := ⟨fuel - (N + 4), by omega⟩
    exact paren N _ e _ (by simp [State.initial]) (by simpa [State.initial] using hN N le_rfl)
      (by simpa using hne) k
  · obtain ⟨N, hN⟩ := he next rest [] hn hb
    refine ⟨N + 1, fun fuel hf => ?_⟩
    obtain ⟨k, rfl⟩ : ∃ k, fuel = N + 1 + k := ⟨fuel - (N + 1), by omega⟩
    exact semi N _ e _ (by simpa [State.initial] using hN N le_rfl) (by simpa using hne) k
  · obtain ⟨N, hN⟩ := he next rest [] hn hb
    refine ⟨N + 1, fun fuel hf => ?_⟩
    obtain ⟨k, rfl⟩ : ∃ k, fuel = N + 1 + k := ⟨fuel - (N + 1), by omega⟩
    exact cond N _ e _ (by simp [State.initial]) (by simp [State.initial])
      (by simpa [State.initial] using hN N le_rfl) (by simpa using hne) k

/-- Witness of C11: `( 1 ;`, `1 )` and `if ( 1 ;` all abort, and so do `( 7 ;`,
`7 }` and `if ( 7 {` read as the expression `7` followed by a wrong token. -/
theorem parsePipeline_missing_delimiter_witness :
    (∀ k, parsePipeline (3 + 4 + k)
        (State.initial TOKEN_EOF [TOKEN_LPAREN, TOKEN_NUMBER 1, TOKEN_SEMICOLON]) =
      Outcome.fatal) ∧
    (∀ k, parsePipeline (3 + 1 + k)
        (State.initial TOKEN_EOF [TOKEN_NUMBER 1, TOKEN_RPAREN]) = Outcome.fatal) ∧
    (∀ k, parsePipeline (3 + 1 + k)
        (State.initial TOKEN_EOF [TOKEN_IF, TOKEN_LPAREN, TOKEN_NUMBER 1, TOKEN_SEMICOLON]) =
      Outcome.fatal) ∧
    (∃ N, ∀ fuel, N ≤ fuel →
      parsePipeline fuel (State.initial TOKEN_EOF
        (TOKEN_LPAREN :: ([TOKEN_NUMBER 7] ++ TOKEN_SEMICOLON :: []))) = Outcome.fatal) ∧
    (∃ N, ∀ fuel, N ≤ fuel →
      parsePipeline fuel (State.initial TOKEN_EOF
        ([TOKEN_NUMBER 7] ++ TOKEN_RBRACE :: [])) = Outcome.fatal) ∧
    (∃ N, ∀ fuel, N ≤ fuel →
      parsePipeline fuel (State.initial TOKEN_EOF
        (TOKEN_IF :: TOKEN_LPAREN :: ([TOKEN_NUMBER 7] ++ TOKEN_LBRACE :: []))) =
          Outcome.fatal) :=
  ⟨(parsePipeline_missing_delimiter.1 3
      (State.initial TOKEN_EOF [TOKEN_LPAREN, TOKEN_NUMBER 1, TOKEN_SEMICOLON]) (NumberExpr 1)
      ⟨TOKEN_SEMICOLON, none, [], [NumberExpr 1]⟩).2.1 rfl rfl (by decide),
    (parsePipeline_missing_delimiter.1 3
      (State.initial TOKEN_EOF [TOKEN_NUMBER 1, TOKEN_RPAREN]) (NumberExpr 1)
      ⟨TOKEN_RPAREN, none, [], [NumberExpr 1]⟩).2.2.1 rfl (by decide),
    (parsePipeline_missing_delimiter.1 3
      (State.initial TOKEN_EOF [TOKEN_IF, TOKEN_LPAREN, TOKEN_NUMBER 1, TOKEN_SEMICOLON])
      (NumberExpr 1) ⟨TOKEN_SEMICOLON, none, [], [NumberExpr 1]⟩).2.2.2 rfl rfl rfl (by decide),
    (parsePipeline_missing_delimiter.2 [TOKEN_NUMBER 7] (NumberExpr 7) (expr_number 7)
      TOKEN_EOF TOKEN_SEMICOLON [] (by decide) rfl).1 (by decide),
    (parsePipeline_missing_delimiter.2 [TOKEN_NUMBER 7] (NumberExpr 7) (expr_number 7)
      TOKEN_EOF TOKEN_RBRACE [] (by decide) rfl).2.1 (by decide),
    (parsePipeline_missing_delimiter.2 [TOKEN_NUMBER 7] (NumberExpr 7) (expr_number 7)
      TOKEN_EOF TOKEN_LBRACE [] (by decide) rfl).2.2 (by decide)⟩

/-- Claim C12: malformed parameter lists are fatal.  After `n (` and any number
of well-formed parameters each followed by `,`, `parseFunctionPrototype` aborts
when the next parameter position holds a token that is not an identifier (a
`)` right after `n (` is the empty list and is excepted; a `)` after a comma is
not), and it aborts when an identifier parameter is followed by a token that is
neither `,` nor `)`; so `f(a,)`, `f(,a)` and `f(a b)` abort and no prototype is
returned. -/
theorem parseFunctionPrototype_malformed (n : String) (ps : List String) (rest : List Token)
    (storage : List ExprAST) (fuel : Nat) :
    ((∀ p, rest.headD TOKEN_EOF ≠ TOKEN_IDENTIFIER p) →
      (ps = [] → rest.headD TOKEN_EOF ≠ TOKEN_RPAREN) →
      parseFunctionPrototype (fuel + ps.length + 1)
          (State.reading (TOKEN_IDENTIFIER n :: TOKEN_LPAREN :: (paramsWithCommas ps ++ rest))
            storage) = Outcome.fatal) ∧
    (∀ p, rest.headD TOKEN_EOF ≠ TOKEN_COMMA → rest.headD TOKEN_EOF ≠ TOKEN_RPAREN →
      parseFunctionPrototype (fuel + ps.length + 1)
          (State.reading (TOKEN_IDENTIFIER n :: TOKEN_LPAREN ::
            (paramsWithCommas ps ++ TOKEN_IDENTIFIER p :: rest)) storage) = Outcome.fatal) ∧
    (∀ st, parseFunctionPrototype (fuel + 2) (State.reading [TOKEN_IDENTIFIER "f", TOKEN_LPAREN,
        TOKEN_IDENTIFIER "a", TOKEN_COMMA, TOKEN_RPAREN] st) = Outcome.fatal) ∧
    (∀ st, parseFunctionPrototype (fuel + 1) (State.reading [TOKEN_IDENTIFIER "f", TOKEN_LPAREN,
        TOKEN_COMMA, TOKEN_IDENTIFIER "a", TOKEN_RPAREN] st) = Outcome.fatal) ∧
    (∀ st, parseFunctionPrototype (fuel + 1) (State.reading [TOKEN_IDENTIFIER "f", TOKEN_LPAREN,
        TOKEN_IDENTIFIER "a", TOKEN_IDENTIFIER "b", TOKEN_RPAREN] st) = Outcome.fatal) := by
  have hfuel : fuel + ps.length + 1 = (fuel + 1) + ps.length := by omega
  refine ⟨fun h1 h2 => ?_, fun p h1 h2 => ?_, fun st => ?_, fun st => ?_, fun st => ?_⟩
  · have hcur : currToken (State.reading (paramsWithCommas ps ++ rest) storage) ≠
        TOKEN_RPAREN := by
      cases ps with
      | nil => simpa [paramsWithCommas] using h2 rfl
      | cons q qs => simp [paramsWithCommas]
    simp only [parseFunctionPrototype, reading_cons, currToken_mk, nextToken_mk_none, ne_eq,
      not_true_eq_false, if_false, if_pos hcur]
    rw [hfuel, parseParams_prefix, parseParams_not_identifier _ _ _ (by simpa using h1)]
    rfl
  · have hcur : currToken (State.reading (paramsWithCommas ps ++ TOKEN_IDENTIFIER p :: rest)
        storage) ≠ TOKEN_RPAREN := by
      cases ps <;> simp [paramsWithCommas]
    simp only [parseFunctionPrototype, reading_cons, currToken_mk, nextToken_mk_none, ne_eq,
      not_true_eq_false, if_false, if_pos hcur]
    rw [hfuel, parseParams_prefix,
      parseParams_bad_delimiter _ _ _ (p := p) (by simp) (by simpa using h1)
        (by simpa using h2)]
    rfl
  · simp [parseFunctionPrototype, parseParams, Outcome.bind]
  · simp [parseFunctionPrototype, parseParams, Outcome.bind]
  · simp [parseFunctionPrototype, parseParams, Outcome.bind]

/-- Witness of C12: `g ( a , b , 1 )` and `g ( a , b c )` abort. -/
theorem parseFunctionPrototype_malformed_witness :
    parseFunctionPrototype 3
        (State.reading [TOKEN_IDENTIFIER "g", TOKEN_LPAREN, TOKEN_IDENTIFIER "a", TOKEN_COMMA,
          TOKEN_IDENTIFIER "b", TOKEN_COMMA, TOKEN_NUMBER 1, TOKEN_RPAREN] []) =
      Outcome.fatal ∧
    parseFunctionPrototype 2
        (State.reading [TOKEN_IDENTIFIER "g", TOKEN_LPAREN, TOKEN_IDENTIFIER "a", TOKEN_COMMA,
          TOKEN_IDENTIFIER "b", TOKEN_IDENTIFIER "c", TOKEN_RPAREN] []) =
      Outcome.fatal :=
  ⟨(parseFunctionPrototype_malformed "g" ["a", "b"] [TOKEN_NUMBER 1, TOKEN_RPAREN] [] 0).1
      (by simp) (by simp),
    (parseFunctionPrototype_malformed "g" ["a"] [TOKEN_IDENTIFIER "c", TOKEN_RPAREN] [] 0).2.1
      "b" (by simp) (by simp)⟩

/-- Claim C13: `parseStatement` aborts for every current token that is not an
identifier, a number, `(`, `if` or `{` (an operator such as `-`, or `def` and
`extern` inside a block), and `parsePipeline` aborts for every leading token
that is not end-of-input, `;`, an identifier, a number, `(`, `if`, `{`, `extern`
or `def`. -/
theorem parse_unexpected_token_fatal (fuel : Nat) (s : State) :
    (startsStatement (currToken s) = false → parseStatement (fuel + 1) s = Outcome.fatal) ∧
    (startsUnit (currToken (nextToken s)) = false → parsePipeline fuel s = Outcome.fatal) ∧
    (∀ c rest st, parseStatement (fuel + 1) ⟨TOKEN_OP c, none, rest, st⟩ = Outcome.fatal) ∧
    (∀ rest st, parseStatement (fuel + 3)
        (State.reading (TOKEN_LBRACE :: TOKEN_DEF :: rest) st) = Outcome.fatal) ∧
    (∀ rest st, parseStatement (fuel + 3)
        (State.reading (TOKEN_LBRACE :: TOKEN_EXTERN :: rest) st) = Outcome.fatal) :=
  ⟨parseStatement_other_token fuel s, parsePipeline_other_token fuel s,
    fun _ _ _ => parseStatement_other_token fuel _ rfl,
    fun _ _ => by simp [parseStatement, parseBlock, Outcome.bind],
    fun _ _ => by simp [parseStatement, parseBlock, Outcome.bind]⟩

/-- Witness of C13: a statement cannot start with `-` or `else`, and a unit cannot
start with `)`. -/
theorem parse_unexpected_token_fatal_witness :
    parseStatement 1 (State.reading [TOKEN_OP '-', TOKEN_NUMBER 1, TOKEN_SEMICOLON] []) =
      Outcome.fatal ∧
    parseStatement 1 (State.reading [TOKEN_ELSE, TOKEN_NUMBER 1, TOKEN_SEMICOLON] []) =
      Outcome.fatal ∧
    parsePipeline 0 (State.initial TOKEN_EOF [TOKEN_RPAREN, TOKEN_SEMICOLON]) = Outcome.fatal :=
  ⟨(parse_unexpected_token_fatal 0
      (State.reading [TOKEN_OP '-', TOKEN_NUMBER 1, TOKEN_SEMICOLON] [])).1 rfl,
    (parse_unexpected_token_fatal 0
      (State.reading [TOKEN_ELSE, TOKEN_NUMBER 1, TOKEN_SEMICOLON] [])).1 rfl,
    (parse_unexpected_token_fatal 0
      (State.initial TOKEN_EOF [TOKEN_RPAREN, TOKEN_SEMICOLON])).2.1 rfl⟩

/-- Claim C14 (divergence between the help text and `parseOptions`): of the four
level names the help text lists, `--log debug`, `--log error` and `--log fatal`
succeed and set `log_level` to the named level, but `--log info` makes
`parseOptions` return false, from every state of the options and whatever
follows on the command line. -/
theorem parseOptions_log_info_rejected (stringSplit : String → Char → List String)
    (ofsGood : String → Bool) (prog : String) :
    (∀ g more, parseOptions stringSplit ofsGood (prog :: "--log" :: "info" :: more) g =
      OptionsResult.returned false g) ∧
    levelNamed "info" = some LogLevel.INFO ∧
    parseOptions stringSplit ofsGood [prog, "--log", "debug"] global_option =
      OptionsResult.returned true { global_option with log_level := LogLevel.DEBUG } ∧
    parseOptions stringSplit ofsGood [prog, "--log", "error"] global_option =
      OptionsResult.returned true { global_option with log_level := LogLevel.ERROR } ∧
    parseOptions stringSplit ofsGood [prog, "--log", "fatal"] global_option =
      OptionsResult.returned true { global_option with log_level := LogLevel.FATAL } :=
  ⟨fun _ _ => rfl, rfl, rfl, rfl, rfl⟩

/-- Claim C15 (divergence between the help text and the defaults): with no
options `parseOptions` succeeds and leaves `global_option` as initialised, with
`dump_code = false` and `log_level = INFO`, whereas `--dump code` gives
`dump_code = true` and `--log debug` gives `log_level = DEBUG`; the token and
tree dumps are off in all of these. -/
theorem parseOptions_defaults_differ_from_help (stringSplit : String → Char → List String)
    (ofsGood : String → Bool) (prog : String) :
    parseOptions stringSplit ofsGood [prog] global_option =
      OptionsResult.returned true global_option ∧
    global_option.dump_code = false ∧ global_option.dump_token = false ∧
    global_option.dump_ast = false ∧ global_option.log_level = LogLevel.INFO ∧
    (stringSplit "code" ',' = ["code"] →
      parseOptions stringSplit ofsGood [prog, "--dump", "code"] global_option =
        OptionsResult.returned true { global_option with dump_code := true }) ∧
    parseOptions stringSplit ofsGood [prog, "--log", "debug"] global_option =
      OptionsResult.returned true { global_option with log_level := LogLevel.DEBUG } := by
  refine ⟨rfl, rfl, rfl, rfl, rfl, fun h => ?_, rfl⟩
  simp only [parseOptions, List.drop, parseOptionsLoop, h]
  rfl

/-- Witness of C15, with a split function that finds no separator. -/
theorem parseOptions_defaults_differ_from_help_witness :
    parseOptions (fun s _ => [s]) (fun _ => true) ["toy", "--dump", "code"] global_option =
      OptionsResult.returned true { global_option with dump_code := true } :=
  (parseOptions_defaults_differ_from_help (fun s _ => [s]) (fun _ => true) "toy").2.2.2.2.2.1
    rfl

/-- Claim C16: an `IfExpr` has an else-branch exactly when the token following
the then-statement is `else`.  After `if ( c )` and the then-statement `t`,
`parseStatement` advances once: when the token delivered is not `else` the
result is `IfExpr c t` without else-branch and the token is pushed back, so the
next advance delivers it again; when it is `else` the result carries the
statement parsed after it.  Hence, for every expression `c` and all statements
`s`, `u` (a statement never starts with `else`), the block `{ if ( c ) s u }`
parses to `BlockExpr [IfExpr c s, u]`, and `parseMain` on `if ( c ) s u` returns
`[IfExpr c s, u]`. -/
theorem parseStatement_else_branch_presence :
    (∀ (fuel : Nat) (s s1 s2 : State) (c t : ExprAST),
      currToken s = TOKEN_IF → currToken (nextToken s) = TOKEN_LPAREN →
      parseExpression fuel (nextToken (nextToken s)) = Outcome.ok c s1 →
      currToken s1 = TOKEN_RPAREN →
      parseStatement fuel (nextToken s1) = Outcome.ok t s2 →
      (currToken (nextToken s2) ≠ TOKEN_ELSE →
        ∃ s3, parseStatement (fuel + 1) s = Outcome.ok (IfExpr c t none) s3 ∧
          nextToken s3 = (nextToken s2).push_back (IfExpr c t none)) ∧
      (currToken (nextToken s2) = TOKEN_ELSE →
        ∀ u s4, parseStatement fuel (nextToken (nextToken s2)) = Outcome.ok u s4 →
          parseStatement (fuel + 1) s =
            Outcome.ok (IfExpr c t (some u)) (s4.push_back (IfExpr c t (some u))))) ∧
    (∀ (c s u : List Token) (ec es eu : ExprAST),
      ExprTokens c ec → StmtTokens s es → StmtTokens u eu →
      (∀ rest storage, ∃ N, ∀ fuel, N ≤ fuel →
        parseStatement fuel (State.reading (TOKEN_LBRACE :: TOKEN_IF :: TOKEN_LPAREN ::
            (c ++ TOKEN_RPAREN :: (s ++ (u ++ TOKEN_RBRACE :: rest)))) storage) =
          Outcome.ok (BlockExpr [IfExpr ec es none, eu])
            ⟨TOKEN_RBRACE, none, rest,
              storage ++ (BlockExpr [IfExpr ec es none, eu]).nodes⟩) ∧
      (∀ c0, ∃ N, ∀ fuel, N ≤ fuel →
        parseMain fuel (State.initial c0
            (TOKEN_IF :: TOKEN_LPAREN :: (c ++ TOKEN_RPAREN :: (s ++ u)))) =
          Outcome.ok [IfExpr ec es none, eu]
            ⟨TOKEN_EOF, none, [], (IfExpr ec es none).nodes ++ eu.nodes⟩)) := by
  refine ⟨fun fuel s s1 s2 c t hi hl hc hr ht => ⟨fun hne => ?_, fun he u s4 hu => ?_⟩,
    fun c s u ec es eu hc hs hu => ⟨fun rest storage => ?_, fun c0 => ?_⟩⟩
  · obtain ⟨s3, hs3, -, hb, hcur⟩ := unreadToken_nextToken s2
    refine ⟨s3.push_back (IfExpr c t none), ?_, ?_⟩
    · simp only [parseStatement, hi, hl, ne_eq, not_true_eq_false, if_false, hc,
        Outcome.ok_bind, hr, ht, if_neg hne, hs3]
    · rw [nextToken_push_back]
      congr 1
      generalize nextToken s2 = t2 at hs3
      cases t2 with
      | mk cc b i x =>
        cases b with
        | some _ => cases hs3
        | none => cases hs3; rfl
  · simp only [parseStatement, hi, hl, ne_eq, not_true_eq_false, if_false, hc,
      Outcome.ok_bind, hr, ht, he, if_true, hu]
  · have h := parseStatement_block_spec
      [(TOKEN_IF :: TOKEN_LPAREN :: (c ++ TOKEN_RPAREN :: s), IfExpr ec es none), (u, eu)]
      (by
        intro x hx
        simp only [List.mem_cons, List.mem_singleton, List.not_mem_nil, or_false] at hx
        rcases hx with rfl | rfl
        · exact stmt_if hc hs
        · exact hu) rest storage
    simpa [concatTokens] using h
  · have h := parseMainLoop_statements
      [(TOKEN_IF :: TOKEN_LPAREN :: (c ++ TOKEN_RPAREN :: s), IfExpr ec es none), (u, eu)]
      (by
        intro x hx
        simp only [List.mem_cons, List.mem_singleton, List.not_mem_nil, or_false] at hx
        rcases hx with rfl | rfl
        · exact stmt_if hc hs
        · exact hu) [] (State.initial c0
            (TOKEN_IF :: TOKEN_LPAREN :: (c ++ TOKEN_RPAREN :: (s ++ u)))) []
      (by simp [State.initial, concatTokens])
    simpa [parseMain, nodesList] using h

/-- Witness of C16 with `c = 1`, `s = 2 ;` and `u = 3 ;`: the block
`{ if ( 1 ) 2 ; 3 ; }` and the top-level input `if ( 1 ) 2 ; 3 ;`. -/
theorem parseStatement_else_branch_presence_witness :
    (∃ N, ∀ fuel, N ≤ fuel →
      parseStatement fuel (State.reading (TOKEN_LBRACE :: TOKEN_IF :: TOKEN_LPAREN ::
          ([TOKEN_NUMBER 1] ++ TOKEN_RPAREN :: ([TOKEN_NUMBER 2] ++ [TOKEN_SEMICOLON] ++
            ([TOKEN_NUMBER 3] ++ [TOKEN_SEMICOLON] ++ TOKEN_RBRACE :: [])))) []) =
        Outcome.ok (BlockExpr [IfExpr (NumberExpr 1) (NumberExpr 2) none, NumberExpr 3])
          ⟨TOKEN_RBRACE, none, [],
            [] ++ (BlockExpr [IfExpr (NumberExpr 1) (NumberExpr 2) none, NumberExpr 3]).nodes⟩) ∧
    (∃ N, ∀ fuel, N ≤ fuel →
      parseMain fuel (State.initial TOKEN_EOF
          (TOKEN_IF :: TOKEN_LPAREN :: ([TOKEN_NUMBER 1] ++ TOKEN_RPAREN ::
            ([TOKEN_NUMBER 2] ++ [TOKEN_SEMICOLON] ++ ([TOKEN_NUMBER 3] ++ [TOKEN_SEMICOLON]))))) =
        Outcome.ok [IfExpr (NumberExpr 1) (NumberExpr 2) none, NumberExpr 3]
          ⟨TOKEN_EOF, none, [],
            (IfExpr (NumberExpr 1) (NumberExpr 2) none).nodes ++ (NumberExpr 3).nodes⟩) :=
  ⟨(parseStatement_else_branch_presence.2 [TOKEN_NUMBER 1] ([TOKEN_NUMBER 2] ++ [TOKEN_SEMICOLON])
      ([TOKEN_NUMBER 3] ++ [TOKEN_SEMICOLON]) (NumberExpr 1) (NumberExpr 2) (NumberExpr 3)
      (expr_number 1) (stmt_of_closed (closed_expr (expr_number 2)))
      (stmt_of_closed (closed_expr (expr_number 3)))).1 [] [],
    (parseStatement_else_branch_presence.2 [TOKEN_NUMBER 1] ([TOKEN_NUMBER 2] ++ [TOKEN_SEMICOLON])
      ([TOKEN_NUMBER 3] ++ [TOKEN_SEMICOLON]) (NumberExpr 1) (NumberExpr 2) (NumberExpr 3)
      (expr_number 1) (stmt_of_closed (closed_expr (expr_number 2)))
      (stmt_of_closed (closed_expr (expr_number 3)))).2 TOKEN_EOF⟩

/-- Claim C17: `parseBinaryExpression` never fails because of the token that
ends the expression.  When the current token after a complete operand is not an
operator token, or is an operator character outside `+ - * /`, the loop returns
the accumulated left operand unchanged, without error and without touching the
state, so that token is still current for the caller; hence
`parseBinaryExpression` returns the operand `parsePrimary` read.  On `1 < 2` the
call returns `NumberExpr 1` with `<` current. -/
theorem parseBinaryExpression_stops_at_other_token (fuel : Nat) (PrevPrecedence : Int) :
    (∀ (Result : ExprAST) (s : State),
      (isOperator (currToken s) = false ∨
        ∃ c, currToken s = TOKEN_OP c ∧ c ∉ BinaryOpSet) →
      binaryLoop (fuel + 1) PrevPrecedence Result s = Outcome.ok Result s) ∧
    (∀ (s0 s : State) (Result : ExprAST),
      parsePrimary fuel s0 = Outcome.ok Result s →
      (isOperator (currToken s) = false ∨
        ∃ c, currToken s = TOKEN_OP c ∧ c ∉ BinaryOpSet) →
      ∀ k, parseBinaryExpression (fuel + 1 + k) PrevPrecedence s0 = Outcome.ok Result s) ∧
    (∀ rest storage,
      parseBinaryExpression (fuel + 2) PrevPrecedence
          (State.reading (TOKEN_NUMBER 1 :: TOKEN_OP '<' :: TOKEN_NUMBER 2 :: rest) storage) =
        Outcome.ok (NumberExpr 1)
          ⟨TOKEN_OP '<', none, TOKEN_NUMBER 2 :: rest, storage ++ [NumberExpr 1]⟩) := by
  have stop : ∀ (n : Nat) (Result : ExprAST) (s : State),
      (isOperator (currToken s) = false ∨
        ∃ c, currToken s = TOKEN_OP c ∧ c ∉ BinaryOpSet) →
      binaryLoop (n + 1) PrevPrecedence Result s = Outcome.ok Result s := by
    intro n Result s h
    refine binaryLoop_stop n PrevPrecedence Result s ?_
    rcases h with h | ⟨c, hc, hn⟩
    · cases hc : currToken s <;> simp_all [isOperator, isBinaryOp]
    · simp [hc, isBinaryOp, hn]
  refine ⟨stop fuel, fun s0 s Result hp h k => ?_, fun rest storage => ?_⟩
  · cases fuel with
    | zero => cases hp
    | succ n =>
      have hp2 : parsePrimary (n + 1 + k) s0 = Outcome.ok Result s :=
        Outcome.refines_ok ((expr_mono (n + 1) (n + 1 + k) (by omega)).1 s0) hp
      rw [show n + 1 + 1 + k = (n + 1 + k) + 1 by omega, parseBinaryExpression_succ, hp2,
        Outcome.ok_bind, show n + 1 + k = (n + k) + 1 by omega]
      exact stop (n + k) Result s h
  · rw [parseBinaryExpression_succ]
    simp [parsePrimary, binaryLoop, BinaryOpSet]

/-- Witness of C17: after the operand `7` the loop stops at `;` (not an operator)
and at `<` (an operator outside the set), leaving it current. -/
theorem parseBinaryExpression_stops_at_other_token_witness :
    binaryLoop 1 0 (NumberExpr 7) ⟨TOKEN_SEMICOLON, none, [], [NumberExpr 7]⟩ =
      Outcome.ok (NumberExpr 7) ⟨TOKEN_SEMICOLON, none, [], [NumberExpr 7]⟩ ∧
    (∀ k, parseBinaryExpression (1 + 1 + k) 0
        (State.reading [TOKEN_NUMBER 7, TOKEN_OP '<', TOKEN_NUMBER 2] []) =
      Outcome.ok (NumberExpr 7) ⟨TOKEN_OP '<', none, [TOKEN_NUMBER 2], [NumberExpr 7]⟩) :=
  ⟨(parseBinaryExpression_stops_at_other_token 0 0).1 (NumberExpr 7)
      ⟨TOKEN_SEMICOLON, none, [], [NumberExpr 7]⟩ (Or.inl rfl),
    (parseBinaryExpression_stops_at_other_token 1 0).2.1
      (State.reading [TOKEN_NUMBER 7, TOKEN_OP '<', TOKEN_NUMBER 2] [])
      ⟨TOKEN_OP '<', none, [TOKEN_NUMBER 2], [NumberExpr 7]⟩ (NumberExpr 7) rfl
      (Or.inr ⟨'<', rfl, by decide⟩)⟩

/-- Claim C18: the one-token pushback slot never holds more than one token.  An
advance always leaves the slot empty and `unreadToken` fails exactly when the
slot is occupied, that is, when it is called a second time with no advance in
between; no run of `parsePipeline` or `parseMain`, from any state, on any token
stream and with any fuel, ends in that failure.  On the nested else-less ifs
`if (1) if (2) if (3) 4; 5;` every `if` pushes the peeked `5` back in turn and
`parseMain` returns both units. -/
theorem pushback_slot_never_occupied_twice :
    (∀ s, (nextToken s).Buffered = none) ∧
    (∀ s, unreadToken s = none ↔ s.Buffered ≠ none) ∧
    (∀ s s', unreadToken s = some s' → unreadToken s' = none) ∧
    (∀ fuel s, parsePipeline fuel s ≠ Outcome.contract) ∧
    (∀ fuel s, parseMain fuel s ≠ Outcome.contract) ∧
    (∀ fuel c0, parseMain (fuel + 8) (State.initial c0
        [TOKEN_IF, TOKEN_LPAREN, TOKEN_NUMBER 1, TOKEN_RPAREN,
          TOKEN_IF, TOKEN_LPAREN, TOKEN_NUMBER 2, TOKEN_RPAREN,
          TOKEN_IF, TOKEN_LPAREN, TOKEN_NUMBER 3, TOKEN_RPAREN,
          TOKEN_NUMBER 4, TOKEN_SEMICOLON, TOKEN_NUMBER 5, TOKEN_SEMICOLON]) =
      Outcome.ok
        [IfExpr (NumberExpr 1)
          (IfExpr (NumberExpr 2) (IfExpr (NumberExpr 3) (NumberExpr 4) none) none) none,
          NumberExpr 5]
        ⟨TOKEN_EOF, none, [],
          [NumberExpr 1, NumberExpr 2, NumberExpr 3, NumberExpr 4,
            IfExpr (NumberExpr 3) (NumberExpr 4) none,
            IfExpr (NumberExpr 2) (IfExpr (NumberExpr 3) (NumberExpr 4) none) none,
            IfExpr (NumberExpr 1)
              (IfExpr (NumberExpr 2) (IfExpr (NumberExpr 3) (NumberExpr 4) none) none) none,
            NumberExpr 5]⟩) := by
  refine ⟨nextToken_buffered, fun s => ?_, fun s s' h => ?_, parsePipeline_no_contract,
    fun fuel s => parseMainLoop_no_contract fuel [] s, fun fuel c0 => ?_⟩
  · cases s with
    | mk c b i x => cases b <;> simp [unreadToken]
  · cases s with
    | mk c b i x =>
      cases b with
      | some t => cases h
      | none => cases h; rfl
  · refine Outcome.refines_ok (parseMainLoop_mono 8 (fuel + 8) (by omega) [] _) ?_
    simp [parseMainLoop, parsePipeline, parseStatement, parseExpression,
      parseBinaryExpression, parsePrimary, binaryLoop, State.initial, unreadToken, nextToken,
      currToken, State.push_back, Outcome.bind]

/-- Witness of C18: after `5` has been pushed back once, a second pushback with no
advance in between is the failure that no run of the parser reaches. -/
theorem pushback_slot_never_occupied_twice_witness :
    unreadToken ⟨TOKEN_NUMBER 5, some (TOKEN_NUMBER 5), [TOKEN_SEMICOLON], []⟩ = none :=
  pushback_slot_never_occupied_twice.2.2.1 ⟨TOKEN_NUMBER 5, none, [TOKEN_SEMICOLON], []⟩
    ⟨TOKEN_NUMBER 5, some (TOKEN_NUMBER 5), [TOKEN_SEMICOLON], []⟩ rfl

/-- Claim C19: every call of `parsePipeline` that returns a unit leaves
`ExprStorage` as it was before the call followed by the nodes of the returned
tree, each node once, children before their parent; the entries present before
the call are unchanged and keep their positions. -/
theorem parsePipeline_registers_returned_tree (fuel : Nat) (s s' : State) (e : ExprAST)
    (h : parsePipeline fuel s = Outcome.ok (some e) s') :
    s'.ExprStorage = s.ExprStorage ++ e.nodes ∧
    s'.ExprStorage.length = s.ExprStorage.length + e.nodes.length ∧
    (∀ i, i < s.ExprStorage.length → s'.ExprStorage[i]? = s.ExprStorage[i]?) := by
  have h1 : s'.ExprStorage = s.ExprStorage ++ e.nodes := by
    simpa [nodesOption] using parsePipeline_storage h
  refine ⟨h1, by simp [h1], fun i hi => ?_⟩
  rw [h1, List.getElem?_append_left hi]

/-- Witness of C19: `1 + f ( 2 ) ;` parsed with one entry already in the arena. -/
theorem parsePipeline_registers_returned_tree_witness :
    parsePipeline 10
        ⟨TOKEN_EOF, none, [TOKEN_NUMBER 1, TOKEN_OP '+', TOKEN_IDENTIFIER "f", TOKEN_LPAREN,
          TOKEN_NUMBER 2, TOKEN_RPAREN, TOKEN_SEMICOLON], [NumberExpr 9]⟩ =
      Outcome.ok (some (BinaryExpr '+' (NumberExpr 1) (CallExpr "f" [NumberExpr 2])))
        ⟨TOKEN_SEMICOLON, none, [],
          [NumberExpr 9, NumberExpr 1, NumberExpr 2, CallExpr "f" [NumberExpr 2],
            BinaryExpr '+' (NumberExpr 1) (CallExpr "f" [NumberExpr 2])]⟩ ∧
    [NumberExpr 9, NumberExpr 1, NumberExpr 2, CallExpr "f" [NumberExpr 2],
        BinaryExpr '+' (NumberExpr 1) (CallExpr "f" [NumberExpr 2])] =
      [NumberExpr 9] ++ (BinaryExpr '+' (NumberExpr 1) (CallExpr "f" [NumberExpr 2])).nodes :=
  ⟨rfl, (parsePipeline_registers_returned_tree 10
    ⟨TOKEN_EOF, none, [TOKEN_NUMBER 1, TOKEN_OP '+', TOKEN_IDENTIFIER "f", TOKEN_LPAREN,
      TOKEN_NUMBER 2, TOKEN_RPAREN, TOKEN_SEMICOLON], [NumberExpr 9]⟩
    ⟨TOKEN_SEMICOLON, none, [],
      [NumberExpr 9, NumberExpr 1, NumberExpr 2, CallExpr "f" [NumberExpr 2],
        BinaryExpr '+' (NumberExpr 1) (CallExpr "f" [NumberExpr 2])]⟩
    (BinaryExpr '+' (NumberExpr 1) (CallExpr "f" [NumberExpr 2])) rfl).1⟩

/-- Claim C20: parsing terminates.  From every state of the cursor (a finite
token list, after which every advance delivers end-of-input), `parsePipeline`
and `parseMain` settle, once the fuel is large enough, on a fatal abort or on a
result (a unit or the no-unit sentinel; a list of units).  Every call of a parse
function that returns has consumed at least one token, and every iteration of
the argument loop, the binary-operator loop, the block loop and the parameter
loop enters the next iteration with fewer tokens left.  The call stack is
bounded by the nesting depth of the input: a top-level unit of nesting depth `n`
is parsed by `parsePipeline` within `5 * n + 7` stack frames and a program of
such units by `parseMain` within `5 * n + 8`, with the same results as on an
unbounded stack; `1 ;` (depth 0) needs 5 frames. -/
theorem parsing_terminates_within_nesting_depth :
    (∀ s, ∃ N, (∀ fuel, N ≤ fuel → parsePipeline fuel s = Outcome.fatal) ∨
      ∃ r s', ∀ fuel, N ≤ fuel → parsePipeline fuel s = Outcome.ok r s') ∧
    (∀ s, ∃ N, (∀ fuel, N ≤ fuel → parseMain fuel s = Outcome.fatal) ∨
      ∃ es s', ∀ fuel, N ≤ fuel → parseMain fuel s = Outcome.ok es s') ∧
    (∀ fuel s e s',
      (parsePrimary fuel s = Outcome.ok e s' → s'.remaining < s.remaining) ∧
      (∀ P, parseBinaryExpression fuel P s = Outcome.ok e s' → s'.remaining < s.remaining) ∧
      (parseExpression fuel s = Outcome.ok e s' → s'.remaining < s.remaining) ∧
      (parseStatement fuel s = Outcome.ok e s' → s'.remaining < s.remaining) ∧
      (parsePipeline fuel s = Outcome.ok (some e) s' → s'.remaining < s.remaining)) ∧
    (∀ fuel Args s s1 Arg,
      parseExpression fuel s = Outcome.ok Arg s1 → currToken s1 = TOKEN_COMMA →
      parseArgs (fuel + 1) Args s = parseArgs fuel (Args ++ [Arg]) (nextToken s1) ∧
        (nextToken s1).remaining < s.remaining) ∧
    (∀ fuel P R Right s s1 op,
      currToken s = TOKEN_OP op → op ∈ BinaryOpSet → P < precedenceOf op →
      parseBinaryExpression fuel (precedenceOf op) (nextToken s) = Outcome.ok Right s1 →
      binaryLoop (fuel + 1) P R s =
          binaryLoop fuel P (BinaryExpr op R Right) (s1.push_back (BinaryExpr op R Right)) ∧
        (s1.push_back (BinaryExpr op R Right)).remaining < s.remaining) ∧
    (∀ fuel Exprs s s1 Expr,
      currToken (nextToken s) ≠ TOKEN_RBRACE →
      parseStatement fuel (nextToken s) = Outcome.ok Expr s1 →
      parseBlock (fuel + 1) Exprs s = parseBlock fuel (Exprs ++ [Expr]) s1 ∧
        s1.remaining < s.remaining) ∧
    (∀ fuel Args s p,
      currToken s = TOKEN_IDENTIFIER p → currToken (nextToken s) = TOKEN_COMMA →
      parseParams (fuel + 1) Args s = parseParams fuel (Args ++ [p]) (nextToken (nextToken s)) ∧
        (nextToken (nextToken s)).remaining < s.remaining) ∧
    (∀ u n, Nested Category.unit u n →
      ∀ c0 rest, rest.head? ≠ some TOKEN_ELSE →
      ∃ N e s', ∀ fuel depth, N ≤ fuel → 5 * n + 7 ≤ depth →
        parsePipelineD fuel depth (State.initial c0 (u ++ rest)) = Outcome.ok (some e) s' ∧
        parsePipeline fuel (State.initial c0 (u ++ rest)) = Outcome.ok (some e) s') ∧
    (∀ units n, (∀ u, u ∈ units → Nested Category.unit u n) →
      ∀ c0, ∃ N es storage, ∀ fuel depth, N ≤ fuel → 5 * n + 8 ≤ depth →
        parseMainD fuel depth (State.initial c0 (concatTokens units)) =
          Outcome.ok es ⟨TOKEN_EOF, none, [], storage⟩ ∧
        parseMain fuel (State.initial c0 (concatTokens units)) =
          Outcome.ok es ⟨TOKEN_EOF, none, [], storage⟩) ∧
    (∀ fuel depth s,
      (parsePipelineD fuel depth s = Outcome.outOfFuel ∨
        parsePipeline fuel s = parsePipelineD fuel depth s) ∧
      (parseMainD fuel depth s = Outcome.outOfFuel ∨
        parseMain fuel s = parseMainD fuel depth s)) ∧
    (∀ c0 fuel,
      parsePipelineD fuel 4 (State.initial c0 [TOKEN_NUMBER 1, TOKEN_SEMICOLON]) =
        Outcome.outOfFuel ∧
      parsePipelineD (fuel + 4) 5 (State.initial c0 [TOKEN_NUMBER 1, TOKEN_SEMICOLON]) =
        Outcome.ok (some (NumberExpr 1)) ⟨TOKEN_SEMICOLON, none, [], [NumberExpr 1]⟩) := by
  refine ⟨fun s => (parsePipeline_halts s).settles (fun fuel => parsePipeline_no_contract fuel s),
    fun s => (parseMainLoop_halts s.remaining s [] (le_refl _)).settles
      (fun fuel => parseMainLoop_no_contract fuel [] s),
    fun fuel s e s' => ⟨(expr_progress fuel).1 s e s',
      fun P => (expr_progress fuel).2.2.1 P s e s', (expr_progress fuel).2.2.2.2 s e s',
      (stmt_progress fuel).1 s e s', parsePipeline_progress⟩,
    fun fuel Args s s1 Arg h hc => parseArgs_iteration fuel Args s s1 Arg h hc,
    fun fuel P R Right s s1 op hc hop hP h => binaryLoop_iteration fuel P R Right s s1 hc hop hP h,
    fun fuel Exprs s s1 Expr hc h => parseBlock_iteration fuel Exprs s s1 Expr hc h,
    fun fuel Args s p hp hc => parseParams_iteration fuel Args s hp hc,
    fun u n h c0 rest hrest => parsePipelineD_unit h c0 rest hrest,
    fun units n h c0 => parseMainD_units units h c0,
    fun fuel depth s => ⟨parsePipelineD_refines fuel depth s, parseMainD_refines fuel depth s⟩,
    fun c0 fuel => ⟨?_, ?_⟩⟩
  · rcases fuel with _ | _ | _ | _ | k <;>
      simp [parsePipelineD, parseStatementD, parseExpressionD, parseBinaryExpressionD,
        parsePrimaryD, State.initial, nextToken, currToken, Outcome.bind]
  · simp [parsePipelineD, parseStatementD, parseExpressionD, parseBinaryExpressionD,
      parsePrimaryD, binaryLoopD, State.initial, nextToken, currToken, Outcome.bind,
      State.push_back]

/-- Witness of C20 on `( 1 ) ;`, a unit of nesting depth 1: `parsePrimary`
consumes the parenthesised `1`, and `parsePipeline` reads the unit within
`5 * 1 + 7` frames. -/
theorem parsing_terminates_within_nesting_depth_witness :
    (⟨TOKEN_SEMICOLON, none, [], [NumberExpr 1]⟩ : State).remaining <
      (State.reading [TOKEN_LPAREN, TOKEN_NUMBER 1, TOKEN_RPAREN, TOKEN_SEMICOLON] []).remaining ∧
    ∃ N e s', ∀ fuel depth, N ≤ fuel → 5 * 1 + 7 ≤ depth →
      parsePipelineD fuel depth (State.initial TOKEN_EOF
          ([TOKEN_LPAREN, TOKEN_NUMBER 1, TOKEN_RPAREN, TOKEN_SEMICOLON] ++ [])) =
        Outcome.ok (some e) s' ∧
      parsePipeline fuel (State.initial TOKEN_EOF
          ([TOKEN_LPAREN, TOKEN_NUMBER 1, TOKEN_RPAREN, TOKEN_SEMICOLON] ++ [])) =
        Outcome.ok (some e) s' :=
  ⟨(parsing_terminates_within_nesting_depth.2.2.1 4
      (State.reading [TOKEN_LPAREN, TOKEN_NUMBER 1, TOKEN_RPAREN, TOKEN_SEMICOLON] [])
      (NumberExpr 1) ⟨TOKEN_SEMICOLON, none, [], [NumberExpr 1]⟩).1 rfl,
    parsing_terminates_within_nesting_depth.2.2.2.2.2.2.2.1
      [TOKEN_LPAREN, TOKEN_NUMBER 1, TOKEN_RPAREN, TOKEN_SEMICOLON] 1
      (Nested.stmtUnit (Nested.closedStmt (Nested.exprStmt
        (Nested.chain [] (Nested.paren
          (Nested.chain [] (Nested.number 1 0) (fun _ h => absurd h (List.not_mem_nil _))
            (fun _ h => absurd h (List.not_mem_nil _))))
          (fun _ h => absurd h (List.not_mem_nil _))
          (fun _ h => absurd h (List.not_mem_nil _))))))
      TOKEN_EOF [] (by simp)⟩

/-- Claim C21: operand and operator order is preserved.  Whenever
`parseExpression` succeeds on a token sequence, it has consumed a prefix of the
sequence and stops with the rest still to be read; the returned tree is built
from numbers, variables, calls and binary operators only; and its in-order
traversal (left operand, operator, right operand; callee, then the arguments
from left to right) is exactly the consumed prefix with its parentheses and
commas removed, the consumed tokens being identifiers, numbers, operators,
parentheses and commas. -/
theorem parseExpression_preserves_token_order (fuel : Nat) (toks : List Token)
    (storage : List ExprAST) (e : ExprAST) (s' : State)
    (h : parseExpression fuel (State.reading toks storage) = Outcome.ok e s') :
    isExpression e = true ∧
    ∃ consumed rest storage', toks = consumed ++ rest ∧ s' = State.reading rest storage' ∧
      e.inorder = withoutPunctuation consumed ∧ consumed.all isExpressionToken = true :=
  ⟨(expr_isExpression fuel).2.2.2.2 _ _ _ h, (expr_inorder fuel).2.2.2.2 _ _ _ _ h⟩

/-- Witness of C21: `1 + f ( 2 , x ) * ( 3 - y ) ;`. -/
theorem parseExpression_preserves_token_order_witness :
    (isExpression (BinaryExpr '+' (NumberExpr 1)
        (BinaryExpr '*' (CallExpr "f" [NumberExpr 2, VariableExpr "x"])
          (BinaryExpr '-' (NumberExpr 3) (VariableExpr "y")))) = true ∧
    ∃ consumed rest storage',
      [TOKEN_NUMBER 1, TOKEN_OP '+', TOKEN_IDENTIFIER "f", TOKEN_LPAREN, TOKEN_NUMBER 2,
        TOKEN_COMMA, TOKEN_IDENTIFIER "x", TOKEN_RPAREN, TOKEN_OP '*', TOKEN_LPAREN,
        TOKEN_NUMBER 3, TOKEN_OP '-', TOKEN_IDENTIFIER "y", TOKEN_RPAREN, TOKEN_SEMICOLON] =
        consumed ++ rest ∧
      (State.reading [TOKEN_SEMICOLON]
        [NumberExpr 1, NumberExpr 2, VariableExpr "x",
          CallExpr "f" [NumberExpr 2, VariableExpr "x"], NumberExpr 3, VariableExpr "y",
          BinaryExpr '-' (NumberExpr 3) (VariableExpr "y"),
          BinaryExpr '*' (CallExpr "f" [NumberExpr 2, VariableExpr "x"])
            (BinaryExpr '-' (NumberExpr 3) (VariableExpr "y")),
          BinaryExpr '+' (NumberExpr 1)
            (BinaryExpr '*' (CallExpr "f" [NumberExpr 2, VariableExpr "x"])
              (BinaryExpr '-' (NumberExpr 3) (VariableExpr "y")))]) =
        State.reading rest storage' ∧
      (BinaryExpr '+' (NumberExpr 1)
        (BinaryExpr '*' (CallExpr "f" [NumberExpr 2, VariableExpr "x"])
          (BinaryExpr '-' (NumberExpr 3) (VariableExpr "y")))).inorder =
        withoutPunctuation consumed ∧
      consumed.all isExpressionToken = true) ∧
    (BinaryExpr '+' (NumberExpr 1)
      (BinaryExpr '*' (CallExpr "f" [NumberExpr 2, VariableExpr "x"])
        (BinaryExpr '-' (NumberExpr 3) (VariableExpr "y")))).inorder =
      [TOKEN_NUMBER 1, TOKEN_OP '+', TOKEN_IDENTIFIER "f", TOKEN_NUMBER 2,
        TOKEN_IDENTIFIER "x", TOKEN_OP '*', TOKEN_NUMBER 3, TOKEN_OP '-',
        TOKEN_IDENTIFIER "y"] :=
  ⟨parseExpression_preserves_token_order 12
    [TOKEN_NUMBER 1, TOKEN_OP '+', TOKEN_IDENTIFIER "f", TOKEN_LPAREN, TOKEN_NUMBER 2,
      TOKEN_COMMA, TOKEN_IDENTIFIER "x", TOKEN_RPAREN, TOKEN_OP '*', TOKEN_LPAREN,
      TOKEN_NUMBER 3, TOKEN_OP '-', TOKEN_IDENTIFIER "y", TOKEN_RPAREN, TOKEN_SEMICOLON] [] _ _
    (by simp [parseExpression, parseBinaryExpression, parsePrimary, parseArgs, binaryLoop,
      BinaryOpSet, OpPrecedenceMap, List.lookup, Outcome.bind, State.push_back]), rfl⟩

end Toy
